import Mathlib

/-!
# Brand canonicalisation in `api/generate.js`

A shallow embedding of the helpers of `src/api/generate.js`
(`escapeRegex`, `normalizeSpaces`, `toTitleCaseFromAllLower`, `canonicalizeBrand`,
`buildBrandRegex`, `replaceBrandEverywhere`, `forceBrandCanonicalEverywhere`,
`buildClassicMainText`) together with the fragment of the ECMAScript runtime they rely on
(`String.prototype.trim`, `split`, `join`, `toUpperCase`, and `String.prototype.replace`
with a global, case-insensitive, multiline regular expression).

Conventions.
* A JavaScript string is a list of characters (`Str`); texts are well-formed Unicode.
* The Unicode upper-case table of the host is a parameter `up : Char → Str`
  (the value of `c.toUpperCase()` for a character `c` of the Basic Multilingual Plane
  outside ASCII).  On ASCII the mapping is fixed by the language and is built in.
* A value that may be `undefined` or `null` is an `Option`.
* The conversion `String(v)` of a value that is not a string is a parameter `hostString`.
-/

namespace Generate

/-- A JavaScript string, as the list of its characters. -/
abbrev Str := List Char

/-! ## Character classes of the runtime -/

/-- The class `[A-Z]`. -/
def isAsciiUpper (c : Char) : Bool := decide (65 ≤ c.toNat) && decide (c.toNat ≤ 90)

/-- The class `[a-z]`. -/
def isAsciiLower (c : Char) : Bool := decide (97 ≤ c.toNat) && decide (c.toNat ≤ 122)

/-- The class `[0-9]`. -/
def isAsciiDigit (c : Char) : Bool := decide (48 ≤ c.toNat) && decide (c.toNat ≤ 57)

/-- The class `[A-Za-z0-9]` read case-sensitively. -/
def isAsciiAlnum (c : Char) : Bool := isAsciiUpper c || isAsciiLower c || isAsciiDigit c

/-- Code points of the ECMAScript `WhiteSpace` and `LineTerminator` productions: the
characters removed by `trim` and matched by `\s`. -/
def whiteSpaceCodes : List Nat :=
  [9, 10, 11, 12, 13, 32, 160, 0x1680, 0x2000, 0x2001, 0x2002, 0x2003, 0x2004, 0x2005,
   0x2006, 0x2007, 0x2008, 0x2009, 0x200A, 0x2028, 0x2029, 0x202F, 0x205F, 0x3000, 0xFEFF]

/-- The test `\s` of a regular expression without the `i` flag, and of `trim`. -/
def isWhiteSpace (c : Char) : Bool := whiteSpaceCodes.contains c.toNat

/-- The ECMAScript `LineTerminator` characters, after which `^` matches in multiline mode. -/
def isLineTerminator (c : Char) : Bool :=
  c.toNat == 10 || c.toNat == 13 || c.toNat == 0x2028 || c.toNat == 0x2029

/-! ## Upper-casing -/

/-- Upper-case of an ASCII character. -/
def asciiUpper (c : Char) : Char :=
  if isAsciiLower c then Char.ofNat (c.toNat - 32) else c

/-- The method `c.toUpperCase()` for a one-character string.  ASCII is mapped by the fixed
rule, a character outside the Basic Multilingual Plane is a surrogate pair whose leading
code unit has no case mapping, and the remaining characters are looked up in the table
`up` of the host. -/
def toUpperCase (up : Char → Str) (c : Char) : Str :=
  if c.toNat < 128 then [asciiUpper c]
  else if 65536 ≤ c.toNat then [c]
  else up c

/-- The abstract operation `Canonicalize(ch)` used by a regular expression with the `i`
flag and without the `u` flag: the upper-case of `ch` when it is a single character, except
that a non-ASCII character is never mapped to an ASCII one. -/
def canonicalize (up : Char → Str) (ch : Char) : Char :=
  match toUpperCase up ch with
  | [cu] => if 128 ≤ ch.toNat ∧ cu.toNat < 128 then ch else cu
  | _ => ch

/-- An upper-case table used to evaluate examples.  It agrees with `toUpperCase` on the
Latin-1 Supplement (U+0080 to U+00FF) and on the Cyrillic letters U+0400 to U+045F, and maps
every other character to itself, which is not always the value of the host. -/
def sampleUpper (c : Char) : Str :=
  let n := c.toNat
  if n = 0xDF then ['S', 'S']
  else if n = 0xB5 then [Char.ofNat 0x39C]
  else if n = 0xFF then [Char.ofNat 0x178]
  else if 0xE0 ≤ n ∧ n ≤ 0xFE ∧ n ≠ 0xF7 then [Char.ofNat (n - 0x20)]
  else if 0x430 ≤ n ∧ n ≤ 0x44F then [Char.ofNat (n - 0x20)]
  else if 0x450 ≤ n ∧ n ≤ 0x45F then [Char.ofNat (n - 0x50)]
  else [c]

/-! ## `normalizeSpaces` -/

/-- The coercion `String(s || '')` for a string that may be missing. -/
def stringOrEmpty (s : Option Str) : Str := s.getD []

/-- The method `String.prototype.trim`. -/
def trim (s : Str) : Str :=
  ((s.dropWhile isWhiteSpace).reverse.dropWhile isWhiteSpace).reverse

/-- The call `s.replace(/\s+/g, r)`: every maximal run of white space becomes `r`.  The
flag tells whether the previous character belonged to a run. -/
def replaceSpaceRunsAux (r : Str) : Bool → Str → Str
  | _, [] => []
  | inRun, c :: s =>
    if isWhiteSpace c then
      (if inRun then replaceSpaceRunsAux r true s else r ++ replaceSpaceRunsAux r true s)
    else c :: replaceSpaceRunsAux r false s

/-- The call `s.replace(/\s+/g, r)`. -/
def replaceSpaceRuns (r : Str) (s : Str) : Str := replaceSpaceRunsAux r false s

/-- Source: `normalizeSpaces = (s) => String(s || '').trim().replace(/\s+/g, ' ')`. -/
def normalizeSpaces (s : Option Str) : Str :=
  replaceSpaceRuns [' '] (trim (stringOrEmpty s))

/-! ## `toTitleCaseFromAllLower` and `canonicalizeBrand` -/

/-- The call `s.split(' ')`. -/
def splitSpace : Str → List Str
  | [] => [[]]
  | c :: s =>
    if c = ' ' then [] :: splitSpace s
    else
      match splitSpace s with
      | w :: ws => (c :: w) :: ws
      | [] => [[c]]

/-- The callback `w => (w ? (w[0].toUpperCase() + w.slice(1)) : '')`. -/
def capitalizeWord (up : Char → Str) : Str → Str
  | [] => []
  | c :: w => toUpperCase up c ++ w

/-- The call `ws.join(' ')`. -/
def joinSpace (ws : List Str) : Str := List.intercalate [' '] ws

/-- Source: `toTitleCaseFromAllLower`. -/
def toTitleCaseFromAllLower (up : Char → Str) (s : Str) : Str :=
  joinSpace ((splitSpace (normalizeSpaces (some s))).map (capitalizeWord up))

/-- Source: `canonicalizeBrand`. -/
def canonicalizeBrand (up : Char → Str) (raw : Option Str) : Str :=
  let cleaned := normalizeSpaces raw
  if cleaned = [] then []
  else
    let hasUpper := cleaned.any isAsciiUpper
    let hasLower := cleaned.any isAsciiLower
    if hasUpper then cleaned
    else if hasLower && !hasUpper then toTitleCaseFromAllLower up cleaned
    else cleaned

/-! ## `escapeRegex` and the pattern of `buildBrandRegex` -/

/-- Exceptions that the embedded code can throw. -/
inductive JsError where
  | invalidPattern
  | typeError
  deriving DecidableEq, Repr

deriving instance DecidableEq for Except

/-- The characters of the class `[.*+?^${}()|[\]\\]` of `escapeRegex`; they are also the
characters with a special meaning in a pattern. -/
def patternSpecials : Str :=
  ['.', '*', '+', '?', '^', '$', '{', '}', '(', ')', '|', '[', ']', '\\']

/-- Membership in `patternSpecials`. -/
def isPatternSpecial (c : Char) : Bool := patternSpecials.contains c

/-- Source: `escapeRegex = (s) => String(s).replace(/[.*+?^${}()|[\]\\]/g, '\\$&')`. -/
def escapeRegex : Str → Str
  | [] => []
  | c :: s => if isPatternSpecial c then '\\' :: c :: escapeRegex s else c :: escapeRegex s

/-- The text spliced into the pattern:
`escapeRegex(cleaned).replace(/\s+/g, '\\s+')`. -/
def brandCore (cleaned : Str) : Str :=
  replaceSpaceRuns ['\\', 's', '+'] (escapeRegex cleaned)

/-- The terms a brand core is made of. -/
inductive Atom where
  | lit (c : Char)
  | spaces
  deriving DecidableEq, Repr

/-- Reading of the core by the `RegExp` constructor: `\s+` is a run of white space, a
backslash followed by a special character is that character, any other character that is
not special stands for itself.  A core outside this fragment is not given a meaning here
(`none`). -/
def parseCore : Str → Option (List Atom)
  | [] => some []
  | c :: s =>
    if c = '\\' then
      match s with
      | 's' :: '+' :: rest => (parseCore rest).map (fun as => Atom.spaces :: as)
      | d :: rest => if isPatternSpecial d then (parseCore rest).map (fun as => Atom.lit d :: as) else none
      | [] => none
    else if isPatternSpecial c then none
    else (parseCore s).map (fun as => Atom.lit c :: as)

/-- The compiled expression
`new RegExp("(^|[^A-Za-z0-9])(" + core + ")(?:'s|’s|s)?(?![A-Za-z0-9])", 'gim')`,
represented by the terms of its core. -/
def newBrandRegExp (core : Str) : Except JsError (List Atom) :=
  match parseCore core with
  | some as => .ok as
  | none => .error .invalidPattern

/-- Source: `buildBrandRegex`; `none` is the `null` returned for an empty brand. -/
def buildBrandRegex (brandRaw : Option Str) : Except JsError (Option (List Atom)) :=
  let cleaned := normalizeSpaces brandRaw
  if cleaned = [] then .ok none
  else (newBrandRegExp (brandCore cleaned)).map some

/-! ## Matching: the semantics of the compiled expression

The expression is `(^|[^A-Za-z0-9])(core)(?:'s|’s|s)?(?![A-Za-z0-9])` with the flags `gim`.
A backtracking matcher is described by the list of its possible results, in the order in
which backtracking tries them; the match that is reported is the first one.

Under the `i` flag (without `u`) a pattern character and an input character are compared
through `canonicalize`.  The classes `[A-Za-z0-9]` and `\s` are not affected by the flag:
an ASCII letter is only ever the canonical form of an ASCII letter, and no case mapping
involves a white-space character. -/

/-- A pattern character `c` against an input character `x` under the `i` flag. -/
def charMatches (up : Char → Str) (c x : Char) : Bool :=
  canonicalize up c == canonicalize up x

/-- The ways `\s+` can match at the start of `s`: every non-empty prefix made of white
space, the longest first (the quantifier is greedy).  A result is the pair of the matched
text and the remaining input. -/
def spaceRuns : Str → List (Str × Str)
  | [] => []
  | c :: s =>
    if isWhiteSpace c then (spaceRuns s).map (fun r => (c :: r.1, r.2)) ++ [([c], s)]
    else []

/-- The ways the core can match at the start of the input, in backtracking order. -/
def matchAtoms (up : Char → Str) : List Atom → Str → List (Str × Str)
  | [], s => [([], s)]
  | Atom.lit c :: as, x :: s =>
    if charMatches up c x then (matchAtoms up as s).map (fun r => (x :: r.1, r.2)) else []
  | Atom.lit _ :: _, [] => []
  | Atom.spaces :: as, s =>
    (spaceRuns s).flatMap
      (fun run => (matchAtoms up as run.2).map (fun r => (run.1 ++ r.1, r.2)))

/-- A literal piece of pattern against the start of the input. -/
def matchLiteral (up : Char → Str) : Str → Str → Option (Str × Str)
  | [], s => some ([], s)
  | _ :: _, [] => none
  | c :: p, x :: s =>
    if charMatches up c x then (matchLiteral up p s).map (fun r => (x :: r.1, r.2)) else none

/-- The three alternatives of the suffix group `(?:'s|’s|s)`, in order. -/
def suffixPatterns : List Str := ["'s".toList, "’s".toList, "s".toList]

/-- The ways `(?:'s|’s|s)?` can match: the three alternatives in order, then nothing. -/
def suffixAlts (up : Char → Str) (s : Str) : List (Str × Str) :=
  suffixPatterns.flatMap (fun p => (matchLiteral up p s).toList) ++ [([], s)]

/-- The look-ahead `(?![A-Za-z0-9])` at the remaining input. -/
def lookaheadOk : Str → Bool
  | [] => true
  | c :: _ => !isAsciiAlnum c

/-- A successful match: the captured left boundary, the text matched by the core, the
suffix, and the input that remains. -/
structure Match where
  left : Str
  brand : Str
  suffix : Str
  rest : Str
  deriving DecidableEq, Repr

/-- The part of the expression after the first group, at the start of `s`: the first
combination of a core match and a suffix match that passes the look-ahead. -/
def matchBody (up : Char → Str) (atoms : List Atom) (s : Str) : Option (Str × Str × Str) :=
  ((matchAtoms up atoms s).flatMap
      (fun m => (suffixAlts up m.2).map (fun r => (m.1, r.1, r.2)))).find?
    (fun r => lookaheadOk r.2.2)

/-- The assertion `^` in multiline mode: the position is the start of the text or follows a
line terminator.  `prev` is the character before the position, if any. -/
def atLineStart : Option Char → Bool
  | none => true
  | some p => isLineTerminator p

/-- One attempt to match the whole expression at a position: `prev` is the character before
it and `s` the input from it.  The alternative `^` is tried first, then `[^A-Za-z0-9]`. -/
def execAt (up : Char → Str) (atoms : List Atom) (prev : Option Char) (s : Str) :
    Option Match :=
  match (if atLineStart prev then matchBody up atoms s else none) with
  | some r => some ⟨[], r.1, r.2.1, r.2.2⟩
  | none =>
    match s with
    | [] => none
    | c :: t =>
      if isAsciiAlnum c then none
      else (matchBody up atoms t).map (fun r => ⟨[c], r.1, r.2.1, r.2.2⟩)

/-- The loop of `text.replace(rx, (_, left) => left + repl)` for a global expression: at
each position the expression is tried; on a match the replacement is emitted and the
search resumes after the match, otherwise the character is copied.  After an empty match
the search resumes one character further.  The first argument bounds the number of
steps. -/
def replaceLoop (up : Char → Str) (atoms : List Atom) (repl : Str) :
    Nat → Option Char → Str → Str
  | 0, _, s => s
  | fuel + 1, prev, s =>
    match execAt up atoms prev s with
    | some m =>
      match (m.left ++ m.brand ++ m.suffix).getLast? with
      | some p => m.left ++ repl ++ replaceLoop up atoms repl fuel (some p) m.rest
      | none =>
        match s with
        | [] => repl
        | c :: t => repl ++ c :: replaceLoop up atoms repl fuel (some c) t
    | none =>
      match s with
      | [] => []
      | c :: t => c :: replaceLoop up atoms repl fuel (some c) t

/-- The call `text.replace(rx, (_, left) => left + repl)`.  Every step of the loop consumes
a character, so `text.length + 1` steps are enough. -/
def replaceBrand (up : Char → Str) (atoms : List Atom) (repl : Str) (text : Str) : Str :=
  replaceLoop up atoms repl (text.length + 1) none text

/-! ## Documents and the two rewriters -/

/-- A parsed JSON value.  An object is the list of its properties in enumeration order. -/
inductive Doc where
  | null : Doc
  | bool (b : Bool) : Doc
  | num (n : Int) : Doc
  | str (s : Str) : Doc
  | arr (items : List Doc) : Doc
  | obj (fields : List (Str × Doc)) : Doc

/-- The body of the loop of `replaceBrandEverywhere` for one property value:
`if (typeof obj[key] === 'string' && obj[key]) obj[key] = obj[key].replace(rx, ...)`. -/
def replaceInValue (up : Char → Str) (rx : List Atom) (canonicalBrand : Str) : Doc → Doc
  | Doc.str s => if s = [] then Doc.str s else Doc.str (replaceBrand up rx canonicalBrand s)
  | v => v

/-- Source: `replaceBrandEverywhere`, returning the mutated argument.  The loop
`for (const key in obj)` visits the properties of an object and the indices of an array; it
visits nothing for `null`, a number, a boolean or the empty string; for a non-empty string
it visits the indices, and the assignment to an index of a string throws in module code. -/
def replaceBrandEverywhere (up : Char → Str) (obj : Doc) (brandRaw : Option Str)
    (canonicalBrand : Str) : Except JsError Doc :=
  match buildBrandRegex brandRaw with
  | .error e => .error e
  | .ok none => .ok obj
  | .ok (some rx) =>
    match obj with
    | Doc.obj fields =>
      .ok (Doc.obj (fields.map (fun kv => (kv.1, replaceInValue up rx canonicalBrand kv.2))))
    | Doc.arr items => .ok (Doc.arr (items.map (replaceInValue up rx canonicalBrand)))
    | Doc.str s => if s = [] then .ok obj else .error .typeError
    | v => .ok v

mutual
/-- The inner function `walk` of `forceBrandCanonicalEverywhere`. -/
def walk (up : Char → Str) (rx : List Atom) (canonicalBrand : Str) : Doc → Doc
  | Doc.str s => if s = [] then Doc.str s else Doc.str (replaceBrand up rx canonicalBrand s)
  | Doc.arr items => Doc.arr (walkItems up rx canonicalBrand items)
  | Doc.obj fields => Doc.obj (walkFields up rx canonicalBrand fields)
  | v => v
/-- The call `v.map(walk)` on an array. -/
def walkItems (up : Char → Str) (rx : List Atom) (canonicalBrand : Str) : List Doc → List Doc
  | [] => []
  | v :: vs => walk up rx canonicalBrand v :: walkItems up rx canonicalBrand vs
/-- The loop `for (const k in v) v[k] = walk(v[k])` on an object. -/
def walkFields (up : Char → Str) (rx : List Atom) (canonicalBrand : Str) :
    List (Str × Doc) → List (Str × Doc)
  | [] => []
  | kv :: kvs => (kv.1, walk up rx canonicalBrand kv.2) :: walkFields up rx canonicalBrand kvs
end

/-- Source: `forceBrandCanonicalEverywhere`. -/
def forceBrandCanonicalEverywhere (up : Char → Str) (generatedObj : Doc)
    (canonicalBrand : Option Str) : Except JsError Doc :=
  match canonicalBrand with
  | none => .ok generatedObj
  | some cb =>
    if cb = [] then .ok generatedObj
    else
      match buildBrandRegex (some cb) with
      | .error e => .error e
      | .ok none => .ok generatedObj
      | .ok (some rx) => .ok (walk up rx cb generatedObj)

/-- The block `canonical brand enforcement` of `handler`: the two targeted passes and the
final sweep, run when the canonical brand is not empty. -/
def enforceCanonicalBrand (up : Char → Str) (generated : Doc) (brand : Option Str) :
    Except JsError Doc :=
  let canonicalBrand := canonicalizeBrand up brand
  if canonicalBrand = [] then .ok generated
  else
    match replaceBrandEverywhere up generated brand canonicalBrand with
    | .error e => .error e
    | .ok g1 =>
      match replaceBrandEverywhere up g1 (some canonicalBrand) canonicalBrand with
      | .error e => .error e
      | .ok g2 => forceBrandCanonicalEverywhere up g2 (some canonicalBrand)

/-! ## `buildClassicMainText` -/

/-- The access `generated?.key`: the property of an object parsed from JSON; `none` stands
for `undefined`, which is also what the access gives on `null`, on a scalar and, for the
keys read here, on an array. -/
def getProp (generated : Doc) (key : Str) : Option Doc :=
  match generated with
  | Doc.obj fields => fields.lookup key
  | _ => none

/-- The coercion `String(s || '')` of a property value.  The falsy values `undefined`,
`null`, `false`, `0` and `''` give the empty string and a string gives itself; the text of
any other value is the host conversion `hostString`. -/
def paragraphText (hostString : Doc → Str) : Option Doc → Str
  | none => []
  | some Doc.null => []
  | some (Doc.str s) => s
  | some (Doc.bool b) => if b then hostString (Doc.bool b) else []
  | some (Doc.num n) => if n = 0 then [] else hostString (Doc.num n)
  | some v => hostString v

/-- The three keys read by `buildClassicMainText`, in order. -/
def paragraphKeys : List Str :=
  ["description_paragraph_1".toList, "description_paragraph_2".toList,
    "description_paragraph_3".toList]

/-- Source: `buildClassicMainText`. -/
def buildClassicMainText (hostString : Doc → Str) (generated : Doc) : Str :=
  let parts :=
    ((paragraphKeys.map (getProp generated)).map
      (fun s => trim (paragraphText hostString s))).filter (fun s => !s.isEmpty)
  List.intercalate ['\n', '\n'] parts

/-! ## Notions used in the statements -/

/-- Every white-space character of the string is an ASCII space followed by a character
that is not white space. -/
def spacesOk : Str → Bool
  | [] => true
  | c :: s =>
    (if isWhiteSpace c then
        c == ' ' && (match s with
          | [] => false
          | d :: _ => !isWhiteSpace d)
      else true) && spacesOk s

/-- A string in normal form: it does not start with white space, and its white space is
made of single ASCII spaces between two other characters. -/
def Normalized (s : Str) : Prop :=
  spacesOk s = true ∧ ∀ c, s.head? = some c → isWhiteSpace c = false

/-- A brand that is missing, empty, or made of white space only. -/
def isBlank (raw : Option Str) : Bool := (stringOrEmpty raw).all isWhiteSpace

/-- The terms of the core built from a normalized brand: a space stands for `\s+`, any
other character for itself. -/
def brandAtoms (cleaned : Str) : List Atom :=
  cleaned.map (fun c => if isWhiteSpace c then Atom.spaces else Atom.lit c)

/-- The rewrite of a text by a pass whose matcher is built from `brand` and whose
replacement is `repl`; the text itself when there is no matcher. -/
def rewriteText (up : Char → Str) (brand : Option Str) (repl : Str) (text : Str) : Str :=
  match buildBrandRegex brand with
  | .ok (some rx) => replaceBrand up rx repl text
  | _ => text

mutual
/-- The document `e` has the tree structure of `d`: the same kind of node at each place, the
same scalars, arrays of the same length in the same order, objects with the same keys in
the same order; an empty string is unchanged and a non-empty string `s` has become `f s`. -/
def sameShape (f : Str → Str) : Doc → Doc → Prop
  | Doc.null, e => e = Doc.null
  | Doc.bool b, e => e = Doc.bool b
  | Doc.num n, e => e = Doc.num n
  | Doc.str s, e => e = Doc.str (if s = [] then [] else f s)
  | Doc.arr items, e => ∃ items2, e = Doc.arr items2 ∧ sameShapeItems f items items2
  | Doc.obj fields, e => ∃ fields2, e = Doc.obj fields2 ∧ sameShapeFields f fields fields2
/-- Element-wise `sameShape` on two arrays of the same length. -/
def sameShapeItems (f : Str → Str) : List Doc → List Doc → Prop
  | [], es => es = []
  | d :: ds, es => ∃ e es2, es = e :: es2 ∧ sameShape f d e ∧ sameShapeItems f ds es2
/-- Property-wise `sameShape` on two objects with the same keys. -/
def sameShapeFields (f : Str → Str) : List (Str × Doc) → List (Str × Doc) → Prop
  | [], es => es = []
  | kv :: ds, es =>
    ∃ e es2, es = (kv.1, e) :: es2 ∧ sameShape f kv.2 e ∧ sameShapeFields f ds es2
end

/-- The loop of `replaceBrand` resumed inside a text: `prev` is the character before the
position and `s` the input from it. -/
def rewriteFrom (up : Char → Str) (atoms : List Atom) (repl : Str) (prev : Option Char)
    (s : Str) : Str :=
  replaceLoop up atoms repl (s.length + 1) prev s

/-- The strings `s` and `t` are equal up to the case of the ASCII letters. -/
def sameIgnoringCase (s t : Str) : Prop := s.map asciiUpper = t.map asciiUpper

instance sameIgnoringCaseDecidable (s t : Str) : Decidable (sameIgnoringCase s t) :=
  inferInstanceAs (Decidable (s.map asciiUpper = t.map asciiUpper))

/-- A character matched by the apostrophe of one of the suffix alternatives `'s` and
`’s`. -/
def isApostrophe (up : Char → Str) (c : Char) : Bool :=
  charMatches up (Char.ofNat 39) c || charMatches up '’' c

/-- The text contains no apostrophe. -/
def noApostrophe (up : Char → Str) (s : Str) : Prop := ∀ a ∈ s, isApostrophe up a = false

mutual
/-- Every string value of the document satisfies `P`. -/
def allStrings (P : Str → Prop) : Doc → Prop
  | Doc.str s => P s
  | Doc.arr items => allStringsItems P items
  | Doc.obj fields => allStringsFields P fields
  | _ => True
/-- Every string value of the elements of an array satisfies `P`. -/
def allStringsItems (P : Str → Prop) : List Doc → Prop
  | [] => True
  | d :: ds => allStrings P d ∧ allStringsItems P ds
/-- Every string value of the properties of an object satisfies `P`. -/
def allStringsFields (P : Str → Prop) : List (Str × Doc) → Prop
  | [] => True
  | kv :: kvs => allStrings P kv.2 ∧ allStringsFields P kvs
end

/-- In a text `pre ++ occ ++ post`, the part `occ` is a boundary-delimited occurrence of
`brand`: it equals the brand up to the case of ASCII letters, `pre` is empty or ends with a
character that is not alphanumeric, and `post` is empty or starts with one. -/
def DelimitedOccurrence (brand pre occ post : Str) : Prop :=
  sameIgnoringCase brand occ ∧ (∀ c, pre.getLast? = some c → isAsciiAlnum c = false) ∧
    lookaheadOk post = true

/-- A piece of a text cut by a global replace: a character outside every match, or a match
with its captured left boundary, the text matched by the core and the suffix. -/
inductive Piece where
  | keep (c : Char) : Piece
  | hit (left brand suffix : Str) : Piece
  deriving DecidableEq, Repr

/-- The text a piece stands for in the input. -/
def pieceSource : Piece → Str
  | Piece.keep c => [c]
  | Piece.hit left brand suffix => left ++ brand ++ suffix

/-- The text a piece becomes: a kept character is itself, a match is its captured left
boundary followed by the replacement. -/
def pieceTarget (repl : Str) : Piece → Str
  | Piece.keep c => [c]
  | Piece.hit left _ _ => left ++ repl

/-- The pieces `ps` cut the input `s`, read after the character `prev`, into the successive
matches of the expression and the characters between them: a kept character stands at a
position where the expression does not match, a hit is the match found at its position, and
the search resumes after it. -/
def Segmented (up : Char → Str) (atoms : List Atom) : Option Char → Str → List Piece → Prop
  | _, s, [] => s = []
  | prev, s, Piece.keep c :: ps =>
    ∃ t, s = c :: t ∧ execAt up atoms prev s = none ∧ Segmented up atoms (some c) t ps
  | prev, s, Piece.hit left brand suffix :: ps =>
    ∃ rest, execAt up atoms prev s = some ⟨left, brand, suffix, rest⟩ ∧
      Segmented up atoms ((left ++ brand ++ suffix).getLast?) rest ps

/-- The words of a text: its maximal runs of characters that are not white space, in
order.  `acc` is the word being read. -/
def wordsAux : Str → Str → List Str
  | acc, [] => if acc = [] then [] else [acc]
  | acc, c :: s =>
    if isWhiteSpace c then (if acc = [] then wordsAux [] s else acc :: wordsAux [] s)
    else wordsAux (acc ++ [c]) s

/-- The sequence of the words of a text. -/
def words (s : Str) : List Str := wordsAux [] s

/-- No two adjacent characters of the string are both spaces. -/
def noDoubleSpace : Str → Bool
  | c :: d :: s => !(c == ' ' && d == ' ') && noDoubleSpace (d :: s)
  | _ => true

/-- The assembly as the specification words it: the empty paragraphs are discarded and the
survivors are joined with a blank line between each pair. -/
def joinSurvivors : List Str → Str
  | [] => []
  | p :: ps =>
    if p = [] then joinSurvivors ps
    else if ps.all (fun q => q.isEmpty) then p
    else p ++ ['\n', '\n'] ++ joinSurvivors ps

/-- The trimmed text of the paragraph stored under `key`. -/
def paragraph (hostString : Doc → Str) (generated : Doc) (key : Str) : Str :=
  trim (paragraphText hostString (getProp generated key))

/-- The text `t` starts with `b` when letter case is ignored the way the `i` flag ignores
it: character by character, the canonical forms are the same. -/
def startsIgnoringCase (up : Char → Str) : Str → Str → Bool
  | [], _ => true
  | _ :: _, [] => false
  | c :: b, x :: t => canonicalize up c == canonicalize up x && startsIgnoringCase up b t

/-- The text `t` contains `b` as a substring when letter case is ignored. -/
def containsIgnoringCase (up : Char → Str) (b : Str) : Str → Bool
  | [] => startsIgnoringCase up b []
  | x :: t => startsIgnoringCase up b (x :: t) || containsIgnoringCase up b t

/-- The strings `s` and `t` are equal when case is ignored the way the `i` flag ignores it:
they have the same length and, place by place, characters with the same canonical form,
white space standing for white space. -/
def flagEqual (up : Char → Str) : Str → Str → Bool
  | [], [] => true
  | c :: s, x :: t =>
    charMatches up c x && (isWhiteSpace c == isWhiteSpace x) && flagEqual up s t
  | _, _ => false

/-- The text `t` is made of the words of the normalized brand `b`, each character in any
case that the `i` flag identifies with it, each space of the brand standing for a non-empty
run of white-space characters in the text. -/
def spacedVariant (up : Char → Str) : Str → Str → Bool
  | [], t => t.isEmpty
  | _ :: _, [] => false
  | c :: b, x :: t =>
    if isWhiteSpace c then isWhiteSpace x && spacedVariant up b (t.dropWhile isWhiteSpace)
    else charMatches up c x && spacedVariant up b t

/-- The property of the upper-case table of the host that the statements about
`canonicalizeBrand` rely on: upper-casing a character that is not white space gives a
non-empty string without white space, whose first character is its own upper-case. -/
def UpperTableOk (up : Char → Str) : Prop :=
  ∀ c, 128 ≤ c.toNat → c.toNat < 65536 → isWhiteSpace c = false →
    ∃ d rest, up c = d :: rest ∧ toUpperCase up d = [d] ∧
      ∀ x ∈ d :: rest, isWhiteSpace x = false

/-- The upper-case of the character is one character, which the `i` flag identifies with
it. -/
def upperIsCanonical (up : Char → Str) (c : Char) : Bool :=
  match toUpperCase up c with
  | [d] => flagEqual up [c] [d]
  | _ => false

/-- Every character of the string that starts a space-separated word has a one-character
upper-case that the `i` flag identifies with it.  The flag tells whether the position
starts a word. -/
def initialsCanonical (up : Char → Str) : Bool → Str → Bool
  | _, [] => true
  | start, c :: s => (!start || upperIsCanonical up c) && initialsCanonical up (c == ' ') s

/-- The resolver leaves the matcher as it is on the normalized brand `cleaned`: either it
returns `cleaned` itself (a character of `[A-Z]`, or no character of `[a-z]`), or every
word-initial character has a one-character upper-case that the `i` flag identifies with
it. -/
def resolverRegular (up : Char → Str) (cleaned : Str) : Bool :=
  cleaned.any isAsciiUpper || !cleaned.any isAsciiLower || initialsCanonical up true cleaned

/-- The string `t` is `s` with some of the characters that start a space-separated word
replaced by their upper-case and nothing else changed: same length, and at each place
either the same character, or the upper-case of a word-initial character. -/
def initialsRaised (up : Char → Str) : Bool → Str → Str → Bool
  | _, [], [] => true
  | start, c :: s, d :: t =>
    (d == c || (start && toUpperCase up c == [d])) && initialsRaised up (c == ' ') s t
  | _, _, _ => false

/-- The upper-case of a character when it is one character, the character itself
otherwise. -/
def upperOf (up : Char → Str) (c : Char) : Char :=
  match toUpperCase up c with
  | [d] => d
  | _ => c

/-- The string with each character that starts a space-separated word replaced by its
upper-case, when that is one character. -/
def raiseInitials (up : Char → Str) : Bool → Str → Str
  | _, [] => []
  | start, c :: s => (if start then upperOf up c else c) :: raiseInitials up (c == ' ') s

/-- The property of the upper-case table of the host that the statements about repeated
rewriting rely on: the `i` flag identifies a white-space character with white-space
characters only, because no case mapping involves white space. -/
def SpaceStable (up : Char → Str) : Prop :=
  ∀ c x, isWhiteSpace x = true → charMatches up c x = true → isWhiteSpace c = true

/-- The successive matches that the global expression finds in a text, as
`text.matchAll(rx)` lists them: the search resumes after each match.  The first argument
bounds the number of steps, `prev` is the character before the position. -/
def scanLoop (up : Char → Str) (atoms : List Atom) : Nat → Option Char → Str → List Match
  | 0, _, _ => []
  | fuel + 1, prev, s =>
    match execAt up atoms prev s with
    | some m =>
      match (m.left ++ m.brand ++ m.suffix).getLast? with
      | some p => m :: scanLoop up atoms fuel (some p) m.rest
      | none =>
        match s with
        | [] => [m]
        | c :: t => m :: scanLoop up atoms fuel (some c) t
    | none =>
      match s with
      | [] => []
      | c :: t => scanLoop up atoms fuel (some c) t

/-- The matches found in `s`, read after the character `prev`. -/
def scanFrom (up : Char → Str) (atoms : List Atom) (prev : Option Char) (s : Str) :
    List Match :=
  scanLoop up atoms (s.length + 1) prev s

/-- The matches that the matcher built from the normalized brand `brand` finds in a
text. -/
def scanMatches (up : Char → Str) (brand : Str) (text : Str) : List Match :=
  scanFrom up (brandAtoms brand) none text

/-- No match found in the text carries a suffix `'s`, `’s` or `s`. -/
def suffixFree (up : Char → Str) (brand : Str) (text : Str) : Bool :=
  (scanMatches up brand text).all (fun m => m.suffix.isEmpty)

/-- The text `m` is matched exactly by the terms `as`: a literal matches one character
that the `i` flag identifies with it, `\s+` a non-empty run of white space. -/
def Matches (up : Char → Str) : List Atom → Str → Prop
  | [], m => m = []
  | Atom.lit c :: as, m => ∃ x m2, m = x :: m2 ∧ charMatches up c x = true ∧ Matches up as m2
  | Atom.spaces :: as, m =>
    ∃ run m2, m = run ++ m2 ∧ run ≠ [] ∧ (∀ y ∈ run, isWhiteSpace y = true) ∧
      Matches up as m2

/-- Two terms match the same characters. -/
def atomEquiv (up : Char → Str) : Atom → Atom → Prop
  | Atom.lit a, Atom.lit b => canonicalize up a = canonicalize up b
  | Atom.spaces, Atom.spaces => True
  | _, _ => False

/-- The match is not directly followed by an apostrophe. -/
def restClear (up : Char → Str) (m : Match) : Bool :=
  match m.rest with
  | [] => true
  | a :: _ => !isApostrophe up a

/-- No match found in the text is directly followed by an apostrophe: no suffix is stacked
on a match, as in `Nike's's`. -/
def noStackedSuffix (up : Char → Str) (brand : Str) (text : Str) : Bool :=
  (scanMatches up brand text).all (restClear up)

/-- Every string that is the value of a property of the object, or an element of the array,
satisfies `P`: the strings that `replaceBrandEverywhere` rewrites. -/
def topStrings (P : Str → Prop) : Doc → Prop
  | Doc.obj fields => ∀ kv ∈ fields, ∀ s, kv.2 = Doc.str s → P s
  | Doc.arr items => ∀ d ∈ items, ∀ s, d = Doc.str s → P s
  | _ => True

/-- The plural and possessive endings `'s`, `’s` and `s`, in either letter case. -/
def suffixTexts : List Str :=
  ["'s".toList, "’s".toList, "s".toList, "'S".toList, "’S".toList, "S".toList]

/-! # Theorems -/

/-! ## Characters: basic facts -/

theorem toNat_ofNat_small (n : Nat) (h : n < 0xD800) : (Char.ofNat n).toNat = n := by
  have hv : n.isValidChar := Or.inl h
  simp only [Char.ofNat, dif_pos hv, Char.ofNatAux, Char.toNat]
  show (UInt32.ofNat' n _).toNat = n
  simp [UInt32.ofNat', UInt32.toNat]

theorem asciiUpper_toNat (c : Char) :
    (asciiUpper c).toNat = if isAsciiLower c then c.toNat - 32 else c.toNat := by
  unfold asciiUpper
  split
  · next h =>
    simp only [isAsciiLower, Bool.and_eq_true, decide_eq_true_eq] at h
    exact toNat_ofNat_small _ (by omega)
  · rfl

theorem canonicalize_ascii (up : Char → Str) (c : Char) (h : c.toNat < 128) :
    canonicalize up c = asciiUpper c := by
  simp [canonicalize, toUpperCase, h]

theorem canonicalize_nonascii (up : Char → Str) (c : Char) (h : 128 ≤ c.toNat) :
    128 ≤ (canonicalize up c).toNat := by
  unfold canonicalize
  split
  · next cu _ =>
    split
    · exact h
    · next h2 => simp only [not_and, not_lt] at h2; exact h2 h
  · exact h

/-! ## `normalizeSpaces`: the shape of its result -/

theorem dropWhile_head (p : Char → Bool) (l : Str) (c : Char)
    (h : (l.dropWhile p).head? = some c) : p c = false := by
  induction l with
  | nil => simp at h
  | cons a s ih =>
    by_cases ha : p a = true
    · rw [List.dropWhile_cons_of_pos ha] at h; exact ih h
    · rw [List.dropWhile_cons_of_neg ha] at h
      simp at h; subst h; simpa using ha

theorem dropWhile_self (p : Char → Bool) (l : Str)
    (h : ∀ c, l.head? = some c → p c = false) : l.dropWhile p = l := by
  cases l with
  | nil => rfl
  | cons a s =>
    have := h a rfl
    rw [List.dropWhile_cons_of_neg (by simp [this])]

theorem getLast?_dropWhile (p : Char → Bool) (l : Str) (h : l.dropWhile p ≠ []) :
    (l.dropWhile p).getLast? = l.getLast? := by
  induction l with
  | nil => rfl
  | cons a s ih =>
    by_cases ha : p a = true
    · rw [List.dropWhile_cons_of_pos ha] at h ⊢
      rw [ih h]
      cases s with
      | nil => simp at h
      | cons b t => simp [List.getLast?_cons_cons]
    · rw [List.dropWhile_cons_of_neg ha]

theorem trim_head (s : Str) (c : Char) (h : (trim s).head? = some c) :
    isWhiteSpace c = false := by
  unfold trim at h
  rw [List.head?_reverse] at h
  have hne : ((s.dropWhile isWhiteSpace).reverse.dropWhile isWhiteSpace) ≠ [] := by
    intro h0; rw [h0] at h; simp at h
  rw [getLast?_dropWhile _ _ hne, List.getLast?_reverse] at h
  exact dropWhile_head _ _ _ h

theorem trim_last (s : Str) (c : Char) (h : (trim s).getLast? = some c) :
    isWhiteSpace c = false := by
  unfold trim at h
  rw [List.getLast?_reverse] at h
  exact dropWhile_head _ _ _ h

theorem trim_self (s : Str) (hh : ∀ c, s.head? = some c → isWhiteSpace c = false)
    (hl : ∀ c, s.getLast? = some c → isWhiteSpace c = false) : trim s = s := by
  unfold trim
  rw [dropWhile_self _ s hh, dropWhile_self _ s.reverse, List.reverse_reverse]
  intro c hc
  rw [List.head?_reverse] at hc
  exact hl c hc


theorem aux_true_head (r : Str) (s : Str) (hne : s ≠ [])
    (hl : ∀ c, s.getLast? = some c → isWhiteSpace c = false) :
    ∃ d u, replaceSpaceRunsAux r true s = d :: u ∧ isWhiteSpace d = false := by
  induction s with
  | nil => exact absurd rfl hne
  | cons c t ih =>
    by_cases hc : isWhiteSpace c = true
    · have htne : t ≠ [] := by
        intro h0; subst h0
        have := hl c rfl
        rw [hc] at this; exact Bool.noConfusion this
      have hl2 : ∀ d, t.getLast? = some d → isWhiteSpace d = false := by
        intro d hd
        apply hl d
        cases t with
        | nil => exact absurd rfl htne
        | cons b u => rw [List.getLast?_cons_cons]; exact hd
      obtain ⟨d, u, h1, h2⟩ := ih htne hl2
      exact ⟨d, u, by simp [replaceSpaceRunsAux, hc, h1], h2⟩
    · exact ⟨c, replaceSpaceRunsAux r false t, by simp [replaceSpaceRunsAux, hc], by simpa using hc⟩

theorem last_tail (c : Char) (t : Str) (htne : t ≠ [])
    (hl : ∀ d, (c :: t).getLast? = some d → isWhiteSpace d = false) :
    ∀ d, t.getLast? = some d → isWhiteSpace d = false := by
  intro d hd
  apply hl d
  cases t with
  | nil => exact absurd rfl htne
  | cons b u => rw [List.getLast?_cons_cons]; exact hd

theorem spacesOk_collapse (s : Str)
    (hl : ∀ c, s.getLast? = some c → isWhiteSpace c = false) (b : Bool) :
    spacesOk (replaceSpaceRunsAux [' '] b s) = true := by
  induction s generalizing b with
  | nil => rfl
  | cons c t ih =>
    by_cases htne : t = []
    · subst htne
      have hc := hl c rfl
      simp [replaceSpaceRunsAux, hc, spacesOk]
    · have hl2 := last_tail c t htne hl
      by_cases hc : isWhiteSpace c = true
      · cases b with
        | true => simpa [replaceSpaceRunsAux, hc] using ih hl2 true
        | false =>
          obtain ⟨d, u, h1, h2⟩ := aux_true_head [' '] t htne hl2
          have h3 := ih hl2 true
          rw [h1] at h3
          have hsp : isWhiteSpace ' ' = true := by decide
          have h4 : spacesOk (' ' :: d :: u) = true := by
            rw [spacesOk]
            simp only [hsp, if_true, beq_self_eq_true, Bool.true_and, h2, Bool.not_false]
            exact h3
          simpa [replaceSpaceRunsAux, hc, h1] using h4
      · have h3 := ih hl2 false
        simp [replaceSpaceRunsAux, hc, spacesOk, h3]

theorem collapse_head (r : Str) (c : Char) (s : Str) (hc : isWhiteSpace c = false) (b : Bool) :
    replaceSpaceRunsAux r b (c :: s) = c :: replaceSpaceRunsAux r false s := by
  simp [replaceSpaceRunsAux, hc]

theorem normalizeSpaces_normalized (raw : Option Str) : Normalized (normalizeSpaces raw) := by
  unfold normalizeSpaces replaceSpaceRuns
  constructor
  · exact spacesOk_collapse _ (trim_last _) false
  · intro c hc
    have hh := trim_head (stringOrEmpty raw)
    cases ht : trim (stringOrEmpty raw) with
    | nil => rw [ht] at hc; simp [replaceSpaceRunsAux] at hc
    | cons a t =>
      rw [ht] at hc hh
      have ha := hh a rfl
      rw [collapse_head _ _ _ ha] at hc
      simp at hc; subst hc; exact ha

theorem spacesOk_last (s : Str) (h : spacesOk s = true) :
    ∀ c, s.getLast? = some c → isWhiteSpace c = false := by
  induction s with
  | nil => intro c hc; simp at hc
  | cons a t ih =>
    intro c hc
    simp only [spacesOk, Bool.and_eq_true] at h
    cases t with
    | nil =>
      simp at hc; subst hc
      by_cases ha : isWhiteSpace a = true
      · simp [ha] at h
      · simpa using ha
    | cons b u =>
      rw [List.getLast?_cons_cons] at hc
      exact ih h.2 c hc

theorem collapse_self (s : Str) (h : spacesOk s = true) (b : Bool)
    (hb : b = true → ∀ c, s.head? = some c → isWhiteSpace c = false) :
    replaceSpaceRunsAux [' '] b s = s := by
  induction s generalizing b with
  | nil => rfl
  | cons a t ih =>
    simp only [spacesOk, Bool.and_eq_true] at h
    by_cases ha : isWhiteSpace a = true
    · cases b with
      | true => have := hb rfl a rfl; rw [ha] at this; exact Bool.noConfusion this
      | false =>
        simp only [ha, if_true, Bool.and_eq_true, beq_iff_eq] at h
        obtain ⟨⟨h1, h2⟩, h3⟩ := h
        cases t with
        | nil => simp at h2
        | cons d u =>
          have hd : isWhiteSpace d = false := by simpa using h2
          have := ih h3 true (fun _ c hc => by simp at hc; subst hc; exact hd)
          simp [replaceSpaceRunsAux, ha, h1] at this ⊢
          simpa [replaceSpaceRunsAux, hd] using this
    · have := ih h.2 false (fun hf => Bool.noConfusion hf)
      simp [replaceSpaceRunsAux, ha, this]

theorem normalizeSpaces_of_normalized (s : Str) (h : Normalized s) :
    normalizeSpaces (some s) = s := by
  unfold normalizeSpaces replaceSpaceRuns stringOrEmpty
  simp only [Option.getD_some]
  rw [trim_self s h.2 (spacesOk_last s h.1)]
  exact collapse_self s h.1 false (fun hf => Bool.noConfusion hf)

theorem normalizeSpaces_idem (raw : Option Str) :
    normalizeSpaces (some (normalizeSpaces raw)) = normalizeSpaces raw :=
  normalizeSpaces_of_normalized _ (normalizeSpaces_normalized raw)


/-! ## The resolver -/

theorem normalizeSpaces_blank (raw : Option Str) (h : isBlank raw = true) :
    normalizeSpaces raw = [] := by
  unfold isBlank at h
  have h1 : (stringOrEmpty raw).dropWhile isWhiteSpace = [] := by
    rw [List.dropWhile_eq_nil_iff]
    intro c hc
    exact List.all_eq_true.mp h c hc
  simp [normalizeSpaces, replaceSpaceRuns, trim, h1, replaceSpaceRunsAux]

/-- When the whitespace-normalized brand contains a character of `[A-Z]`, the test made by
the code, `canonicalizeBrand` returns the normalized brand itself. -/
theorem canonicalizeBrand_of_ascii_capital (up : Char → Str) (raw : Option Str)
    (h : (normalizeSpaces raw).any isAsciiUpper = true) :
    canonicalizeBrand up raw = normalizeSpaces raw := by
  unfold canonicalizeBrand
  by_cases h0 : normalizeSpaces raw = []
  · simp [h0]
  · simp [h0, h]

/-- C6, as stated, fails: the brand `найк` is not empty and has no capital letter, and the
resolver returns it unchanged, whereas the title-cased form is `Найк`. -/
theorem canonicalizeBrand_title_case_counterexample :
    normalizeSpaces (some "найк".toList) ≠ [] ∧
    (normalizeSpaces (some "найк".toList)).any isAsciiUpper = false ∧
    canonicalizeBrand sampleUpper (some "найк".toList) = "найк".toList ∧
    joinSpace ((splitSpace (normalizeSpaces (some "найк".toList))).map
      (capitalizeWord sampleUpper)) = "Найк".toList ∧
    canonicalizeBrand sampleUpper (some "найк".toList) ≠
      joinSpace ((splitSpace (normalizeSpaces (some "найк".toList))).map
        (capitalizeWord sampleUpper)) := by
  decide

/-- C6, amended.  When the whitespace-normalized brand has no character of `[A-Z]`:
if it has a character of `[a-z]`, `canonicalizeBrand` returns the normalized form split on
single spaces, with the first character of each word upper-cased, the rest of the word
unchanged, and the words rejoined with single spaces; if it has none, the normalized form
is returned unchanged. -/
theorem canonicalizeBrand_title_case (up : Char → Str) (raw : Option Str)
    (h : (normalizeSpaces raw).any isAsciiUpper = false) :
    canonicalizeBrand up raw =
      if (normalizeSpaces raw).any isAsciiLower = true then
        joinSpace ((splitSpace (normalizeSpaces raw)).map (capitalizeWord up))
      else normalizeSpaces raw := by
  unfold canonicalizeBrand
  by_cases h0 : normalizeSpaces raw = []
  · simp [h0]
  · by_cases hl : (normalizeSpaces raw).any isAsciiLower = true
    · simp only [h0, if_false, h, hl, if_true, Bool.not_false, Bool.and_self]
      simp [toTitleCaseFromAllLower, normalizeSpaces_idem]
    · simp only [h0, if_false, h, hl, Bool.false_and]
      simp

/-- Witness of the amended C6 on the brands `apple` (title-cased) and `найк` (unchanged). -/
theorem canonicalizeBrand_title_case_witness :
    canonicalizeBrand sampleUpper (some "apple".toList) = "Apple".toList ∧
    canonicalizeBrand sampleUpper (some "найк".toList) = "найк".toList :=
  ⟨(canonicalizeBrand_title_case sampleUpper (some "apple".toList) (by decide)).trans (by decide),
   (canonicalizeBrand_title_case sampleUpper (some "найк".toList) (by decide)).trans (by decide)⟩

/-- C9. For a brand that is missing, empty or made of white space only, `canonicalizeBrand`
returns the empty string, `buildBrandRegex` returns `null`, `replaceBrandEverywhere` leaves
its argument as it is, `forceBrandCanonicalEverywhere` returns the document unchanged, and
so does the whole enforcement block of the handler. -/
theorem blank_brand_inert (up : Char → Str) (raw : Option Str) (h : isBlank raw = true)
    (doc : Doc) (canonicalBrand : Str) :
    canonicalizeBrand up raw = [] ∧
    buildBrandRegex raw = .ok none ∧
    replaceBrandEverywhere up doc raw canonicalBrand = .ok doc ∧
    forceBrandCanonicalEverywhere up doc raw = .ok doc ∧
    forceBrandCanonicalEverywhere up doc (some (canonicalizeBrand up raw)) = .ok doc ∧
    enforceCanonicalBrand up doc raw = .ok doc := by
  have hn := normalizeSpaces_blank raw h
  have hc : canonicalizeBrand up raw = [] := by simp [canonicalizeBrand, hn]
  have hb : buildBrandRegex raw = .ok none := by simp [buildBrandRegex, hn]
  refine ⟨hc, hb, ?_, ?_, ?_, ?_⟩
  · simp [replaceBrandEverywhere, hb]
  · cases raw with
    | none => rfl
    | some cb =>
      unfold forceBrandCanonicalEverywhere
      by_cases h0 : cb = []
      · simp [h0]
      · simp [h0, hb]
  · simp [forceBrandCanonicalEverywhere, hc]
  · simp [enforceCanonicalBrand, hc]

/-- Witness of C9 on a brand made of a space, a tab and a line break. -/
theorem blank_brand_inert_witness :
    buildBrandRegex (some [' ', '\t', '\n']) = .ok none ∧
    forceBrandCanonicalEverywhere sampleUpper (Doc.arr [Doc.str ['a'], Doc.null])
      (some [' ', '\t', '\n']) = .ok (Doc.arr [Doc.str ['a'], Doc.null]) :=
  have h := blank_brand_inert sampleUpper (some [' ', '\t', '\n']) (by decide)
    (Doc.arr [Doc.str ['a'], Doc.null]) []
  ⟨h.2.1, h.2.2.2.1⟩

/-! ## The pattern is always well formed -/

theorem parseCore_escaped (c : Char) (rest : Str) (h : isPatternSpecial c = true) :
    parseCore ('\\' :: c :: rest) = (parseCore rest).map (fun as => Atom.lit c :: as) := by
  have hs : c ≠ 's' := by
    intro h0; subst h0; revert h; decide
  rw [parseCore]
  · simp [h]
  · intro r h1; exact absurd h1 hs

theorem parseCore_plain (c : Char) (rest : Str) (h : isPatternSpecial c = false) :
    parseCore (c :: rest) = (parseCore rest).map (fun as => Atom.lit c :: as) := by
  have hb : c ≠ '\\' := by
    intro h0; subst h0; revert h; decide
  rw [parseCore.eq_def]
  simp [hb, h]

theorem parseCore_spaces (rest : Str) :
    parseCore ('\\' :: 's' :: '+' :: rest) = (parseCore rest).map (fun as => Atom.spaces :: as) := by
  rw [parseCore]
  simp

theorem parseCore_brandCore_aux (s : Str) (h : spacesOk s = true) (b : Bool)
    (hb : b = true → ∀ c, s.head? = some c → isWhiteSpace c = false) :
    parseCore (replaceSpaceRunsAux ['\\', 's', '+'] b (escapeRegex s)) = some (brandAtoms s) := by
  induction s generalizing b with
  | nil => simp [escapeRegex, replaceSpaceRunsAux, parseCore, brandAtoms]
  | cons a t ih =>
    simp only [spacesOk, Bool.and_eq_true] at h
    have hbs : isWhiteSpace '\\' = false := by decide
    by_cases ha : isWhiteSpace a = true
    · cases b with
      | true => have := hb rfl a rfl; rw [ha] at this; exact Bool.noConfusion this
      | false =>
        simp only [ha, if_true, Bool.and_eq_true, beq_iff_eq] at h
        obtain ⟨⟨h1, h2⟩, h3⟩ := h
        cases t with
        | nil => simp at h2
        | cons d u =>
          have hd : isWhiteSpace d = false := by simpa using h2
          have := ih h3 true (fun _ c hc => by simp at hc; subst hc; exact hd)
          subst h1
          have hsp : isPatternSpecial ' ' = false := by decide
          rw [escapeRegex]
          simp only [hsp, Bool.false_eq_true, if_false]
          rw [replaceSpaceRunsAux]
          simp only [ha, if_true, Bool.false_eq_true, if_false, List.cons_append, List.nil_append]
          rw [parseCore_spaces, this]
          simp [brandAtoms, ha]
    · have haf : isWhiteSpace a = false := by simpa using ha
      have := ih h.2 false (fun hf => Bool.noConfusion hf)
      by_cases hs : isPatternSpecial a = true
      · rw [escapeRegex]
        simp only [hs, if_true]
        rw [collapse_head _ _ _ hbs, collapse_head _ _ _ haf, parseCore_escaped _ _ hs, this]
        simp [brandAtoms, haf]
      · have hsf : isPatternSpecial a = false := by simpa using hs
        rw [escapeRegex]
        simp only [hsf, Bool.false_eq_true, if_false]
        rw [collapse_head _ _ _ haf, parseCore_plain _ _ hsf, this]
        simp [brandAtoms, haf]

theorem buildBrandRegex_eq (raw : Option Str) :
    buildBrandRegex raw =
      .ok (if normalizeSpaces raw = [] then none else some (brandAtoms (normalizeSpaces raw))) := by
  unfold buildBrandRegex
  by_cases h0 : normalizeSpaces raw = []
  · simp [h0]
  · have hn := normalizeSpaces_normalized raw
    have := parseCore_brandCore_aux _ hn.1 false (fun hf => Bool.noConfusion hf)
    simp only [h0, if_false, newBrandRegExp, brandCore, replaceSpaceRuns, this]
    rfl

/-! ## The deep sweep keeps the shape of the document -/

mutual
theorem sameShape_walk (up : Char → Str) (rx : List Atom) (cb : Str) :
    ∀ d : Doc, sameShape (replaceBrand up rx cb) d (walk up rx cb d)
  | Doc.null => by simp [walk, sameShape]
  | Doc.bool b => by simp [walk, sameShape]
  | Doc.num n => by simp [walk, sameShape]
  | Doc.str s => by
    by_cases h : s = []
    · simp [walk, sameShape, h]
    · simp [walk, sameShape, h]
  | Doc.arr items => by
    simp only [walk, sameShape]
    exact ⟨_, rfl, sameShapeItems_walk up rx cb items⟩
  | Doc.obj fields => by
    simp only [walk, sameShape]
    exact ⟨_, rfl, sameShapeFields_walk up rx cb fields⟩
theorem sameShapeItems_walk (up : Char → Str) (rx : List Atom) (cb : Str) :
    ∀ ds : List Doc, sameShapeItems (replaceBrand up rx cb) ds (walkItems up rx cb ds)
  | [] => by simp [walkItems, sameShapeItems]
  | d :: ds => by
    simp only [walkItems, sameShapeItems]
    exact ⟨_, _, rfl, sameShape_walk up rx cb d, sameShapeItems_walk up rx cb ds⟩
theorem sameShapeFields_walk (up : Char → Str) (rx : List Atom) (cb : Str) :
    ∀ ds : List (Str × Doc), sameShapeFields (replaceBrand up rx cb) ds (walkFields up rx cb ds)
  | [] => by simp [walkFields, sameShapeFields]
  | kv :: ds => by
    simp only [walkFields, sameShapeFields]
    exact ⟨_, _, rfl, sameShape_walk up rx cb kv.2, sameShapeFields_walk up rx cb ds⟩
end

mutual
theorem sameShape_self (f : Str → Str) (hf : ∀ s, f s = s) : ∀ d : Doc, sameShape f d d
  | Doc.null => by simp [sameShape]
  | Doc.bool b => by simp [sameShape]
  | Doc.num n => by simp [sameShape]
  | Doc.str s => by
    by_cases h : s = []
    · simp [sameShape, h]
    · simp [sameShape, h, hf]
  | Doc.arr items => by
    simp only [sameShape]
    exact ⟨_, rfl, sameShapeItems_self f hf items⟩
  | Doc.obj fields => by
    simp only [sameShape]
    exact ⟨_, rfl, sameShapeFields_self f hf fields⟩
theorem sameShapeItems_self (f : Str → Str) (hf : ∀ s, f s = s) :
    ∀ ds : List Doc, sameShapeItems f ds ds
  | [] => by simp [sameShapeItems]
  | d :: ds => by
    simp only [sameShapeItems]
    exact ⟨_, _, rfl, sameShape_self f hf d, sameShapeItems_self f hf ds⟩
theorem sameShapeFields_self (f : Str → Str) (hf : ∀ s, f s = s) :
    ∀ ds : List (Str × Doc), sameShapeFields f ds ds
  | [] => by simp [sameShapeFields]
  | kv :: ds => by
    simp only [sameShapeFields]
    exact ⟨_, _, rfl, sameShape_self f hf kv.2, sameShapeFields_self f hf ds⟩
end

/-- C10. For every document and every brand, `forceBrandCanonicalEverywhere` returns a
document with the tree structure of its argument: arrays keep their length and order,
objects keep their keys, numbers, booleans, `null` and empty strings are unchanged, and
each non-empty string is replaced by its rewrite with the matcher built from the brand. -/
theorem sweep_preserves_shape (up : Char → Str) (doc : Doc) (brand : Option Str) :
    ∃ out, forceBrandCanonicalEverywhere up doc brand = .ok out ∧
      sameShape (rewriteText up brand (stringOrEmpty brand)) doc out := by
  cases brand with
  | none =>
    refine ⟨doc, rfl, sameShape_self _ ?_ doc⟩
    intro s
    simp [rewriteText, buildBrandRegex_eq, normalizeSpaces_blank none rfl]
  | some cb =>
    unfold forceBrandCanonicalEverywhere
    by_cases h0 : cb = []
    · refine ⟨doc, by simp [h0], sameShape_self _ ?_ doc⟩
      intro s
      subst h0
      simp [rewriteText, buildBrandRegex_eq, normalizeSpaces_blank (some []) rfl]
    · by_cases hn : normalizeSpaces (some cb) = []
      · refine ⟨doc, by simp [h0, buildBrandRegex_eq, hn], sameShape_self _ ?_ doc⟩
        intro s
        simp [rewriteText, buildBrandRegex_eq, hn]
      · refine ⟨walk up (brandAtoms (normalizeSpaces (some cb))) cb doc,
          by simp [h0, buildBrandRegex_eq, hn], ?_⟩
        have : rewriteText up (some cb) (stringOrEmpty (some cb)) =
            replaceBrand up (brandAtoms (normalizeSpaces (some cb))) cb := by
          funext s
          simp [rewriteText, buildBrandRegex_eq, hn, stringOrEmpty]
        rw [this]
        exact sameShape_walk up _ cb doc

/-! ## The matcher: what a result consists of -/

theorem spaceRuns_mem (s : Str) (r : Str × Str) (h : r ∈ spaceRuns s) :
    r.1 ++ r.2 = s ∧ r.1 ≠ [] ∧ ∀ c ∈ r.1, isWhiteSpace c = true := by
  induction s generalizing r with
  | nil => simp [spaceRuns] at h
  | cons a t ih =>
    by_cases ha : isWhiteSpace a = true
    · simp only [spaceRuns, ha, if_true, List.mem_append, List.mem_map, List.mem_singleton] at h
      rcases h with ⟨q, hq, rfl⟩ | rfl
      · obtain ⟨h1, _, h3⟩ := ih q hq
        refine ⟨by simp [h1], by simp, ?_⟩
        intro c hc
        simp only [List.mem_cons] at hc
        rcases hc with rfl | hc
        · exact ha
        · exact h3 c hc
      · exact ⟨rfl, by simp, by simpa using ha⟩
    · simp [spaceRuns, ha] at h

theorem matchAtoms_mem (up : Char → Str) (as : List Atom) (s : Str) (r : Str × Str)
    (h : r ∈ matchAtoms up as s) : r.1 ++ r.2 = s ∧ as.length ≤ r.1.length := by
  induction as generalizing s r with
  | nil => simp [matchAtoms] at h; subst h; simp
  | cons a as ih =>
    cases a with
    | lit c =>
      cases s with
      | nil => simp [matchAtoms] at h
      | cons x t =>
        by_cases hm : charMatches up c x = true
        · simp only [matchAtoms, hm, if_true, List.mem_map] at h
          obtain ⟨q, hq, rfl⟩ := h
          obtain ⟨h1, h2⟩ := ih t q hq
          exact ⟨by simp [h1], by simp; omega⟩
        · simp [matchAtoms, hm] at h
    | spaces =>
      simp only [matchAtoms, List.mem_flatMap, List.mem_map] at h
      obtain ⟨run, hrun, q, hq, rfl⟩ := h
      obtain ⟨h1, h2, _⟩ := spaceRuns_mem s run hrun
      obtain ⟨h3, h4⟩ := ih run.2 q hq
      refine ⟨by simp [h3, h1], ?_⟩
      have : 0 < run.1.length := List.length_pos.mpr h2
      simp; omega

theorem matchLiteral_some (up : Char → Str) (p s : Str) (r : Str × Str)
    (h : matchLiteral up p s = some r) : r.1 ++ r.2 = s ∧ r.1.length = p.length := by
  induction p generalizing s r with
  | nil => simp [matchLiteral] at h; subst h; simp
  | cons c p ih =>
    cases s with
    | nil => simp [matchLiteral] at h
    | cons x t =>
      by_cases hm : charMatches up c x = true
      · simp only [matchLiteral, hm, if_true, Option.map_eq_some'] at h
        obtain ⟨q, hq, rfl⟩ := h
        obtain ⟨h1, h2⟩ := ih t q hq
        exact ⟨by simp [h1], by simp [h2]⟩
      · simp [matchLiteral, hm] at h

theorem suffixAlts_mem (up : Char → Str) (s : Str) (r : Str × Str)
    (h : r ∈ suffixAlts up s) : r.1 ++ r.2 = s := by
  simp only [suffixAlts, List.mem_append, List.mem_flatMap, Option.mem_toList,
    List.mem_singleton] at h
  rcases h with ⟨p, _, hp⟩ | rfl
  · exact (matchLiteral_some up p s r hp).1
  · rfl

theorem matchBody_some (up : Char → Str) (as : List Atom) (s : Str) (r : Str × Str × Str)
    (h : matchBody up as s = some r) :
    r.1 ++ r.2.1 ++ r.2.2 = s ∧ lookaheadOk r.2.2 = true ∧ as.length ≤ r.1.length := by
  unfold matchBody at h
  have h1 := List.find?_some h
  have h2 := List.mem_of_find?_eq_some h
  simp only [List.mem_flatMap, List.mem_map] at h2
  obtain ⟨m, hm, q, hq, rfl⟩ := h2
  obtain ⟨h3, h4⟩ := matchAtoms_mem up as s m hm
  have h5 := suffixAlts_mem up m.2 q hq
  refine ⟨?_, h1, h4⟩
  simp only [List.append_assoc, h5, h3]

/-- What a successful attempt consists of: the input is the left boundary, the brand, the
suffix and the rest; the rest is empty or starts with a character that is not
alphanumeric; the left boundary is empty at a line start, or is one character that is not
alphanumeric. -/
theorem execAt_some (up : Char → Str) (as : List Atom) (prev : Option Char) (s : Str) (m : Match)
    (h : execAt up as prev s = some m) :
    m.left ++ m.brand ++ m.suffix ++ m.rest = s ∧ lookaheadOk m.rest = true ∧
    as.length ≤ m.brand.length ∧
    ((m.left = [] ∧ atLineStart prev = true) ∨
      ∃ c, m.left = [c] ∧ isAsciiAlnum c = false) := by
  unfold execAt at h
  split at h
  · next r hr =>
    simp only [Option.some.injEq] at h
    subst h
    by_cases hb : atLineStart prev = true
    · simp only [hb, if_true] at hr
      obtain ⟨h1, h2, h3⟩ := matchBody_some up as s r hr
      exact ⟨by simpa using h1, h2, h3, Or.inl ⟨rfl, hb⟩⟩
    · simp [hb] at hr
  · cases s with
    | nil => simp at h
    | cons c t =>
      by_cases hc : isAsciiAlnum c = true
      · simp [hc] at h
      · simp only [hc, Bool.false_eq_true, if_false, Option.map_eq_some'] at h
        obtain ⟨r, hr, rfl⟩ := h
        obtain ⟨h1, h2, h3⟩ := matchBody_some up as t r hr
        refine ⟨?_, h2, h3, Or.inr ⟨c, rfl, by simpa using hc⟩⟩
        simp only [List.append_assoc] at h1
        simp [h1]

/-! ## On ASCII text the upper-case table of the host is irrelevant -/

theorem asciiUpper_lt (c : Char) (h : c.toNat < 128) : (asciiUpper c).toNat < 128 := by
  rw [asciiUpper_toNat]
  split <;> omega

theorem charMatches_ascii_indep (up up2 : Char → Str) (c x : Char) (hx : x.toNat < 128) :
    charMatches up c x = charMatches up2 c x := by
  unfold charMatches
  rw [canonicalize_ascii up x hx, canonicalize_ascii up2 x hx]
  by_cases hc : c.toNat < 128
  · rw [canonicalize_ascii up c hc, canonicalize_ascii up2 c hc]
  · have h1 := canonicalize_nonascii up c (by omega)
    have h2 := canonicalize_nonascii up2 c (by omega)
    have h3 := asciiUpper_lt x hx
    have e1 : (canonicalize up c == asciiUpper x) = false := by
      rw [beq_eq_false_iff_ne]; intro h; rw [h] at h1; omega
    have e2 : (canonicalize up2 c == asciiUpper x) = false := by
      rw [beq_eq_false_iff_ne]; intro h; rw [h] at h2; omega
    rw [e1, e2]

theorem matchAtoms_ascii_indep (up up2 : Char → Str) (as : List Atom) (s : Str)
    (hs : ∀ c ∈ s, c.toNat < 128) : matchAtoms up as s = matchAtoms up2 as s := by
  induction as generalizing s with
  | nil => simp [matchAtoms]
  | cons a as ih =>
    cases a with
    | lit c =>
      cases s with
      | nil => simp [matchAtoms]
      | cons x t =>
        simp only [matchAtoms]
        rw [charMatches_ascii_indep up up2 c x (hs x (by simp)),
          ih t (fun c hc => hs c (by simp [hc]))]
    | spaces =>
      simp only [matchAtoms]
      apply List.flatMap_congr
      intro run hrun
      obtain ⟨h1, _, _⟩ := spaceRuns_mem s run hrun
      rw [ih run.2 (fun c hc => hs c (by rw [← h1]; simp [hc]))]

theorem matchLiteral_ascii_indep (up up2 : Char → Str) (p s : Str)
    (hs : ∀ c ∈ s, c.toNat < 128) : matchLiteral up p s = matchLiteral up2 p s := by
  induction p generalizing s with
  | nil => simp [matchLiteral]
  | cons c p ih =>
    cases s with
    | nil => simp [matchLiteral]
    | cons x t =>
      simp only [matchLiteral]
      rw [charMatches_ascii_indep up up2 c x (hs x (by simp)),
        ih t (fun c hc => hs c (by simp [hc]))]

theorem matchBody_ascii_indep (up up2 : Char → Str) (as : List Atom) (s : Str)
    (hs : ∀ c ∈ s, c.toNat < 128) : matchBody up as s = matchBody up2 as s := by
  unfold matchBody
  rw [matchAtoms_ascii_indep up up2 as s hs]
  congr 1
  apply List.flatMap_congr
  intro m hm
  obtain ⟨h1, _⟩ := matchAtoms_mem up2 as s m hm
  have hm2 : ∀ c ∈ m.2, c.toNat < 128 := fun c hc => hs c (by rw [← h1]; simp [hc])
  simp only [suffixAlts]
  congr 2
  apply List.flatMap_congr
  intro p _
  rw [matchLiteral_ascii_indep up up2 p m.2 hm2]

theorem execAt_ascii_indep (up up2 : Char → Str) (as : List Atom) (prev : Option Char)
    (s : Str) (hs : ∀ c ∈ s, c.toNat < 128) : execAt up as prev s = execAt up2 as prev s := by
  unfold execAt
  rw [matchBody_ascii_indep up up2 as s hs]
  cases s with
  | nil => rfl
  | cons c t =>
    simp only
    rw [matchBody_ascii_indep up up2 as t (fun c hc => hs c (by simp [hc]))]

theorem replaceLoop_ascii_indep (up up2 : Char → Str) (as : List Atom) (repl : Str) (n : Nat)
    (prev : Option Char) (s : Str) (hs : ∀ c ∈ s, c.toNat < 128) :
    replaceLoop up as repl n prev s = replaceLoop up2 as repl n prev s := by
  induction n generalizing prev s with
  | zero => rfl
  | succ n ih =>
    simp only [replaceLoop]
    rw [execAt_ascii_indep up up2 as prev s hs]
    cases hm : execAt up2 as prev s with
    | none =>
      cases s with
      | nil => rfl
      | cons c t => simp only; rw [ih _ t (fun c hc => hs c (by simp [hc]))]
    | some m =>
      obtain ⟨h1, _⟩ := execAt_some up2 as prev s m hm
      have hr : ∀ c ∈ m.rest, c.toNat < 128 := fun c hc => hs c (by rw [← h1]; simp [hc])
      simp only
      cases (m.left ++ m.brand ++ m.suffix).getLast? with
      | some p => simp only; rw [ih _ m.rest hr]
      | none =>
        cases s with
        | nil => rfl
        | cons c t => simp only; rw [ih _ t (fun c hc => hs c (by simp [hc]))]

/-- On a text made of ASCII characters the rewrite does not depend on the upper-case table
of the host. -/
theorem replaceBrand_ascii_indep (up up2 : Char → Str) (as : List Atom) (repl : Str)
    (s : Str) (hs : ∀ c ∈ s, c.toNat < 128) :
    replaceBrand up as repl s = replaceBrand up2 as repl s :=
  replaceLoop_ascii_indep up up2 as repl _ none s hs

/-! ## The composition of the three passes on the example of the specification -/

theorem replaceBrand_ascii_eval (up : Char → Str) (as : List Atom) (repl s out : Str)
    (hs : ∀ c ∈ s, c.toNat < 128) (h : replaceBrand sampleUpper as repl s = out) :
    replaceBrand up as repl s = out :=
  (replaceBrand_ascii_indep up sampleUpper as repl s hs).trans h

/-- C4, as stated, fails: the three passes do not leave `Nike's bag` in the field. -/
theorem three_pass_example_counterexample :
    enforceCanonicalBrand sampleUpper
        (Doc.obj [("title".toList, Doc.str "NIKE shoes and Nike's bag".toList)])
        (some "nike".toList) ≠
      .ok (Doc.obj [("title".toList, Doc.str "Nike shoes and Nike's bag".toList)]) := by
  intro h
  have h2 : enforceCanonicalBrand sampleUpper
        (Doc.obj [("title".toList, Doc.str "NIKE shoes and Nike's bag".toList)])
        (some "nike".toList) =
      .ok (Doc.obj [("title".toList, Doc.str "Nike shoes and Nike bag".toList)]) := by rfl
  rw [h2] at h
  simp at h

set_option maxRecDepth 100000 in
/-- C4, amended.  With raw brand `nike` the canonical brand is `Nike`, and for a generated
field whose value is `NIKE shoes and Nike's bag` the two targeted passes followed by the
deep sweep yield the field value `Nike shoes and Nike bag`: both occurrences are spelled
`Nike` and the possessive suffix is removed. -/
theorem three_pass_example (up : Char → Str) (key : Str) :
    canonicalizeBrand up (some "nike".toList) = "Nike".toList ∧
    enforceCanonicalBrand up
        (Doc.obj [(key, Doc.str "NIKE shoes and Nike's bag".toList)]) (some "nike".toList) =
      .ok (Doc.obj [(key, Doc.str "Nike shoes and Nike bag".toList)]) := by
  have hc : canonicalizeBrand up (some "nike".toList) = "Nike".toList := rfl
  have hb1 : buildBrandRegex (some "nike".toList) =
      .ok (some [Atom.lit 'n', Atom.lit 'i', Atom.lit 'k', Atom.lit 'e']) := by decide
  have hb2 : buildBrandRegex (some "Nike".toList) =
      .ok (some [Atom.lit 'N', Atom.lit 'i', Atom.lit 'k', Atom.lit 'e']) := by decide
  have r1 : replaceBrand up [Atom.lit 'n', Atom.lit 'i', Atom.lit 'k', Atom.lit 'e']
      "Nike".toList "NIKE shoes and Nike's bag".toList = "Nike shoes and Nike bag".toList :=
    replaceBrand_ascii_eval up _ _ _ _ (by decide) (by decide)
  have r2 : replaceBrand up [Atom.lit 'N', Atom.lit 'i', Atom.lit 'k', Atom.lit 'e']
      "Nike".toList "Nike shoes and Nike bag".toList = "Nike shoes and Nike bag".toList :=
    replaceBrand_ascii_eval up _ _ _ _ (by decide) (by decide)
  have hne : "NIKE shoes and Nike's bag".toList ≠ [] := by decide
  have hne2 : "Nike shoes and Nike bag".toList ≠ [] := by decide
  have hne3 : "Nike".toList ≠ [] := by decide
  refine ⟨hc, ?_⟩
  simp only [enforceCanonicalBrand, hc, hne3, if_false, replaceBrandEverywhere, hb1, hb2,
    List.map, replaceInValue, hne, hne2, r1, r2, forceBrandCanonicalEverywhere, walk,
    walkFields]

/-! ## The loop: enough fuel, and its unfolding -/

theorem execAt_consumed (up : Char → Str) (as : List Atom) (has : as ≠ []) (prev : Option Char)
    (s : Str) (m : Match) (h : execAt up as prev s = some m) :
    ∃ p, (m.left ++ m.brand ++ m.suffix).getLast? = some p ∧ m.rest.length < s.length := by
  obtain ⟨h1, _, h3, _⟩ := execAt_some up as prev s m h
  have hpos : 0 < as.length := List.length_pos.mpr has
  have hne : m.left ++ m.brand ++ m.suffix ≠ [] := by
    intro h0
    have := congrArg List.length h0
    simp only [List.length_append, List.length_nil] at this
    omega
  cases hl : (m.left ++ m.brand ++ m.suffix).getLast? with
  | none => rw [List.getLast?_eq_none_iff] at hl; exact absurd hl hne
  | some p =>
    refine ⟨p, rfl, ?_⟩
    have := congrArg List.length h1
    simp at this
    omega

theorem replaceLoop_fuel (up : Char → Str) (as : List Atom) (has : as ≠ []) (repl : Str)
    (n k : Nat) (prev : Option Char) (s : Str) (hn : s.length < n) (hk : s.length < k) :
    replaceLoop up as repl n prev s = replaceLoop up as repl k prev s := by
  induction n generalizing k prev s with
  | zero => omega
  | succ n ih =>
    cases k with
    | zero => omega
    | succ k =>
      simp only [replaceLoop]
      cases hm : execAt up as prev s with
      | none =>
        cases s with
        | nil => rfl
        | cons c t =>
          simp only
          simp only [List.length_cons] at hn hk
          rw [ih k (some c) t (by omega) (by omega)]
      | some m =>
        obtain ⟨p, hp, hlen⟩ := execAt_consumed up as has prev s m hm
        simp only [hp]
        rw [ih k (some p) m.rest (by omega) (by omega)]

theorem rewriteFrom_nil (up : Char → Str) (as : List Atom) (has : as ≠ []) (repl : Str)
    (prev : Option Char) : rewriteFrom up as repl prev [] = [] := by
  unfold rewriteFrom
  simp only [replaceLoop, List.length_nil]
  cases hm : execAt up as prev [] with
  | none => rfl
  | some m =>
    obtain ⟨p, _, hlen⟩ := execAt_consumed up as has prev [] m hm
    simp at hlen

theorem rewriteFrom_none (up : Char → Str) (as : List Atom) (repl : Str)
    (prev : Option Char) (c : Char) (t : Str) (h : execAt up as prev (c :: t) = none) :
    rewriteFrom up as repl prev (c :: t) = c :: rewriteFrom up as repl (some c) t := by
  unfold rewriteFrom
  rw [replaceLoop]
  simp only [h]
  rfl

theorem rewriteFrom_some (up : Char → Str) (as : List Atom) (has : as ≠ []) (repl : Str)
    (prev : Option Char) (s : Str) (m : Match) (h : execAt up as prev s = some m) :
    rewriteFrom up as repl prev s =
      m.left ++ repl ++
        rewriteFrom up as repl ((m.left ++ m.brand ++ m.suffix).getLast?) m.rest := by
  obtain ⟨p, hp, hlen⟩ := execAt_consumed up as has prev s m h
  unfold rewriteFrom
  have e : replaceLoop up as repl (s.length + 1) prev s =
      m.left ++ repl ++ replaceLoop up as repl s.length (some p) m.rest := by
    simp only [replaceLoop, h, hp]
  rw [e]
  rw [replaceLoop_fuel up as has repl s.length (m.rest.length + 1) (some p) m.rest hlen (by omega),
    hp]

theorem replaceBrand_eq (up : Char → Str) (as : List Atom) (repl : Str) (s : Str) :
    replaceBrand up as repl s = rewriteFrom up as repl none s := rfl

/-! ## A brand matches itself, whatever characters it is made of -/

theorem asciiUpper_of_not_lower (c : Char) (h : isAsciiLower c = false) : asciiUpper c = c := by
  simp [asciiUpper, h]

theorem asciiUpper_nonascii (c : Char) (h : 128 ≤ c.toNat) : asciiUpper c = c := by
  apply asciiUpper_of_not_lower
  simp only [isAsciiLower, Bool.and_eq_false_iff, decide_eq_false_iff_not]
  omega

theorem charMatches_self (up : Char → Str) (c : Char) : charMatches up c c = true := by
  simp [charMatches]

theorem charMatches_of_upper_eq (up : Char → Str) (c x : Char)
    (h : asciiUpper c = asciiUpper x) : charMatches up c x = true := by
  by_cases hc : c.toNat < 128
  · have hx : x.toNat < 128 := by
      by_contra hx
      have h1 := asciiUpper_lt c hc
      rw [h, asciiUpper_nonascii x (by omega)] at h1
      exact hx h1
    simp [charMatches, canonicalize_ascii up c hc, canonicalize_ascii up x hx, h]
  · have hx : ¬ x.toNat < 128 := by
      intro hx
      have h1 := asciiUpper_lt x hx
      rw [← h, asciiUpper_nonascii c (by omega)] at h1
      exact hc h1
    rw [asciiUpper_nonascii c (by omega), asciiUpper_nonascii x (by omega)] at h
    subst h
    exact charMatches_self up c

theorem isWhiteSpace_iff (c : Char) :
    isWhiteSpace c = true ↔ c.toNat ∈ whiteSpaceCodes := by
  simp [isWhiteSpace]

theorem not_ws_of_letter (c : Char) (h : 65 ≤ c.toNat ∧ c.toNat ≤ 122) :
    isWhiteSpace c = false := by
  rw [Bool.eq_false_iff]
  intro hw
  rw [isWhiteSpace_iff] at hw
  simp only [whiteSpaceCodes, List.mem_cons, List.mem_singleton, List.not_mem_nil, or_false] at hw
  omega

theorem ws_of_upper_eq (c x : Char) (h : asciiUpper c = asciiUpper x) :
    isWhiteSpace x = isWhiteSpace c := by
  have hn := congrArg Char.toNat h
  rw [asciiUpper_toNat, asciiUpper_toNat] at hn
  by_cases hc : isAsciiLower c = true
  · by_cases hx : isAsciiLower x = true
    · simp only [isAsciiLower, Bool.and_eq_true, decide_eq_true_eq] at hc hx
      rw [not_ws_of_letter c (by omega), not_ws_of_letter x (by omega)]
    · simp [hc, hx] at hn
      simp only [isAsciiLower, Bool.and_eq_true, decide_eq_true_eq] at hc
      rw [not_ws_of_letter c (by omega), not_ws_of_letter x (by omega)]
  · by_cases hx : isAsciiLower x = true
    · simp [hc, hx] at hn
      simp only [isAsciiLower, Bool.and_eq_true, decide_eq_true_eq] at hx
      rw [not_ws_of_letter c (by omega), not_ws_of_letter x (by omega)]
    · have hc2 : isAsciiLower c = false := by simpa using hc
      have hx2 : isAsciiLower x = false := by simpa using hx
      rw [asciiUpper_of_not_lower c hc2, asciiUpper_of_not_lower x hx2] at h
      rw [h]

theorem spaceRuns_of_not_ws (c : Char) (s : Str) (h : isWhiteSpace c = false) :
    spaceRuns (c :: s) = [] := by
  simp [spaceRuns, h]

/-- Against a text that is the brand up to case, followed by anything, the core has exactly
one way to match: it consumes the brand. -/
theorem matchAtoms_self (up : Char → Str) (s : Str) (hs : spacesOk s = true) (t : Str)
    (ht : sameIgnoringCase s t) (rest : Str) :
    matchAtoms up (brandAtoms s) (t ++ rest) = [(t, rest)] := by
  induction s generalizing t with
  | nil =>
    cases t with
    | nil => simp [brandAtoms, matchAtoms]
    | cons x t => simp [sameIgnoringCase] at ht
  | cons c s ih =>
    cases t with
    | nil => simp [sameIgnoringCase] at ht
    | cons x t =>
      simp only [sameIgnoringCase, List.map_cons, List.cons.injEq] at ht
      obtain ⟨hcx, hst⟩ := ht
      simp only [spacesOk, Bool.and_eq_true] at hs
      have ih2 := ih hs.2 t hst
      by_cases hc : isWhiteSpace c = true
      · have hx : isWhiteSpace x = true := by rw [ws_of_upper_eq c x hcx]; exact hc
        simp only [hc, if_true, Bool.and_eq_true, beq_iff_eq] at hs
        obtain ⟨⟨_, h2⟩, _⟩ := hs
        cases s with
        | nil => simp at h2
        | cons d u =>
          have hd : isWhiteSpace d = false := by simpa using h2
          cases t with
          | nil => simp [sameIgnoringCase] at hst
          | cons y v =>
            have hdy : asciiUpper d = asciiUpper y := by
              simp only [sameIgnoringCase, List.map_cons, List.cons.injEq] at hst
              exact hst.1
            have hy : isWhiteSpace y = false := by rw [ws_of_upper_eq d y hdy]; exact hd
            have e1 : brandAtoms (c :: d :: u) = Atom.spaces :: brandAtoms (d :: u) := by
              simp [brandAtoms, hc]
            have e2 : spaceRuns (x :: (y :: v ++ rest)) = [([x], y :: v ++ rest)] := by
              rw [spaceRuns]
              simp only [hx, if_true, List.cons_append]
              rw [spaceRuns_of_not_ws y _ hy]
              rfl
            rw [e1]
            show matchAtoms up (Atom.spaces :: brandAtoms (d :: u)) (x :: (y :: v ++ rest)) = _
            rw [matchAtoms, e2]
            simp only [List.flatMap_cons, List.flatMap_nil, List.append_nil]
            have ih3 : matchAtoms up (brandAtoms (d :: u)) (y :: v ++ rest) = [(y :: v, rest)] := ih2
            rw [ih3]
            rfl
      · have hcf : isWhiteSpace c = false := by simpa using hc
        have e1 : brandAtoms (c :: s) = Atom.lit c :: brandAtoms s := by
          simp [brandAtoms, hcf]
        rw [e1]
        show matchAtoms up (Atom.lit c :: brandAtoms s) (x :: (t ++ rest)) = _
        rw [matchAtoms]
        simp only [charMatches_of_upper_eq up c x hcx, if_true, ih2]
        rfl

theorem normalizeSpaces_ne_nil (raw : Option Str) (h : isBlank raw = false) :
    normalizeSpaces raw ≠ [] := by
  intro h0
  have hb : isBlank raw = true := by
    unfold isBlank
    unfold normalizeSpaces replaceSpaceRuns at h0
    have ht : trim (stringOrEmpty raw) = [] := by
      cases hx : trim (stringOrEmpty raw) with
      | nil => rfl
      | cons a t =>
        rw [hx] at h0
        have ha := trim_head (stringOrEmpty raw) a (by rw [hx]; rfl)
        rw [collapse_head _ _ _ ha] at h0
        simp at h0
    unfold trim at ht
    rw [List.reverse_eq_nil_iff] at ht
    have hu : (stringOrEmpty raw).dropWhile isWhiteSpace = [] := by
      cases hu : (stringOrEmpty raw).dropWhile isWhiteSpace with
      | nil => rfl
      | cons a t =>
        have ha := dropWhile_head isWhiteSpace (stringOrEmpty raw) a (by rw [hu]; rfl)
        rw [hu, List.dropWhile_eq_nil_iff] at ht
        have := ht a (by simp)
        rw [ha] at this
        exact Bool.noConfusion this
    rw [List.dropWhile_eq_nil_iff] at hu
    exact List.all_eq_true.mpr hu
  rw [hb] at h
  exact Bool.noConfusion h

theorem brandAtoms_ne_nil (s : Str) (h : s ≠ []) : brandAtoms s ≠ [] := by
  cases s with
  | nil => exact absurd rfl h
  | cons c t => simp [brandAtoms]

theorem suffixAlts_nil (up : Char → Str) : suffixAlts up [] = [([], [])] := rfl

theorem rewriteText_eq (up : Char → Str) (raw : Option Str) (h : isBlank raw = false)
    (repl text : Str) :
    rewriteText up raw repl text =
      replaceBrand up (brandAtoms (normalizeSpaces raw)) repl text := by
  simp [rewriteText, buildBrandRegex_eq, normalizeSpaces_ne_nil raw h]

/-! ## The suffix is part of the match and is dropped by the replacement -/

theorem charMatches_ascii (up : Char → Str) (c x : Char) (hc : c.toNat < 128)
    (hx : x.toNat < 128) : charMatches up c x = (asciiUpper c == asciiUpper x) := by
  simp [charMatches, canonicalize_ascii up c hc, canonicalize_ascii up x hx]

theorem charMatches_nonascii_ascii (up : Char → Str) (c x : Char) (hc : 128 ≤ c.toNat)
    (hx : x.toNat < 128) : charMatches up c x = false := by
  unfold charMatches
  rw [canonicalize_ascii up x hx, beq_eq_false_iff_ne]
  intro h
  have h1 := canonicalize_nonascii up c hc
  have h3 := asciiUpper_lt x hx
  rw [h] at h1
  omega

theorem charMatches_ascii_nonascii (up : Char → Str) (c x : Char) (hc : c.toNat < 128)
    (hx : 128 ≤ x.toNat) : charMatches up c x = false := by
  unfold charMatches
  rw [canonicalize_ascii up c hc, beq_eq_false_iff_ne]
  intro h
  have h1 := canonicalize_nonascii up x hx
  have h3 := asciiUpper_lt c hc
  rw [← h] at h1
  omega

/-- Inside a line the loop keeps the first character of its input. -/
theorem rewriteFrom_head (up : Char → Str) (as : List Atom) (has : as ≠ []) (repl : Str)
    (prev : Option Char) (hprev : atLineStart prev = false) (s : Str) :
    (rewriteFrom up as repl prev s).head? = s.head? := by
  cases s with
  | nil => rw [rewriteFrom_nil up as has]
  | cons c t =>
    cases hm : execAt up as prev (c :: t) with
    | none => rw [rewriteFrom_none up as repl prev c t hm]; rfl
    | some m =>
      rw [rewriteFrom_some up as has repl prev _ m hm]
      obtain ⟨h1, _, _, h4⟩ := execAt_some up as prev _ m hm
      rcases h4 with ⟨_, hb⟩ | ⟨d, hd, _⟩
      · rw [hprev] at hb; exact Bool.noConfusion hb
      · rw [hd] at h1 ⊢
        simp only [List.append_assoc, List.singleton_append, List.cons_append,
          List.cons.injEq] at h1
        simp [h1.1]

/-- C2, as stated, fails: rewriting `Nike's shoes` with brand `Nike` does not give
`Nike's shoes`. -/
theorem possessive_suffix_counterexample :
    rewriteText sampleUpper (some "Nike".toList) "Nike".toList "Nike's shoes".toList ≠
      "Nike's shoes".toList := by
  decide

/-! ## Boundaries -/

theorem not_lineTerminator_of_alnum (c : Char) (h : isAsciiAlnum c = true) :
    isLineTerminator c = false := by
  simp only [isAsciiAlnum, isAsciiUpper, isAsciiLower, isAsciiDigit, Bool.or_eq_true,
    Bool.and_eq_true, decide_eq_true_eq] at h
  simp only [isLineTerminator, Bool.or_eq_false_iff, beq_eq_false_iff_ne, ne_eq]
  omega

theorem not_alnum_of_lineTerminator (c : Char) (h : isLineTerminator c = true) :
    isAsciiAlnum c = false := by
  cases ha : isAsciiAlnum c with
  | false => rfl
  | true => rw [not_lineTerminator_of_alnum c ha] at h; exact Bool.noConfusion h

theorem execAt_inside_word (up : Char → Str) (as : List Atom) (prev : Option Char)
    (hprev : atLineStart prev = false) (c : Char) (hc : isAsciiAlnum c = true) (t : Str) :
    execAt up as prev (c :: t) = none := by
  simp [execAt, hprev, hc]

theorem rewriteFrom_word (up : Char → Str) (as : List Atom) (has : as ≠ []) (repl : Str)
    (w : Str) (hw : ∀ c ∈ w, isAsciiAlnum c = true) (prev : Option Char)
    (hprev : atLineStart prev = false) : rewriteFrom up as repl prev w = w := by
  induction w generalizing prev with
  | nil => exact rewriteFrom_nil up as has repl prev
  | cons c t ih =>
    have hc := hw c (by simp)
    rw [rewriteFrom_none up as repl prev c t (execAt_inside_word up as prev hprev c hc t),
      ih (fun d hd => hw d (by simp [hd])) (some c) (not_lineTerminator_of_alnum c hc)]

theorem replaceBrand_word (up : Char → Str) (as : List Atom) (has : as ≠ []) (repl : Str)
    (w : Str) (hw : ∀ c ∈ w, isAsciiAlnum c = true) :
    replaceBrand up as repl w = w ∨ replaceBrand up as repl w = repl := by
  rw [replaceBrand_eq]
  cases hm : execAt up as none w with
  | none =>
    left
    cases w with
    | nil => exact rewriteFrom_nil up as has repl none
    | cons c t =>
      rw [rewriteFrom_none up as repl none c t hm,
        rewriteFrom_word up as has repl t (fun d hd => hw d (by simp [hd])) (some c)
          (not_lineTerminator_of_alnum c (hw c (by simp)))]
  | some m =>
    right
    obtain ⟨h1, h2, _, h4⟩ := execAt_some up as none w m hm
    have hr : m.rest = [] := by
      cases hr : m.rest with
      | nil => rfl
      | cons d r =>
        have hd := hw d (by rw [← h1, hr]; simp)
        rw [hr] at h2
        simp [lookaheadOk, hd] at h2
    have hl : m.left = [] := by
      rcases h4 with ⟨hl, _⟩ | ⟨d, hd, hd2⟩
      · exact hl
      · have := hw d (by rw [← h1, hd]; simp)
        rw [this] at hd2
        exact Bool.noConfusion hd2
    rw [rewriteFrom_some up as has repl none w m hm, hr, hl, rewriteFrom_nil up as has]
    simp

/-- C7, as stated, fails: for brand `s` the text `ss` is the letter `s` followed by an
occurrence of the brand, and the rewritten text is `S`: the occurrence preceded by a
letter was consumed as the plural suffix of the match before it. -/
theorem boundary_safety_counterexample :
    "ss".toList = ['s'] ++ "s".toList ∧ isAsciiAlnum 's' = true ∧
    sameIgnoringCase (normalizeSpaces (some "s".toList)) "s".toList ∧
    rewriteText sampleUpper (some "s".toList) "S".toList "ss".toList = "S".toList := by
  decide

set_option maxRecDepth 100000 in
/-- C7, amended.  Every match of the expression is made of the captured left boundary, the
brand part, the suffix and the remaining input, where the character just before the brand
part, if any, is not alphanumeric (the brand part starts at the start of the text, after a
line terminator, or after the captured character, which is not alphanumeric), and the
remaining input is empty or starts with a character that is not alphanumeric.  So an
occurrence of the brand preceded by an ASCII letter or digit, or continued (after the
optional suffix) by one, is never the brand part of a match.  A text made only of ASCII
letters and digits is left unchanged unless it is matched as a whole, in which case it
becomes the replacement.  Rewriting `Article about art supplies` with brand `Art` gives
`Article about Art supplies`. -/
theorem boundary_safety :
    (∀ (up : Char → Str) (atoms : List Atom) (prev : Option Char) (s : Str) (m : Match),
      execAt up atoms prev s = some m →
        m.left ++ m.brand ++ m.suffix ++ m.rest = s ∧
        ((m.left = [] ∧ (prev = none ∨ ∃ p, prev = some p ∧ isLineTerminator p = true ∧
              isAsciiAlnum p = false)) ∨
          ∃ c, m.left = [c] ∧ isAsciiAlnum c = false) ∧
        (m.rest = [] ∨ ∃ c r, m.rest = c :: r ∧ isAsciiAlnum c = false)) ∧
    (∀ (up : Char → Str) (atoms : List Atom) (repl w : Str), atoms ≠ [] →
      (∀ c ∈ w, isAsciiAlnum c = true) →
        replaceBrand up atoms repl w = w ∨ replaceBrand up atoms repl w = repl) ∧
    (∀ up : Char → Str,
      rewriteText up (some "Art".toList) "Art".toList "Article about art supplies".toList =
        "Article about Art supplies".toList) := by
  refine ⟨?_, ?_, ?_⟩
  · intro up atoms prev s m h
    obtain ⟨h1, h2, _, h4⟩ := execAt_some up atoms prev s m h
    refine ⟨h1, ?_, ?_⟩
    · rcases h4 with ⟨hl, hb⟩ | h4
      · left
        refine ⟨hl, ?_⟩
        cases prev with
        | none => exact Or.inl rfl
        | some p => exact Or.inr ⟨p, rfl, hb, not_alnum_of_lineTerminator p hb⟩
      · exact Or.inr h4
    · cases hr : m.rest with
      | nil => exact Or.inl rfl
      | cons c r =>
        rw [hr] at h2
        exact Or.inr ⟨c, r, rfl, by simpa [lookaheadOk] using h2⟩
  · intro up atoms repl w has hw
    exact replaceBrand_word up atoms has repl w hw
  · intro up
    have hb : isBlank (some "Art".toList) = false := by decide
    have hn : normalizeSpaces (some "Art".toList) = "Art".toList := by decide
    simp only [rewriteText_eq up _ hb, hn]
    exact replaceBrand_ascii_eval up _ _ _ _ (by decide) (by decide)

/-- Witness of the amended C7: the word `Article` is left unchanged by the matcher of the
brand `Art`, and the word `arts` is matched as a whole. -/
theorem boundary_safety_witness :
    (replaceBrand sampleUpper (brandAtoms "Art".toList) "Art".toList "Article".toList =
        "Article".toList ∨
      replaceBrand sampleUpper (brandAtoms "Art".toList) "Art".toList "Article".toList =
        "Art".toList) ∧
    replaceBrand sampleUpper (brandAtoms "Art".toList) "Art".toList "Article".toList =
      "Article".toList ∧
    replaceBrand sampleUpper (brandAtoms "Art".toList) "Art".toList "arts".toList =
      "Art".toList :=
  ⟨boundary_safety.2.1 sampleUpper (brandAtoms "Art".toList) "Art".toList "Article".toList
    (by decide) (by decide), by decide, by decide⟩

/-! ## Matching is local: it only reads what it consumes and one more character -/

theorem alnum_iff (c : Char) :
    isAsciiAlnum c = true ↔
      (65 ≤ c.toNat ∧ c.toNat ≤ 90) ∨ (97 ≤ c.toNat ∧ c.toNat ≤ 122) ∨
        (48 ≤ c.toNat ∧ c.toNat ≤ 57) := by
  simp [isAsciiAlnum, isAsciiUpper, isAsciiLower, isAsciiDigit, or_assoc]

theorem not_ws_of_alnum (c : Char) (h : isAsciiAlnum c = true) : isWhiteSpace c = false := by
  rw [alnum_iff] at h
  rw [Bool.eq_false_iff]
  intro hw
  rw [isWhiteSpace_iff] at hw
  simp only [whiteSpaceCodes, List.mem_cons, List.mem_singleton, List.not_mem_nil, or_false] at hw
  omega

theorem charMatches_alnum (up : Char → Str) (c x : Char) (hc : isAsciiAlnum c = true)
    (h : charMatches up c x = true) : isAsciiAlnum x = true := by
  have hc2 := (alnum_iff c).mp hc
  have hca : c.toNat < 128 := by omega
  by_cases hx : x.toNat < 128
  · rw [charMatches_ascii up c x hca hx, beq_iff_eq] at h
    have hn := congrArg Char.toNat h
    rw [asciiUpper_toNat, asciiUpper_toNat] at hn
    rw [alnum_iff]
    by_cases h1 : isAsciiLower c = true <;> by_cases h2 : isAsciiLower x = true <;>
      simp [h1, h2] at hn <;>
      simp only [isAsciiLower, Bool.and_eq_true, decide_eq_true_eq] at h1 h2 <;> omega
  · rw [charMatches_ascii_nonascii up c x hca (by omega)] at h
    exact Bool.noConfusion h

theorem spaceRuns_mem_of (run rest : Str) (hne : run ≠ [])
    (hws : ∀ c ∈ run, isWhiteSpace c = true) : (run, rest) ∈ spaceRuns (run ++ rest) := by
  induction run with
  | nil => exact absurd rfl hne
  | cons a t ih =>
    have ha := hws a (by simp)
    simp only [List.cons_append, spaceRuns, ha, if_true, List.mem_append, List.mem_map,
      List.mem_singleton]
    by_cases ht : t = []
    · subst ht; right; rfl
    · left
      exact ⟨(t, rest), ih ht (fun c hc => hws c (by simp [hc])), rfl⟩

theorem matchAtoms_local (up : Char → Str) (as : List Atom) (s : Str) (r : Str × Str)
    (h : r ∈ matchAtoms up as s) (rest2 : Str) :
    (r.1, rest2) ∈ matchAtoms up as (r.1 ++ rest2) := by
  induction as generalizing s r with
  | nil => simp [matchAtoms] at h; subst h; simp [matchAtoms]
  | cons a as ih =>
    cases a with
    | lit c =>
      cases s with
      | nil => simp [matchAtoms] at h
      | cons x t =>
        by_cases hm : charMatches up c x = true
        · simp only [matchAtoms, hm, if_true, List.mem_map] at h
          obtain ⟨q, hq, rfl⟩ := h
          have := ih t q hq
          simp only [List.cons_append, matchAtoms, hm, if_true, List.mem_map]
          exact ⟨(q.1, rest2), this, rfl⟩
        · simp [matchAtoms, hm] at h
    | spaces =>
      simp only [matchAtoms, List.mem_flatMap, List.mem_map] at h
      obtain ⟨run, hrun, q, hq, rfl⟩ := h
      obtain ⟨_, h2, h3⟩ := spaceRuns_mem s run hrun
      have := ih run.2 q hq
      simp only [matchAtoms, List.mem_flatMap, List.mem_map, List.append_assoc]
      exact ⟨(run.1, q.1 ++ rest2), spaceRuns_mem_of run.1 _ h2 h3, (q.1, rest2), this, rfl⟩

theorem matchLiteral_local (up : Char → Str) (p s : Str) (r : Str × Str)
    (h : matchLiteral up p s = some r) (rest2 : Str) :
    matchLiteral up p (r.1 ++ rest2) = some (r.1, rest2) := by
  induction p generalizing s r with
  | nil => simp [matchLiteral] at h; subst h; simp [matchLiteral]
  | cons c p ih =>
    cases s with
    | nil => simp [matchLiteral] at h
    | cons x t =>
      by_cases hm : charMatches up c x = true
      · simp only [matchLiteral, hm, if_true, Option.map_eq_some'] at h
        obtain ⟨q, hq, rfl⟩ := h
        have := ih t q hq
        simp [matchLiteral, hm, this]
      · simp [matchLiteral, hm] at h

theorem suffixAlts_local (up : Char → Str) (s : Str) (r : Str × Str)
    (h : r ∈ suffixAlts up s) (rest2 : Str) : (r.1, rest2) ∈ suffixAlts up (r.1 ++ rest2) := by
  simp only [suffixAlts, List.mem_append, List.mem_flatMap, Option.mem_toList,
    List.mem_singleton] at h ⊢
  rcases h with ⟨p, hp, hm⟩ | rfl
  · exact Or.inl ⟨p, hp, matchLiteral_local up p s r hm rest2⟩
  · right; rfl

/-- The shape of a suffix: nothing, a character matched by `s`, or an apostrophe followed
by a character. -/
theorem suffixAlts_shape (up : Char → Str) (s : Str) (r : Str × Str)
    (h : r ∈ suffixAlts up s) :
    r.1 = [] ∨ (∃ x, r.1 = [x] ∧ charMatches up 's' x = true) ∨
      ∃ a x, r.1 = [a, x] ∧ isApostrophe up a = true ∧ charMatches up 's' x = true := by
  simp only [suffixAlts, suffixPatterns, List.mem_append, List.mem_flatMap, Option.mem_toList,
    List.mem_singleton, List.mem_cons, List.not_mem_nil, or_false] at h
  have p1 : "'s".toList = [Char.ofNat 39, 's'] := by decide
  have p2 : "’s".toList = ['’', 's'] := by decide
  have p3 : "s".toList = ['s'] := by decide
  rcases h with ⟨p, hp, hm⟩ | rfl
  · rcases hp with rfl | rfl | rfl
    · rw [p1] at hm
      cases s with
      | nil => simp [matchLiteral] at hm
      | cons a t =>
        cases t with
        | nil =>
          by_cases h1 : charMatches up (Char.ofNat 39) a = true <;> simp [matchLiteral, h1] at hm
        | cons x u =>
          by_cases h1 : charMatches up (Char.ofNat 39) a = true
          · by_cases h2 : charMatches up 's' x = true
            · simp [matchLiteral, h1, h2] at hm
              subst hm
              exact Or.inr (Or.inr ⟨a, x, rfl, by simp [isApostrophe, h1], h2⟩)
            · simp [matchLiteral, h1, h2] at hm
          · simp [matchLiteral, h1] at hm
    · rw [p2] at hm
      cases s with
      | nil => simp [matchLiteral] at hm
      | cons a t =>
        cases t with
        | nil =>
          by_cases h1 : charMatches up '’' a = true <;> simp [matchLiteral, h1] at hm
        | cons x u =>
          by_cases h1 : charMatches up '’' a = true
          · by_cases h2 : charMatches up 's' x = true
            · simp [matchLiteral, h1, h2] at hm
              subst hm
              exact Or.inr (Or.inr ⟨a, x, rfl, by simp [isApostrophe, h1], h2⟩)
            · simp [matchLiteral, h1, h2] at hm
          · simp [matchLiteral, h1] at hm
    · rw [p3] at hm
      cases s with
      | nil => simp [matchLiteral] at hm
      | cons x t =>
        by_cases h2 : charMatches up 's' x = true
        · simp [matchLiteral, h2] at hm
          subst hm
          exact Or.inr (Or.inl ⟨x, rfl, h2⟩)
        · simp [matchLiteral, h2] at hm
  · exact Or.inl rfl

theorem matchBody_some_mem (up : Char → Str) (as : List Atom) (s : Str) (r : Str × Str × Str)
    (h : matchBody up as s = some r) :
    (r.1, r.2.1 ++ r.2.2) ∈ matchAtoms up as s ∧
      (r.2.1, r.2.2) ∈ suffixAlts up (r.2.1 ++ r.2.2) ∧ lookaheadOk r.2.2 = true := by
  unfold matchBody at h
  have h1 := List.find?_some h
  have h2 := List.mem_of_find?_eq_some h
  simp only [List.mem_flatMap, List.mem_map] at h2
  obtain ⟨m, hm, q, hq, rfl⟩ := h2
  have h5 := suffixAlts_mem up m.2 q hq
  refine ⟨?_, ?_, h1⟩
  · simp only [h5]; exact hm
  · simp only [h5]; exact hq

theorem matchBody_of_mem (up : Char → Str) (as : List Atom) (s : Str) (b x sf rest : Str)
    (hb : (b, x) ∈ matchAtoms up as s) (hsf : (sf, rest) ∈ suffixAlts up x)
    (hl : lookaheadOk rest = true) : matchBody up as s ≠ none := by
  intro h0
  unfold matchBody at h0
  rw [List.find?_eq_none] at h0
  have := h0 (b, sf, rest) (by
    simp only [List.mem_flatMap, List.mem_map]
    exact ⟨(b, x), hb, (sf, rest), hsf, rfl⟩)
  simp [hl] at this

/-! ## Brands made of ASCII letters and digits -/

theorem brandAtoms_alnum (cb : Str) (hcb : ∀ c ∈ cb, isAsciiAlnum c = true) :
    brandAtoms cb = cb.map Atom.lit := by
  unfold brandAtoms
  apply List.map_congr_left
  intro c hc
  simp [not_ws_of_alnum c (hcb c hc)]

theorem spacesOk_alnum (cb : Str) (hcb : ∀ c ∈ cb, isAsciiAlnum c = true) :
    spacesOk cb = true := by
  induction cb with
  | nil => rfl
  | cons c t ih =>
    simp [spacesOk, not_ws_of_alnum c (hcb c (by simp)), ih (fun d hd => hcb d (by simp [hd]))]

theorem normalizeSpaces_alnum (cb : Str) (hcb : ∀ c ∈ cb, isAsciiAlnum c = true) :
    normalizeSpaces (some cb) = cb := by
  apply normalizeSpaces_of_normalized
  refine ⟨spacesOk_alnum cb hcb, ?_⟩
  intro c hc
  cases cb with
  | nil => simp at hc
  | cons a t => simp at hc; subst hc; exact not_ws_of_alnum _ (hcb _ (by simp))

theorem matchAtoms_lits_alnum (up : Char → Str) (cb : Str)
    (hcb : ∀ c ∈ cb, isAsciiAlnum c = true) (s : Str) (r : Str × Str)
    (h : r ∈ matchAtoms up (cb.map Atom.lit) s) : ∀ x ∈ r.1, isAsciiAlnum x = true := by
  induction cb generalizing s r with
  | nil => simp [matchAtoms] at h; subst h; simp
  | cons c cb ih =>
    cases s with
    | nil => simp [matchAtoms] at h
    | cons y t =>
      by_cases hm : charMatches up c y = true
      · simp only [List.map_cons, matchAtoms, hm, if_true, List.mem_map] at h
        obtain ⟨q, hq, rfl⟩ := h
        intro x hx
        simp only [List.mem_cons] at hx
        rcases hx with rfl | hx
        · exact charMatches_alnum up c _ (hcb c (by simp)) hm
        · exact ih (fun d hd => hcb d (by simp [hd])) t q hq x hx
      · simp [matchAtoms, hm] at h

theorem matchAtoms_brand_alnum (up : Char → Str) (cb : Str)
    (hcb : ∀ c ∈ cb, isAsciiAlnum c = true) (s : Str) (r : Str × Str)
    (h : r ∈ matchAtoms up (brandAtoms cb) s) : ∀ x ∈ r.1, isAsciiAlnum x = true := by
  rw [brandAtoms_alnum cb hcb] at h
  exact matchAtoms_lits_alnum up cb hcb s r h

theorem lookaheadOk_congr (r1 r2 : Str) (h : r1.head? = r2.head?) :
    lookaheadOk r1 = lookaheadOk r2 := by
  cases r1 with
  | nil =>
    cases r2 with
    | nil => rfl
    | cons b t => simp at h
  | cons a s =>
    cases r2 with
    | nil => simp at h
    | cons b t => simp at h; subst h; rfl

theorem apostrophe_not_alnum (up : Char → Str) (a : Char) (h : isApostrophe up a = true) :
    isAsciiAlnum a = false := by
  cases ha : isAsciiAlnum a with
  | false => rfl
  | true =>
    exfalso
    have h2 := (alnum_iff a).mp ha
    have hlt : a.toNat < 128 := by omega
    simp only [isApostrophe, Bool.or_eq_true] at h
    rcases h with h | h
    · rw [charMatches_ascii up _ a (by decide) hlt, beq_iff_eq] at h
      have hn := congrArg Char.toNat h
      rw [asciiUpper_toNat a] at hn
      have h39 : (asciiUpper (Char.ofNat 39)).toNat = 39 := by decide
      rw [h39] at hn
      by_cases h1 : isAsciiLower a = true
      · simp [h1] at hn
        simp only [isAsciiLower, Bool.and_eq_true, decide_eq_true_eq] at h1
        omega
      · simp [h1] at hn
        omega
    · rw [charMatches_nonascii_ascii up _ a (by decide) hlt] at h
      exact Bool.noConfusion h

/-- Every text is a word of ASCII letters and digits followed by a boundary. -/
theorem split_word (s : Str) :
    ∃ w s2, s = w ++ s2 ∧ (∀ c ∈ w, isAsciiAlnum c = true) ∧ lookaheadOk s2 = true := by
  refine ⟨s.takeWhile isAsciiAlnum, s.dropWhile isAsciiAlnum,
    (List.takeWhile_append_dropWhile isAsciiAlnum s).symm,
    fun c hc => List.mem_takeWhile_imp hc, ?_⟩
  cases h : s.dropWhile isAsciiAlnum with
  | nil => rfl
  | cons a t =>
    have := dropWhile_head isAsciiAlnum s a (by rw [h]; rfl)
    simp [lookaheadOk, this]

/-- Inside a line the loop copies a word of ASCII letters and digits. -/
theorem rewriteFrom_word_append (up : Char → Str) (as : List Atom) (repl : Str)
    (w : Str) (hw : ∀ c ∈ w, isAsciiAlnum c = true) (s2 : Str) (prev : Option Char)
    (hprev : atLineStart prev = false) :
    ∃ q, atLineStart q = false ∧
      rewriteFrom up as repl prev (w ++ s2) = w ++ rewriteFrom up as repl q s2 := by
  induction w generalizing prev with
  | nil => exact ⟨prev, hprev, rfl⟩
  | cons c t ih =>
    have hc := hw c (by simp)
    obtain ⟨q, hq, he⟩ := ih (fun d hd => hw d (by simp [hd])) (some c)
      (not_lineTerminator_of_alnum c hc)
    refine ⟨q, hq, ?_⟩
    rw [List.cons_append,
      rewriteFrom_none up as repl prev c _ (execAt_inside_word up as prev hprev c hc _), he]
    rfl

/-- When the part after the first group does not match at a position, the loop keeps the
first character there. -/
theorem rewriteFrom_head_of_none (up : Char → Str) (as : List Atom) (has : as ≠ [])
    (repl : Str) (prev : Option Char) (s : Str) (h : matchBody up as s = none) :
    (rewriteFrom up as repl prev s).head? = s.head? := by
  cases s with
  | nil => rw [rewriteFrom_nil up as has]
  | cons c t =>
    cases hm : execAt up as prev (c :: t) with
    | none => rw [rewriteFrom_none up as repl prev c t hm]; rfl
    | some m =>
      rw [rewriteFrom_some up as has repl prev _ m hm]
      have hm2 := hm
      unfold execAt at hm2
      simp only [h, ite_self] at hm2
      by_cases hc : isAsciiAlnum c = true
      · simp [hc] at hm2
      · simp only [hc, Bool.false_eq_true, if_false, Option.map_eq_some'] at hm2
        obtain ⟨r, _, rfl⟩ := hm2
        rfl

theorem execAt_eq_none_iff (up : Char → Str) (as : List Atom) (prev : Option Char) (c : Char)
    (t : Str) :
    execAt up as prev (c :: t) = none ↔
      (atLineStart prev = true → matchBody up as (c :: t) = none) ∧
        (isAsciiAlnum c = false → matchBody up as t = none) := by
  unfold execAt
  by_cases hb : atLineStart prev = true
  · cases h1 : matchBody up as (c :: t) with
    | some r => simp [hb]
    | none =>
      by_cases hc : isAsciiAlnum c = true
      · simp [hb, hc]
      · simp [hb, hc]
  · by_cases hc : isAsciiAlnum c = true
    · simp [hb, hc]
    · simp [hb, hc]

/-! ## Idempotence of the deep sweep -/

mutual
theorem allStrings_mono (P Q : Str → Prop) (hPQ : ∀ s, P s → Q s) :
    ∀ d : Doc, allStrings P d → allStrings Q d
  | Doc.null => by simp [allStrings]
  | Doc.bool b => by simp [allStrings]
  | Doc.num n => by simp [allStrings]
  | Doc.str s => by simp only [allStrings]; exact hPQ s
  | Doc.arr items => by simp only [allStrings]; exact allStringsItems_mono P Q hPQ items
  | Doc.obj fields => by simp only [allStrings]; exact allStringsFields_mono P Q hPQ fields
theorem allStringsItems_mono (P Q : Str → Prop) (hPQ : ∀ s, P s → Q s) :
    ∀ ds : List Doc, allStringsItems P ds → allStringsItems Q ds
  | [] => by simp [allStringsItems]
  | d :: ds => by
    simp only [allStringsItems]
    exact fun h => ⟨allStrings_mono P Q hPQ d h.1, allStringsItems_mono P Q hPQ ds h.2⟩
theorem allStringsFields_mono (P Q : Str → Prop) (hPQ : ∀ s, P s → Q s) :
    ∀ ds : List (Str × Doc), allStringsFields P ds → allStringsFields Q ds
  | [] => by simp [allStringsFields]
  | kv :: ds => by
    simp only [allStringsFields]
    exact fun h => ⟨allStrings_mono P Q hPQ kv.2 h.1, allStringsFields_mono P Q hPQ ds h.2⟩
end

mutual
theorem walk_idem (up : Char → Str) (rx : List Atom) (cb : Str) :
    ∀ d : Doc,
      allStrings (fun s => replaceBrand up rx cb (replaceBrand up rx cb s) =
        replaceBrand up rx cb s) d →
      walk up rx cb (walk up rx cb d) = walk up rx cb d
  | Doc.null => by simp [walk]
  | Doc.bool b => by simp [walk]
  | Doc.num n => by simp [walk]
  | Doc.str s => by
    intro h
    simp only [allStrings] at h
    by_cases hs : s = []
    · simp [walk, hs]
    · by_cases h2 : replaceBrand up rx cb s = []
      · simp [walk, hs, h2]
      · simp [walk, hs, h2, h]
  | Doc.arr items => by
    intro h
    simp only [allStrings] at h
    simp only [walk, walkItems_idem up rx cb items h]
  | Doc.obj fields => by
    intro h
    simp only [allStrings] at h
    simp only [walk, walkFields_idem up rx cb fields h]
theorem walkItems_idem (up : Char → Str) (rx : List Atom) (cb : Str) :
    ∀ ds : List Doc,
      allStringsItems (fun s => replaceBrand up rx cb (replaceBrand up rx cb s) =
        replaceBrand up rx cb s) ds →
      walkItems up rx cb (walkItems up rx cb ds) = walkItems up rx cb ds
  | [] => by simp [walkItems]
  | d :: ds => by
    intro h
    simp only [allStringsItems] at h
    simp only [walkItems, walk_idem up rx cb d h.1, walkItems_idem up rx cb ds h.2]
theorem walkFields_idem (up : Char → Str) (rx : List Atom) (cb : Str) :
    ∀ ds : List (Str × Doc),
      allStringsFields (fun s => replaceBrand up rx cb (replaceBrand up rx cb s) =
        replaceBrand up rx cb s) ds →
      walkFields up rx cb (walkFields up rx cb ds) = walkFields up rx cb ds
  | [] => by simp [walkFields]
  | kv :: ds => by
    intro h
    simp only [allStringsFields] at h
    simp only [walkFields, walk_idem up rx cb kv.2 h.1, walkFields_idem up rx cb ds h.2]
end

theorem blank_inert_aux (up : Char → Str) (raw : Option Str) (h : isBlank raw = true)
    (doc : Doc) : forceBrandCanonicalEverywhere up doc raw = .ok doc := by
  have hb : buildBrandRegex raw = .ok none := by
    simp [buildBrandRegex, normalizeSpaces_blank raw h]
  cases raw with
  | none => rfl
  | some cb =>
    unfold forceBrandCanonicalEverywhere
    by_cases h0 : cb = []
    · simp [h0]
    · simp [h0, hb]

theorem force_eq (up : Char → Str) (doc : Doc) (cb : Str) (h : isBlank (some cb) = false) :
    forceBrandCanonicalEverywhere up doc (some cb) =
      .ok (walk up (brandAtoms (normalizeSpaces (some cb))) cb doc) := by
  have hne := normalizeSpaces_ne_nil _ h
  have h0 : cb ≠ [] := by
    intro h0; subst h0; exact absurd h (by decide)
  simp [forceBrandCanonicalEverywhere, h0, buildBrandRegex_eq, hne]

theorem isBlank_alnum (cb : Str) (hne : cb ≠ []) (hcb : ∀ c ∈ cb, isAsciiAlnum c = true) :
    isBlank (some cb) = false := by
  cases cb with
  | nil => exact absurd rfl hne
  | cons c t => simp [isBlank, stringOrEmpty, not_ws_of_alnum c (hcb c (by simp))]

/-- C1, as stated, fails: with brand `Nike` the sweep turns the string `Nike's's` into
`Nike's`, and a second sweep turns that into `Nike`. -/
theorem sweep_idempotent_counterexample :
    forceBrandCanonicalEverywhere sampleUpper (Doc.str "Nike's's".toList) (some "Nike".toList) =
      .ok (Doc.str "Nike's".toList) ∧
    forceBrandCanonicalEverywhere sampleUpper (Doc.str "Nike's".toList) (some "Nike".toList) =
      .ok (Doc.str "Nike".toList) ∧
    rewriteText sampleUpper (some "Nike".toList) "Nike".toList
        (rewriteText sampleUpper (some "Nike".toList) "Nike".toList "Nike's's".toList) ≠
      rewriteText sampleUpper (some "Nike".toList) "Nike".toList "Nike's's".toList :=
  ⟨rfl, rfl, by decide⟩

/-! ## After a sweep every delimited occurrence is canonical -/

theorem alnum_of_same (cb occ : Str) (hcb : ∀ c ∈ cb, isAsciiAlnum c = true)
    (h : sameIgnoringCase cb occ) : ∀ x ∈ occ, isAsciiAlnum x = true := by
  induction cb generalizing occ with
  | nil =>
    cases occ with
    | nil => simp
    | cons y u => simp [sameIgnoringCase] at h
  | cons c t ih =>
    cases occ with
    | nil => simp [sameIgnoringCase] at h
    | cons y u =>
      simp only [sameIgnoringCase, List.map_cons, List.cons.injEq] at h
      intro x hx
      simp only [List.mem_cons] at hx
      rcases hx with rfl | hx
      · exact charMatches_alnum (fun c => [c]) c _ (hcb c (by simp))
          (charMatches_of_upper_eq _ c _ h.1)
      · exact ih u (fun d hd => hcb d (by simp [hd])) h.2 x hx

theorem same_ne_nil (cb occ : Str) (hne : cb ≠ []) (h : sameIgnoringCase cb occ) :
    occ ≠ [] := by
  intro h0
  subst h0
  cases cb with
  | nil => exact hne rfl
  | cons c t => simp [sameIgnoringCase] at h

/-- A text splits in one way only into a word of letters and digits and a boundary. -/
theorem word_unique (w1 r1 w2 r2 : Str) (h : w1 ++ r1 = w2 ++ r2)
    (h1 : ∀ c ∈ w1, isAsciiAlnum c = true) (h2 : ∀ c ∈ w2, isAsciiAlnum c = true)
    (l1 : lookaheadOk r1 = true) (l2 : lookaheadOk r2 = true) : w1 = w2 ∧ r1 = r2 := by
  rw [List.append_eq_append_iff] at h
  rcases h with ⟨a, ha1, ha2⟩ | ⟨a, ha1, ha2⟩
  · cases a with
    | nil => exact ⟨by simpa using ha1.symm, by simpa using ha2⟩
    | cons x u =>
      exfalso
      have hx := h2 x (by rw [ha1]; simp)
      rw [ha2] at l1
      simp [lookaheadOk, hx] at l1
  · cases a with
    | nil => exact ⟨by simpa using ha1, by simpa using ha2.symm⟩
    | cons x u =>
      exfalso
      have hx := h1 x (by rw [ha1]; simp)
      rw [ha2] at l2
      simp [lookaheadOk, hx] at l2

theorem matchBody_of_occurrence (up : Char → Str) (cb : Str)
    (hcb : ∀ c ∈ cb, isAsciiAlnum c = true) (occ s2 : Str) (h : sameIgnoringCase cb occ)
    (hl : lookaheadOk s2 = true) : matchBody up (brandAtoms cb) (occ ++ s2) ≠ none := by
  have h1 := matchAtoms_self up cb (spacesOk_alnum cb hcb) occ h s2
  apply matchBody_of_mem up _ _ occ s2 [] s2 (by rw [h1]; simp) (by simp [suffixAlts]) hl

/-- Where the part after the first group does not match, the loop copies the word at the
position and the boundary character after it. -/
theorem rewriteFrom_word_shape (up : Char → Str) (as : List Atom) (has : as ≠ [])
    (repl : Str) (prev : Option Char) (s : Str) (h : matchBody up as s = none) :
    ∃ w s2 o, s = w ++ s2 ∧ (∀ c ∈ w, isAsciiAlnum c = true) ∧ lookaheadOk s2 = true ∧
      rewriteFrom up as repl prev s = w ++ o ∧ lookaheadOk o = true := by
  obtain ⟨w, s2, hsplit, hw, hs2⟩ := split_word s
  cases w with
  | nil =>
    refine ⟨[], s2, rewriteFrom up as repl prev s, hsplit, hw, hs2, rfl, ?_⟩
    rw [lookaheadOk_congr _ s (rewriteFrom_head_of_none up as has repl prev s h), hsplit]
    exact hs2
  | cons x w' =>
    have hx := hw x (by simp)
    have he : execAt up as prev s = none := by
      unfold execAt
      simp only [h, ite_self]
      rw [hsplit]
      simp [hx]
    obtain ⟨q, hq, hr⟩ := rewriteFrom_word_append up as repl w'
      (fun d hd => hw d (by simp [hd])) s2 (some x) (not_lineTerminator_of_alnum x hx)
    refine ⟨x :: w', s2, rewriteFrom up as repl q s2, hsplit, hw, hs2, ?_, ?_⟩
    · rw [hsplit] at he ⊢
      rw [List.cons_append] at he ⊢
      rw [rewriteFrom_none up as repl prev x _ he, hr]
      rfl
    · rw [lookaheadOk_congr _ s2 (rewriteFrom_head up as has repl q hq s2)]
      exact hs2

theorem match_last_alnum (up : Char → Str) (cb : Str) (hne : cb ≠ [])
    (hcb : ∀ c ∈ cb, isAsciiAlnum c = true) (prev : Option Char) (s : Str) (m : Match)
    (h : execAt up (brandAtoms cb) prev s = some m) :
    ∃ p, (m.left ++ m.brand ++ m.suffix).getLast? = some p ∧ isAsciiAlnum p = true := by
  obtain ⟨h1, _, h3, _⟩ := execAt_some up _ prev s m h
  have hbody : ∃ s0, (m.brand, m.suffix ++ m.rest) ∈ matchAtoms up (brandAtoms cb) s0 ∧
      (m.suffix, m.rest) ∈ suffixAlts up (m.suffix ++ m.rest) := by
    unfold execAt at h
    split at h
    · next r hr =>
      by_cases hb : atLineStart prev = true
      · simp only [hb, if_true] at hr
        obtain ⟨e1, e2, _⟩ := matchBody_some_mem up _ s r hr
        simp only [Option.some.injEq] at h
        subst h
        exact ⟨s, e1, e2⟩
      · simp [hb] at hr
    · cases s with
      | nil => simp at h
      | cons c t =>
        by_cases hc : isAsciiAlnum c = true
        · simp [hc] at h
        · simp only [hc, Bool.false_eq_true, if_false, Option.map_eq_some'] at h
          obtain ⟨r, hr, rfl⟩ := h
          obtain ⟨e1, e2, _⟩ := matchBody_some_mem up _ t r hr
          exact ⟨t, e1, e2⟩
  obtain ⟨s0, hb1, hb2⟩ := hbody
  have hbr := matchAtoms_brand_alnum up cb hcb s0 _ hb1
  simp only at hbr
  have hpos : 0 < (brandAtoms cb).length := List.length_pos.mpr (brandAtoms_ne_nil cb hne)
  have hbne : m.brand ≠ [] := by
    intro h0; rw [h0] at h3; simp only [List.length_nil] at h3; omega
  rcases suffixAlts_shape up _ _ hb2 with hsf | ⟨x, hsf, hx⟩ | ⟨a, x, hsf, _, hx⟩
  · simp only at hsf
    rw [hsf, List.append_nil, List.getLast?_append_of_ne_nil _ hbne]
    exact ⟨m.brand.getLast hbne, List.getLast?_eq_getLast _ hbne,
      hbr _ (List.getLast_mem hbne)⟩
  · simp only at hsf
    rw [hsf, List.getLast?_append_of_ne_nil _ (by simp)]
    exact ⟨x, rfl, charMatches_alnum up 's' x (by decide) hx⟩
  · simp only at hsf
    rw [hsf, List.getLast?_append_of_ne_nil _ (by simp)]
    exact ⟨x, rfl, charMatches_alnum up 's' x (by decide) hx⟩

theorem getLast?_cons_of_ne_nil (c : Char) (l : Str) (h : l ≠ []) :
    (c :: l).getLast? = l.getLast? := by
  cases l with
  | nil => exact absurd rfl h
  | cons b u => rw [List.getLast?_cons_cons]

/-- The invariant of the loop behind `occurrences_canonical`: `prev` is the character before
the position; when it is a boundary character that is not a line terminator, the attempt
made at that character has failed. -/
theorem occurrences_canonical_aux (up : Char → Str) (cb : Str) (hne : cb ≠ [])
    (hcb : ∀ c ∈ cb, isAsciiAlnum c = true) (n : Nat) :
    ∀ (s : Str), s.length ≤ n → ∀ (prev : Option Char),
      (∀ d, prev = some d → isAsciiAlnum d = false → isLineTerminator d = false →
        matchBody up (brandAtoms cb) s = none) →
      ∀ pre occ post : Str,
        rewriteFrom up (brandAtoms cb) cb prev s = pre ++ (occ ++ post) →
        sameIgnoringCase cb occ → lookaheadOk post = true →
        (∀ c, pre.getLast? = some c → isAsciiAlnum c = false) →
        (pre = [] → ∀ d, prev = some d → isAsciiAlnum d = false) → occ = cb := by
  have has := brandAtoms_ne_nil cb hne
  induction n with
  | zero =>
    intro s hs prev _ pre occ post hR hocc _ _ _
    have : s = [] := List.length_eq_zero.mp (by omega)
    subst this
    rw [rewriteFrom_nil up _ has] at hR
    have h0 : occ = [] := by
      have := congrArg List.length hR
      simp only [List.length_nil, List.length_append] at this
      exact List.length_eq_zero.mp (by omega)
    exact absurd h0 (same_ne_nil cb occ hne hocc)
  | succ n ih =>
    intro s hs prev hinv pre occ post hR hocc hpost hL1 hL2
    have hoccne := same_ne_nil cb occ hne hocc
    have hocca := alnum_of_same cb occ hcb hocc
    cases hm : execAt up (brandAtoms cb) prev s with
    | none =>
      cases s with
      | nil =>
        rw [rewriteFrom_nil up _ has] at hR
        have h0 : occ = [] := by
          have := congrArg List.length hR
          simp only [List.length_nil, List.length_append] at this
          exact List.length_eq_zero.mp (by omega)
        exact absurd h0 hoccne
      | cons c t =>
        obtain ⟨hA, hB⟩ := (execAt_eq_none_iff up _ prev c t).mp hm
        cases pre with
        | nil =>
          exfalso
          have hmb : matchBody up (brandAtoms cb) (c :: t) = none := by
            by_cases hb : atLineStart prev = true
            · exact hA hb
            · cases prev with
              | none => exact absurd rfl hb
              | some d =>
                exact hinv d rfl (hL2 rfl d rfl) (by simpa [atLineStart] using hb)
          obtain ⟨w, s2, o, hsplit, hw, hs2, hRw, ho⟩ :=
            rewriteFrom_word_shape up _ has cb prev (c :: t) hmb
          rw [hRw, List.nil_append] at hR
          obtain ⟨hwo, _⟩ := word_unique w o occ post hR hw hocca ho hpost
          apply matchBody_of_occurrence up cb hcb occ s2 hocc hs2
          rw [← hwo, ← hsplit]
          exact hmb
        | cons x pre2 =>
          rw [rewriteFrom_none up _ cb prev c t hm] at hR
          simp only [List.cons_append, List.cons.injEq] at hR
          obtain ⟨hxc, hR2⟩ := hR
          subst hxc
          apply ih t (by simp at hs; omega) (some c) ?_ pre2 occ post hR2 hocc hpost ?_ ?_
          · intro d hd hda _
            simp only [Option.some.injEq] at hd
            subst hd
            exact hB hda
          · intro z hz
            apply hL1 z
            have hne2 : pre2 ≠ [] := by
              intro h0; rw [h0] at hz; simp at hz
            rw [getLast?_cons_of_ne_nil c pre2 hne2]
            exact hz
          · intro h0 d hd
            simp only [Option.some.injEq] at hd
            subst hd
            subst h0
            exact hL1 c rfl
    | some m =>
      obtain ⟨h1, h2, _, h4⟩ := execAt_some up _ prev s m hm
      obtain ⟨p, hp, hpa⟩ := match_last_alnum up cb hne hcb prev s m hm
      obtain ⟨_, _, hlen⟩ := execAt_consumed up _ has prev s m hm
      have hpf : atLineStart (some p) = false := not_lineTerminator_of_alnum p hpa
      rw [rewriteFrom_some up _ has cb prev s m hm, hp] at hR
      have hl3 : lookaheadOk (rewriteFrom up (brandAtoms cb) cb (some p) m.rest) = true := by
        rw [lookaheadOk_congr _ _ (rewriteFrom_head up _ has cb (some p) hpf m.rest)]
        exact h2
      have hcbl : isAsciiAlnum (cb.getLast hne) = true := hcb _ (List.getLast_mem hne)
      rw [List.append_eq_append_iff] at hR
      rcases hR with ⟨a1, ha1, ha2⟩ | ⟨c1, hc1, hc2⟩
      · -- the occurrence lies after the replacement
        apply ih m.rest (by omega) (some p) ?_ a1 occ post ha2 hocc hpost ?_ ?_
        · intro d hd hda _
          simp only [Option.some.injEq] at hd
          subst hd
          rw [hpa] at hda
          exact Bool.noConfusion hda
        · intro z hz
          apply hL1 z
          have hne2 : a1 ≠ [] := by
            intro h0; rw [h0] at hz; simp at hz
          rw [ha1, List.getLast?_append_of_ne_nil _ hne2]
          exact hz
        · intro h0 d _
          exfalso
          subst h0
          have := hL1 (cb.getLast hne) (by
            rw [ha1, List.append_nil, List.getLast?_append_of_ne_nil _ hne]
            exact List.getLast?_eq_getLast _ hne)
          rw [hcbl] at this
          exact Bool.noConfusion this
      · rw [List.append_eq_append_iff] at hc1
        have hfin : pre = m.left → c1 = cb → occ = cb := by
          intro _ hc
          rw [hc] at hc2
          exact (word_unique occ post cb _ hc2 hocca hcb hpost hl3).1
        rcases hc1 with ⟨a2, ha3, ha4⟩ | ⟨c2, hc3, hc4⟩
        · cases a2 with
          | nil =>
            exact hfin (by simpa using ha3) (by simpa using ha4.symm)
          | cons y u =>
            exfalso
            have hmem : (y :: u).getLast (by simp) ∈ cb := by
              rw [ha4]
              exact List.mem_append_left _ (List.getLast_mem _)
            have := hL1 ((y :: u).getLast (by simp)) (by
              rw [ha3, List.getLast?_append_of_ne_nil _ (by simp)]
              exact List.getLast?_eq_getLast _ _)
            rw [hcb _ hmem] at this
            exact Bool.noConfusion this
        · cases c2 with
          | nil =>
            exact hfin (by simpa using hc3.symm) (by simpa using hc4)
          | cons y u =>
            exfalso
            rw [hc4] at hc2
            have hy : isAsciiAlnum y = true := by
              cases occ with
              | nil => exact absurd rfl hoccne
              | cons z v =>
                simp only [List.cons_append, List.cons.injEq] at hc2
                rw [← hc2.1]
                exact hocca z (by simp)
            rcases h4 with ⟨hl, _⟩ | ⟨c0, hl, hc0⟩
            · rw [hl] at hc3
              have := congrArg List.length hc3
              simp only [List.length_cons, List.length_nil, List.length_append] at this
              omega
            · rw [hl] at hc3
              have hlen2 := congrArg List.length hc3
              simp only [List.length_cons, List.length_nil, List.length_append] at hlen2
              have hp0 : pre = [] := List.length_eq_zero.mp (by omega)
              subst hp0
              simp only [List.nil_append, List.cons.injEq] at hc3
              rw [← hc3.1, hc0] at hy
              exact Bool.noConfusion hy

/-- After rewriting with a brand made of ASCII letters and digits, every delimited
occurrence of the brand in the text is the brand itself. -/
theorem occurrences_canonical (up : Char → Str) (cb : Str) (hne : cb ≠ [])
    (hcb : ∀ c ∈ cb, isAsciiAlnum c = true) (s pre occ post : Str)
    (h : replaceBrand up (brandAtoms cb) cb s = pre ++ occ ++ post)
    (hocc : DelimitedOccurrence cb pre occ post) : occ = cb := by
  rw [replaceBrand_eq, List.append_assoc] at h
  exact occurrences_canonical_aux up cb hne hcb s.length s (Nat.le_refl _) none
    (fun d hd => Option.noConfusion hd) pre occ post h hocc.1 hocc.2.2 hocc.2.1
    (fun _ d hd => Option.noConfusion hd)

mutual
theorem allStrings_walk (up : Char → Str) (rx : List Atom) (cb : Str) (P : Str → Prop)
    (h0 : P []) (hP : ∀ s, P (replaceBrand up rx cb s)) :
    ∀ d : Doc, allStrings P (walk up rx cb d)
  | Doc.null => by simp [walk, allStrings]
  | Doc.bool b => by simp [walk, allStrings]
  | Doc.num n => by simp [walk, allStrings]
  | Doc.str s => by
    by_cases hs : s = []
    · simp [walk, allStrings, hs, h0]
    · simp [walk, allStrings, hs, hP]
  | Doc.arr items => by
    simp only [walk, allStrings]
    exact allStringsItems_walk up rx cb P h0 hP items
  | Doc.obj fields => by
    simp only [walk, allStrings]
    exact allStringsFields_walk up rx cb P h0 hP fields
theorem allStringsItems_walk (up : Char → Str) (rx : List Atom) (cb : Str) (P : Str → Prop)
    (h0 : P []) (hP : ∀ s, P (replaceBrand up rx cb s)) :
    ∀ ds : List Doc, allStringsItems P (walkItems up rx cb ds)
  | [] => by simp [walkItems, allStringsItems]
  | d :: ds => by
    simp only [walkItems, allStringsItems]
    exact ⟨allStrings_walk up rx cb P h0 hP d, allStringsItems_walk up rx cb P h0 hP ds⟩
theorem allStringsFields_walk (up : Char → Str) (rx : List Atom) (cb : Str) (P : Str → Prop)
    (h0 : P []) (hP : ∀ s, P (replaceBrand up rx cb s)) :
    ∀ ds : List (Str × Doc), allStringsFields P (walkFields up rx cb ds)
  | [] => by simp [walkFields, allStringsFields]
  | kv :: ds => by
    simp only [walkFields, allStringsFields]
    exact ⟨allStrings_walk up rx cb P h0 hP kv.2, allStringsFields_walk up rx cb P h0 hP ds⟩
end

theorem replaceBrandEverywhere_obj (up : Char → Str) (fields : List (Str × Doc))
    (raw : Option Str) (cb : Str) :
    ∃ fields2, replaceBrandEverywhere up (Doc.obj fields) raw cb = .ok (Doc.obj fields2) := by
  unfold replaceBrandEverywhere
  rw [buildBrandRegex_eq]
  by_cases h : normalizeSpaces raw = []
  · exact ⟨fields, by simp [h]⟩
  · exact ⟨fields.map (fun kv =>
      (kv.1, replaceInValue up (brandAtoms (normalizeSpaces raw)) cb kv.2)), by simp [h]⟩

theorem force_ok (up : Char → Str) (doc : Doc) (brand : Option Str) :
    ∃ out, forceBrandCanonicalEverywhere up doc brand = .ok out := by
  by_cases hb : isBlank brand = true
  · exact ⟨doc, blank_inert_aux up brand hb doc⟩
  · cases brand with
    | none => exact absurd rfl hb
    | some cb => exact ⟨_, force_eq up doc cb (by simpa using hb)⟩

theorem enforce_obj_ok (up : Char → Str) (fields : List (Str × Doc)) (raw : Option Str) :
    ∃ out, enforceCanonicalBrand up (Doc.obj fields) raw = .ok out := by
  unfold enforceCanonicalBrand
  by_cases h : canonicalizeBrand up raw = []
  · exact ⟨Doc.obj fields, by simp [h]⟩
  · obtain ⟨f1, h1⟩ := replaceBrandEverywhere_obj up fields raw (canonicalizeBrand up raw)
    obtain ⟨f2, h2⟩ := replaceBrandEverywhere_obj up f1 (some (canonicalizeBrand up raw))
      (canonicalizeBrand up raw)
    obtain ⟨out, h3⟩ := force_ok up (Doc.obj f2) (some (canonicalizeBrand up raw))
    exact ⟨out, by simp [h, h1, h2, h3]⟩

theorem enforce_is_walk (up : Char → Str) (doc out : Doc) (raw : Option Str)
    (hne : canonicalizeBrand up raw ≠ [])
    (hcb : ∀ c ∈ canonicalizeBrand up raw, isAsciiAlnum c = true)
    (h : enforceCanonicalBrand up doc raw = .ok out) :
    ∃ g, out = walk up (brandAtoms (canonicalizeBrand up raw)) (canonicalizeBrand up raw) g := by
  unfold enforceCanonicalBrand at h
  simp only [hne, if_false] at h
  cases h1 : replaceBrandEverywhere up doc raw (canonicalizeBrand up raw) with
  | error e => simp [h1] at h
  | ok g1 =>
    simp only [h1] at h
    cases h2 : replaceBrandEverywhere up g1 (some (canonicalizeBrand up raw))
        (canonicalizeBrand up raw) with
    | error e => simp [h2] at h
    | ok g2 =>
      simp only [h2] at h
      rw [force_eq up g2 _ (isBlank_alnum _ hne hcb), normalizeSpaces_alnum _ hcb] at h
      simp only [Except.ok.injEq] at h
      exact ⟨g2, h.symm⟩

/-- C3, as stated, fails in two ways.  With raw brand `nike` the field `nike's's's's` is
left as `Nike's` by the three passes: the occurrence is followed by a possessive suffix.
With raw brand `duran duran` the field `duran duran duran` is left as `Duran Duran duran`,
in which `Duran duran` is a delimited occurrence that is not spelled as the canonical
brand. -/
theorem full_canonicalization_counterexample :
    (enforceCanonicalBrand sampleUpper
        (Doc.obj [("title".toList, Doc.str "nike's's's's".toList)]) (some "nike".toList) =
      .ok (Doc.obj [("title".toList, Doc.str "Nike's".toList)]) ∧
      canonicalizeBrand sampleUpper (some "nike".toList) = "Nike".toList ∧
      "Nike's".toList = [] ++ "Nike".toList ++ "'s".toList ∧
      DelimitedOccurrence "Nike".toList [] "Nike".toList "'s".toList) ∧
    (enforceCanonicalBrand sampleUpper
        (Doc.obj [("title".toList, Doc.str "duran duran duran".toList)])
        (some "duran duran".toList) =
      .ok (Doc.obj [("title".toList, Doc.str "Duran Duran duran".toList)]) ∧
      canonicalizeBrand sampleUpper (some "duran duran".toList) = "Duran Duran".toList ∧
      "Duran Duran duran".toList = "Duran ".toList ++ "Duran duran".toList ++ [] ∧
      DelimitedOccurrence "Duran Duran".toList "Duran ".toList "Duran duran".toList [] ∧
      "Duran duran".toList ≠ "Duran Duran".toList) := by
  have d1 : DelimitedOccurrence "Nike".toList [] "Nike".toList "'s".toList :=
    ⟨by decide, fun c hc => by simp at hc, by decide⟩
  have d2 : DelimitedOccurrence "Duran Duran".toList "Duran ".toList "Duran duran".toList [] := by
    refine ⟨by decide, ?_, by decide⟩
    intro c hc
    have : "Duran ".toList.getLast? = some ' ' := by decide
    rw [this] at hc
    simp only [Option.some.injEq] at hc
    subst hc
    decide
  exact ⟨⟨rfl, by decide, by decide, d1⟩, ⟨rfl, by decide, by decide, d2, by decide⟩⟩

/-! ## The targeted pass and the sweep on a flat object -/

theorem walk_string_value (up : Char → Str) (rx : List Atom) (cb : Str) (s : Str) :
    walk up rx cb (Doc.str s) = replaceInValue up rx cb (Doc.str s) := by
  by_cases h : s = []
  · simp [walk, replaceInValue, h]
  · simp [walk, replaceInValue, h]

theorem walkFields_flat (up : Char → Str) (rx : List Atom) (cb : Str)
    (fields : List (Str × Doc)) (h : ∀ kv ∈ fields, ∃ s, kv.2 = Doc.str s) :
    walkFields up rx cb fields =
      fields.map (fun kv => (kv.1, replaceInValue up rx cb kv.2)) := by
  induction fields with
  | nil => simp [walkFields]
  | cons kv kvs ih =>
    obtain ⟨s, hs⟩ := h kv (by simp)
    simp only [walkFields, List.map_cons, hs, walk_string_value,
      ih (fun q hq => h q (by simp [hq]))]

/-- C19. For every object whose values are all strings and every brand `B`, the object left
by `replaceBrandEverywhere(obj, B, B)` is the object returned by
`forceBrandCanonicalEverywhere(obj, B)`. -/
theorem flat_rewriters_agree (up : Char → Str) (fields : List (Str × Doc)) (brand : Str)
    (h : ∀ kv ∈ fields, ∃ s, kv.2 = Doc.str s) :
    replaceBrandEverywhere up (Doc.obj fields) (some brand) brand =
      forceBrandCanonicalEverywhere up (Doc.obj fields) (some brand) := by
  by_cases hb : isBlank (some brand) = true
  · rw [blank_inert_aux up _ hb]
    simp [replaceBrandEverywhere, buildBrandRegex_eq, normalizeSpaces_blank _ hb]
  · have hb2 : isBlank (some brand) = false := by simpa using hb
    rw [force_eq up _ brand hb2]
    simp [replaceBrandEverywhere, buildBrandRegex_eq, normalizeSpaces_ne_nil _ hb2, walk,
      walkFields_flat up _ brand fields h]

/-- Witness of C19 on an object with two string properties, one of them empty. -/
theorem flat_rewriters_agree_witness :
    replaceBrandEverywhere sampleUpper
        (Doc.obj [("title".toList, Doc.str "NIKE shoes".toList), ("subtitle".toList, Doc.str [])])
        (some "Nike".toList) "Nike".toList =
      forceBrandCanonicalEverywhere sampleUpper
        (Doc.obj [("title".toList, Doc.str "NIKE shoes".toList), ("subtitle".toList, Doc.str [])])
        (some "Nike".toList) :=
  flat_rewriters_agree sampleUpper _ "Nike".toList (by
    intro kv hkv
    simp only [List.mem_cons, List.mem_singleton, List.not_mem_nil, or_false] at hkv
    rcases hkv with rfl | rfl
    · exact ⟨_, rfl⟩
    · exact ⟨_, rfl⟩)

/-! ## The targeted pass on an object -/

theorem rewriteFrom_segmented (up : Char → Str) (as : List Atom) (has : as ≠ []) (repl : Str)
    (n : Nat) :
    ∀ (s : Str), s.length ≤ n → ∀ prev : Option Char,
      ∃ ps, Segmented up as prev s ps ∧ s = ps.flatMap pieceSource ∧
        rewriteFrom up as repl prev s = ps.flatMap (pieceTarget repl) := by
  induction n with
  | zero =>
    intro s hs prev
    have : s = [] := List.length_eq_zero.mp (by omega)
    subst this
    exact ⟨[], by simp [Segmented], by simp, by simp [rewriteFrom_nil up as has]⟩
  | succ n ih =>
    intro s hs prev
    cases hex : execAt up as prev s with
    | some m =>
      obtain ⟨p, hp, hlen⟩ := execAt_consumed up as has prev s m hex
      obtain ⟨hsplit, -, -, -⟩ := execAt_some up as prev s m hex
      obtain ⟨ps, h1, h2, h3⟩ := ih m.rest (by omega) ((m.left ++ m.brand ++ m.suffix).getLast?)
      refine ⟨Piece.hit m.left m.brand m.suffix :: ps, ?_, ?_, ?_⟩
      · exact ⟨m.rest, hex, h1⟩
      · rw [List.flatMap_cons, ← h2]
        simp only [pieceSource]
        exact hsplit.symm
      · rw [rewriteFrom_some up as has repl prev s m hex, h3, List.flatMap_cons]
        simp only [pieceTarget]
    | none =>
      cases s with
      | nil => exact ⟨[], by simp [Segmented], by simp, by simp [rewriteFrom_nil up as has]⟩
      | cons c t =>
        obtain ⟨ps, h1, h2, h3⟩ := ih t (by simpa using hs) (some c)
        refine ⟨Piece.keep c :: ps, ⟨t, rfl, hex, h1⟩, ?_, ?_⟩
        · rw [List.flatMap_cons, ← h2]
          simp [pieceSource]
        · rw [rewriteFrom_none up as repl prev c t hex, h3, List.flatMap_cons]
          simp [pieceTarget]

theorem rewriteText_blank (up : Char → Str) (raw : Option Str) (repl s : Str)
    (h : isBlank raw = true) : rewriteText up raw repl s = s := by
  simp [rewriteText, buildBrandRegex_eq, normalizeSpaces_blank _ h]

theorem rewriteText_nil (up : Char → Str) (raw : Option Str) (repl : Str) :
    rewriteText up raw repl [] = [] := by
  by_cases h : isBlank raw = true
  · exact rewriteText_blank up raw repl [] h
  · have h2 : isBlank raw = false := by simpa using h
    rw [rewriteText_eq up raw h2, replaceBrand_eq,
      rewriteFrom_nil up _ (brandAtoms_ne_nil _ (normalizeSpaces_ne_nil raw h2))]

theorem replaceInValue_eq (up : Char → Str) (raw : Option Str) (cb : Str) (h : isBlank raw = false)
    (v : Doc) :
    replaceInValue up (brandAtoms (normalizeSpaces raw)) cb v =
      match v with
      | Doc.str s => Doc.str (rewriteText up raw cb s)
      | w => w := by
  cases v with
  | str s =>
    by_cases hs : s = []
    · subst hs
      simp [replaceInValue, rewriteText_nil]
    · simp [replaceInValue, hs, rewriteText_eq up raw h]
  | _ => rfl

theorem replaceBrandEverywhere_obj_eq (up : Char → Str) (fields : List (Str × Doc))
    (raw : Option Str) (cb : Str) :
    replaceBrandEverywhere up (Doc.obj fields) raw cb =
      .ok (Doc.obj (fields.map (fun kv => (kv.1,
        match kv.2 with
        | Doc.str s => Doc.str (rewriteText up raw cb s)
        | w => w)))) := by
  by_cases h : isBlank raw = true
  · have e : fields.map (fun kv => (kv.1,
        match kv.2 with
        | Doc.str s => Doc.str (rewriteText up raw cb s)
        | w => w)) = fields := by
      conv_rhs => rw [← List.map_id fields]
      apply List.map_congr_left
      intro kv _
      rcases kv with ⟨k, v⟩
      cases v <;> simp [rewriteText_blank up raw cb _ h]
    rw [e]
    simp [replaceBrandEverywhere, buildBrandRegex_eq, normalizeSpaces_blank _ h]
  · have h2 : isBlank raw = false := by simpa using h
    simp only [replaceBrandEverywhere, buildBrandRegex_eq, normalizeSpaces_ne_nil _ h2,
      if_false, replaceInValue_eq up raw cb h2]

set_option maxRecDepth 100000 in
/-- C11. For every object, source brand and replacement, `replaceBrandEverywhere` returns an
object with the same keys in the same order; a value that is not a string, or is the empty
string, is unchanged, nested arrays and objects included; a non-empty string value becomes
its rewrite.  The rewrite of a string cuts it into matches of the expression and the
characters between them, keeps those characters, and puts the captured left boundary
followed by the replacement, as it is written, in place of each match; with a blank brand
there is no match.  A replacement containing `$` is inserted literally. -/
theorem targeted_replace_frame (up : Char → Str) (fields : List (Str × Doc))
    (raw : Option Str) (cb : Str) :
    (∃ fields2, replaceBrandEverywhere up (Doc.obj fields) raw cb = .ok (Doc.obj fields2) ∧
      fields2.map Prod.fst = fields.map Prod.fst ∧
      List.Forall₂ (fun kv kv2 => kv2.1 = kv.1 ∧
          (∀ s, kv.2 = Doc.str s → s ≠ [] → kv2.2 = Doc.str (rewriteText up raw cb s)) ∧
          ((∀ s, kv.2 = Doc.str s → s = []) → kv2.2 = kv.2)) fields fields2) ∧
    (∀ s, isBlank raw = true → rewriteText up raw cb s = s) ∧
    (∀ s, isBlank raw = false →
      ∃ ps, Segmented up (brandAtoms (normalizeSpaces raw)) none s ps ∧
        s = ps.flatMap pieceSource ∧ rewriteText up raw cb s = ps.flatMap (pieceTarget cb)) ∧
    rewriteText up (some "acme".toList) "$& $1 $$".toList "an ACME's kit, acme".toList =
      "an $& $1 $$ kit, $& $1 $$".toList := by
  refine ⟨⟨_, replaceBrandEverywhere_obj_eq up fields raw cb, ?_, ?_⟩, ?_, ?_, ?_⟩
  · simp [List.map_map, Function.comp_def]
  · rw [List.forall₂_map_right_iff]
    apply List.forall₂_same.mpr
    intro kv _
    refine ⟨rfl, ?_, ?_⟩
    · intro s hs _
      simp [hs]
    · intro hall
      rcases kv with ⟨k, v⟩
      cases v with
      | str s =>
        have := hall s rfl
        subst this
        simp [rewriteText_nil]
      | _ => rfl
  · intro s h
    exact rewriteText_blank up raw cb s h
  · intro s h
    obtain ⟨ps, h1, h2, h3⟩ := rewriteFrom_segmented up _ (brandAtoms_ne_nil _ (normalizeSpaces_ne_nil raw h)) cb s.length
      s (Nat.le_refl _) none
    exact ⟨ps, h1, h2, by rw [rewriteText_eq up raw h, replaceBrand_eq, h3]⟩
  · have hb : isBlank (some "acme".toList) = false := by decide
    have hn : normalizeSpaces (some "acme".toList) = "acme".toList := by decide
    simp only [rewriteText_eq up _ hb, hn]
    exact replaceBrand_ascii_eval up _ _ _ _ (by decide) (by decide)

/-! ## `normalizeSpaces` -/

theorem wordsAux_all_ws (v : Str) (hv : ∀ c ∈ v, isWhiteSpace c = true) (acc : Str) :
    wordsAux acc v = if acc = [] then [] else [acc] := by
  induction v generalizing acc with
  | nil => simp [wordsAux]
  | cons c v ih =>
    have hc : isWhiteSpace c = true := hv c (by simp)
    have ih2 := ih (fun x hx => hv x (by simp [hx])) []
    simp only [wordsAux, hc, if_true, ih2]

theorem wordsAux_append_ws (u v : Str) (hv : ∀ c ∈ v, isWhiteSpace c = true) (acc : Str) :
    wordsAux acc (u ++ v) = wordsAux acc u := by
  induction u generalizing acc with
  | nil => simp [wordsAux, wordsAux_all_ws v hv]
  | cons c u ih =>
    have e : u.append v = u ++ v := rfl
    simp only [List.cons_append, wordsAux, e, ih]

theorem wordsAux_dropWhile (s : Str) :
    wordsAux [] (s.dropWhile isWhiteSpace) = wordsAux [] s := by
  induction s with
  | nil => rfl
  | cons c s ih =>
    by_cases hc : isWhiteSpace c = true
    · simp [List.dropWhile, hc, wordsAux, ih]
    · simp [List.dropWhile, hc]

theorem trim_decompose (s : Str) :
    ∃ v, (∀ c ∈ v, isWhiteSpace c = true) ∧ s.dropWhile isWhiteSpace = trim s ++ v := by
  refine ⟨((s.dropWhile isWhiteSpace).reverse.takeWhile isWhiteSpace).reverse, ?_, ?_⟩
  · intro c hc
    exact List.mem_takeWhile_imp (List.mem_reverse.mp hc)
  · unfold trim
    rw [← List.reverse_append, List.takeWhile_append_dropWhile, List.reverse_reverse]

theorem words_trim (s : Str) : words (trim s) = words s := by
  obtain ⟨v, hv, he⟩ := trim_decompose s
  unfold words
  rw [← wordsAux_dropWhile s, he, wordsAux_append_ws _ _ hv]

theorem wordsAux_collapse (s : Str) :
    ∀ (acc : Str) (b : Bool), (b = true → acc = []) →
      wordsAux acc (replaceSpaceRunsAux [' '] b s) = wordsAux acc s := by
  induction s with
  | nil => intro acc b _; simp [replaceSpaceRunsAux]
  | cons c s ih =>
    intro acc b hb
    by_cases hc : isWhiteSpace c = true
    · cases b with
      | true =>
        have := hb rfl
        subst this
        simp [replaceSpaceRunsAux, hc, wordsAux, ih [] true (fun _ => rfl)]
      | false =>
        have hsp : isWhiteSpace ' ' = true := by decide
        simp [replaceSpaceRunsAux, hc, wordsAux, hsp, ih [] true (fun _ => rfl)]
    · have hc2 : isWhiteSpace c = false := by simpa using hc
      simp [replaceSpaceRunsAux, hc2, wordsAux, ih (acc ++ [c]) false (by simp)]

theorem words_normalizeSpaces (raw : Option Str) :
    words (normalizeSpaces raw) = words (stringOrEmpty raw) := by
  unfold normalizeSpaces replaceSpaceRuns
  rw [← words_trim (stringOrEmpty raw)]
  exact wordsAux_collapse _ [] false (by simp)

theorem spacesOk_only_space (s : Str) (h : spacesOk s = true) :
    ∀ c ∈ s, isWhiteSpace c = true → c = ' ' := by
  induction s with
  | nil => simp
  | cons d s ih =>
    intro c hc hws
    simp only [spacesOk, Bool.and_eq_true] at h
    rcases List.mem_cons.mp hc with rfl | hc2
    · have := h.1
      simp only [hws, if_true, Bool.and_eq_true, beq_iff_eq] at this
      exact this.1
    · exact ih h.2 c hc2 hws

theorem spacesOk_noDoubleSpace (s : Str) (h : spacesOk s = true) : noDoubleSpace s = true := by
  induction s with
  | nil => rfl
  | cons c s ih =>
    simp only [spacesOk, Bool.and_eq_true] at h
    cases s with
    | nil => rfl
    | cons d t =>
      simp only [noDoubleSpace, Bool.and_eq_true, ih h.2, and_true]
      by_cases hc : c = ' '
      · subst hc
        have hsp : isWhiteSpace ' ' = true := by decide
        have := h.1
        simp only [hsp, if_true, Bool.and_eq_true, beq_self_eq_true, true_and,
          Bool.not_eq_true'] at this
        have hd : d ≠ ' ' := by
          intro e
          subst e
          simp [hsp] at this
        simp [hd]
      · simp [hc]

/-- C13. For every string `s`, possibly missing, `normalizeSpaces(s)` does not start and does
not end with white space, contains no white-space character other than the ASCII space,
contains no two adjacent spaces, and has the same sequence of words as `s`; a missing input
gives the empty string; and `normalizeSpaces` applied to its own result returns it. -/
theorem normalizeSpaces_contract (raw : Option Str) :
    (∀ c, (normalizeSpaces raw).head? = some c → isWhiteSpace c = false) ∧
    (∀ c, (normalizeSpaces raw).getLast? = some c → isWhiteSpace c = false) ∧
    (∀ c ∈ normalizeSpaces raw, isWhiteSpace c = true → c = ' ') ∧
    noDoubleSpace (normalizeSpaces raw) = true ∧
    words (normalizeSpaces raw) = words (stringOrEmpty raw) ∧
    normalizeSpaces none = [] ∧
    normalizeSpaces (some (normalizeSpaces raw)) = normalizeSpaces raw := by
  have hn := normalizeSpaces_normalized raw
  exact ⟨hn.2, spacesOk_last _ hn.1, spacesOk_only_space _ hn.1,
    spacesOk_noDoubleSpace _ hn.1, words_normalizeSpaces raw, rfl, normalizeSpaces_idem raw⟩

/-! ## `buildClassicMainText` -/

theorem head?_append_left (a b : Str) (h : a ≠ []) : (a ++ b).head? = a.head? := by
  cases a with
  | nil => exact absurd rfl h
  | cons x a => rfl

theorem getLast?_append_right (a b : Str) (h : b ≠ []) : (a ++ b).getLast? = b.getLast? := by
  cases b with
  | nil => exact absurd rfl h
  | cons x b =>
    rw [List.getLast?_append]
    cases hl : (x :: b).getLast? with
    | none => simp at hl
    | some y => rfl

theorem joinSurvivors_eq_nil (ps : List Str) :
    joinSurvivors ps = [] ↔ ∀ p ∈ ps, p = [] := by
  induction ps with
  | nil => simp [joinSurvivors]
  | cons p ps ih =>
    by_cases hp : p = []
    · simp [joinSurvivors, hp, ih]
    · by_cases hall : ps.all (fun q => q.isEmpty) = true
      · simp [joinSurvivors, hp, hall]
      · simp [joinSurvivors, hp, hall]

theorem all_empty_iff (ps : List Str) :
    ps.all (fun q => q.isEmpty) = true ↔ ∀ p ∈ ps, p = [] := by
  simp [List.all_eq_true]

theorem intercalate_filter (ps : List Str) :
    List.intercalate ['\n', '\n'] (ps.filter (fun s => !s.isEmpty)) = joinSurvivors ps := by
  induction ps with
  | nil => rfl
  | cons p ps ih =>
    by_cases hp : p = []
    · subst hp
      simpa [joinSurvivors] using ih
    · have hf : (p :: ps).filter (fun s => !s.isEmpty) = p :: ps.filter (fun s => !s.isEmpty) := by
        rw [List.filter_cons_of_pos]
        simpa [List.isEmpty_iff] using hp
      rw [hf]
      by_cases hall : ps.all (fun q => q.isEmpty) = true
      · have hnil : ps.filter (fun s => !s.isEmpty) = [] := by
          rw [List.filter_eq_nil_iff]
          intro q hq
          have := (all_empty_iff ps).mp hall q hq
          simp [this]
        simp [joinSurvivors, hp, hall, hnil, List.intercalate]
      · have hne : ps.filter (fun s => !s.isEmpty) ≠ [] := by
          intro h0
          apply hall
          rw [all_empty_iff]
          intro q hq
          have := (List.filter_eq_nil_iff.mp h0) q hq
          simpa using this
        simp only [joinSurvivors, hp, hall, if_false, ← ih]
        cases hq : ps.filter (fun s => !s.isEmpty) with
        | nil => exact absurd hq hne
        | cons q qs => simp [List.intercalate, List.intersperse]

theorem joinSurvivors_head (ps : List Str)
    (h : ∀ p ∈ ps, ∀ x, p.head? = some x → isWhiteSpace x = false) :
    ∀ x, (joinSurvivors ps).head? = some x → isWhiteSpace x = false := by
  induction ps with
  | nil => simp [joinSurvivors]
  | cons p ps ih =>
    have ih2 := ih (fun q hq => h q (by simp [hq]))
    by_cases hp : p = []
    · simpa [joinSurvivors, hp] using ih2
    · by_cases hall : ps.all (fun q => q.isEmpty) = true
      · simpa [joinSurvivors, hp, hall] using h p (by simp)
      · simp only [joinSurvivors, hp, hall, if_false, List.append_assoc, Bool.false_eq_true]
        rw [head?_append_left _ _ hp]
        exact h p (by simp)

theorem joinSurvivors_last (ps : List Str)
    (h : ∀ p ∈ ps, ∀ x, p.getLast? = some x → isWhiteSpace x = false) :
    ∀ x, (joinSurvivors ps).getLast? = some x → isWhiteSpace x = false := by
  induction ps with
  | nil => simp [joinSurvivors]
  | cons p ps ih =>
    have ih2 := ih (fun q hq => h q (by simp [hq]))
    by_cases hp : p = []
    · simpa [joinSurvivors, hp] using ih2
    · by_cases hall : ps.all (fun q => q.isEmpty) = true
      · simpa [joinSurvivors, hp, hall] using h p (by simp)
      · simp only [joinSurvivors, hp, hall, if_false, Bool.false_eq_true]
        have hne : joinSurvivors ps ≠ [] := by
          intro h0
          exact hall ((all_empty_iff ps).mpr ((joinSurvivors_eq_nil ps).mp h0))
        rw [getLast?_append_right _ _ hne]
        exact ih2

set_option maxRecDepth 100000 in
/-- C12. For every document, `buildClassicMainText` returns the texts of
`description_paragraph_1`, `description_paragraph_2` and `description_paragraph_3`, a
missing or `null` value counting as empty, each trimmed, the empty ones discarded and the
others joined in that order with `"\n\n"` between each pair.  The paragraphs `"A."`, `""`,
`"B."` give `"A.\n\nB."`; the result is empty exactly when the three trimmed texts are; it
never starts or ends with white space, so never with a line break. -/
theorem buildClassicMainText_contract (hostString : Doc → Str) (generated : Doc) :
    buildClassicMainText hostString generated =
        joinSurvivors (paragraphKeys.map (paragraph hostString generated)) ∧
      paragraphText hostString none = [] ∧ paragraphText hostString (some Doc.null) = [] ∧
      buildClassicMainText hostString
          (Doc.obj [("description_paragraph_1".toList, Doc.str "A.".toList),
            ("description_paragraph_2".toList, Doc.str []),
            ("description_paragraph_3".toList, Doc.str "B.".toList)]) = "A.\n\nB.".toList ∧
      (buildClassicMainText hostString generated = [] ↔
        ∀ key ∈ paragraphKeys, paragraph hostString generated key = []) ∧
      (∀ x, (buildClassicMainText hostString generated).head? = some x →
        isWhiteSpace x = false) ∧
      (∀ x, (buildClassicMainText hostString generated).getLast? = some x →
        isWhiteSpace x = false) := by
  have e : buildClassicMainText hostString generated =
      joinSurvivors (paragraphKeys.map (paragraph hostString generated)) := by
    unfold buildClassicMainText
    simp only [List.map_map]
    rw [intercalate_filter]
    rfl
  refine ⟨e, rfl, rfl, by rfl, ?_, ?_, ?_⟩
  · rw [e, joinSurvivors_eq_nil]
    simp
  · rw [e]
    apply joinSurvivors_head
    intro p hp x hx
    obtain ⟨k, -, rfl⟩ := List.mem_map.mp hp
    exact trim_head _ x hx
  · rw [e]
    apply joinSurvivors_last
    intro p hp x hx
    obtain ⟨k, -, rfl⟩ := List.mem_map.mp hp
    exact trim_last _ x hx

/-! ## A text without the brand is not rewritten -/

theorem spacesOk_of_no_ws (b : Str) (hb : ∀ c ∈ b, isWhiteSpace c = false) :
    spacesOk b = true := by
  induction b with
  | nil => rfl
  | cons c b ih =>
    simp [spacesOk, hb c (by simp), ih (fun x hx => hb x (by simp [hx]))]

theorem normalizeSpaces_of_no_ws (b : Str) (hb : ∀ c ∈ b, isWhiteSpace c = false) :
    normalizeSpaces (some b) = b := by
  apply normalizeSpaces_of_normalized
  refine ⟨spacesOk_of_no_ws b hb, ?_⟩
  intro c hc
  cases b with
  | nil => simp at hc
  | cons d b =>
    simp only [List.head?_cons, Option.some.injEq] at hc
    subst hc
    exact hb d (by simp)

theorem isBlank_of_no_ws (b : Str) (hne : b ≠ []) (hb : ∀ c ∈ b, isWhiteSpace c = false) :
    isBlank (some b) = false := by
  cases b with
  | nil => exact absurd rfl hne
  | cons c b => simp [isBlank, stringOrEmpty, hb c (by simp)]

theorem matchAtoms_lits_starts (up : Char → Str) (b : Str)
    (hb : ∀ c ∈ b, isWhiteSpace c = false) :
    ∀ (s : Str) (r : Str × Str), r ∈ matchAtoms up (brandAtoms b) s →
      startsIgnoringCase up b s = true := by
  induction b with
  | nil =>
    intro s r _
    cases s <;> rfl
  | cons c b ih =>
    intro s r h
    have hc : isWhiteSpace c = false := hb c (by simp)
    cases s with
    | nil => simp [brandAtoms, hc, matchAtoms] at h
    | cons x s =>
      simp only [brandAtoms, List.map_cons, hc, Bool.false_eq_true, if_false, matchAtoms] at h
      by_cases hm : charMatches up c x = true
      · simp only [hm, if_true, List.mem_map] at h
        obtain ⟨q, hq, -⟩ := h
        have h1 := ih (fun y hy => hb y (by simp [hy])) s q hq
        simp only [charMatches] at hm
        simp [startsIgnoringCase, hm, h1]
      · simp [hm] at h

theorem starts_of_contains_false (up : Char → Str) (b : Str) (u v : Str)
    (h : containsIgnoringCase up b (u ++ v) = false) : startsIgnoringCase up b v = false := by
  induction u with
  | nil =>
    cases v with
    | nil => simpa [containsIgnoringCase] using h
    | cons x v =>
      simp only [List.nil_append, containsIgnoringCase, Bool.or_eq_false_iff] at h
      exact h.1
  | cons y u ih =>
    simp only [List.cons_append, containsIgnoringCase, Bool.or_eq_false_iff] at h
    exact ih h.2

theorem matchBody_none_of_absent (up : Char → Str) (b : Str)
    (hb : ∀ c ∈ b, isWhiteSpace c = false) (t : Str)
    (hno : containsIgnoringCase up b t = false) (u v : Str) (ht : t = u ++ v) :
    matchBody up (brandAtoms b) v = none := by
  cases hm : matchBody up (brandAtoms b) v with
  | none => rfl
  | some r =>
    exfalso
    obtain ⟨hmem, -, -⟩ := matchBody_some_mem up _ v r hm
    have h1 := matchAtoms_lits_starts up b hb v _ hmem
    rw [starts_of_contains_false up b u v (ht ▸ hno)] at h1
    exact Bool.false_ne_true h1

theorem rewriteFrom_of_no_match (up : Char → Str) (as : List Atom) (has : as ≠ [])
    (repl : Str) (s : Str) :
    (∀ u v, s = u ++ v → matchBody up as v = none) →
      ∀ prev : Option Char, rewriteFrom up as repl prev s = s := by
  induction s with
  | nil => intro _ prev; exact rewriteFrom_nil up as has repl prev
  | cons c t ih =>
    intro h prev
    have hex : execAt up as prev (c :: t) = none := by
      rw [execAt_eq_none_iff]
      exact ⟨fun _ => h [] (c :: t) rfl, fun _ => h [c] t rfl⟩
    rw [rewriteFrom_none up as repl prev c t hex,
      ih (fun u v huv => h (c :: u) v (by simp [huv])) (some c)]

theorem rewriteText_of_absent (up : Char → Str) (b : Str)
    (hb : ∀ c ∈ b, isWhiteSpace c = false) (t : Str)
    (hno : containsIgnoringCase up b t = false) (repl : Str) :
    rewriteText up (some b) repl t = t := by
  by_cases hne : b = []
  · subst hne
    exact rewriteText_blank up _ repl t (by decide)
  · have hbl := isBlank_of_no_ws b hne hb
    rw [rewriteText_eq up _ hbl, normalizeSpaces_of_no_ws b hb, replaceBrand_eq]
    exact rewriteFrom_of_no_match up _ (brandAtoms_ne_nil b hne) repl t
      (matchBody_none_of_absent up b hb t hno) none

/-- C18. For every brand `b` made of one word (it contains no white space) and every text
`t` that does not contain `b` as a substring when letter case is ignored, rewriting `t`
with the matcher built from `b` returns `t`, whatever the replacement is: so does the
rewrite of a property by `replaceBrandEverywhere`, and so does `forceBrandCanonicalEverywhere`
on the string. -/
theorem no_false_positive (up : Char → Str) (b : Str)
    (hb : ∀ c ∈ b, isWhiteSpace c = false) (t : Str)
    (hno : containsIgnoringCase up b t = false) (repl : Str) :
    rewriteText up (some b) repl t = t ∧
      (∀ key, replaceBrandEverywhere up (Doc.obj [(key, Doc.str t)]) (some b) repl =
        .ok (Doc.obj [(key, Doc.str t)])) ∧
      forceBrandCanonicalEverywhere up (Doc.str t) (some b) = .ok (Doc.str t) := by
  have h := rewriteText_of_absent up b hb t hno
  refine ⟨h repl, ?_, ?_⟩
  · intro key
    rw [replaceBrandEverywhere_obj_eq]
    simp [h repl]
  · by_cases hne : b = []
    · subst hne
      rfl
    · have hbl := isBlank_of_no_ws b hne hb
      rw [force_eq up _ b hbl, walk_string_value, replaceInValue_eq up _ b hbl]
      simp [h b]

set_option maxRecDepth 100000 in
/-- Witness of C18: the brand `Nike` and a text about another brand. -/
theorem no_false_positive_witness :
    rewriteText sampleUpper (some "Nike".toList) "NIKE".toList "Adidas sneakers, size 9".toList =
        "Adidas sneakers, size 9".toList ∧
      (∀ key, replaceBrandEverywhere sampleUpper
          (Doc.obj [(key, Doc.str "Adidas sneakers, size 9".toList)]) (some "Nike".toList)
          "NIKE".toList = .ok (Doc.obj [(key, Doc.str "Adidas sneakers, size 9".toList)])) ∧
      forceBrandCanonicalEverywhere sampleUpper (Doc.str "Adidas sneakers, size 9".toList)
        (some "Nike".toList) = .ok (Doc.str "Adidas sneakers, size 9".toList) :=
  no_false_positive sampleUpper "Nike".toList (by decide) "Adidas sneakers, size 9".toList
    (by decide) "NIKE".toList

/-! ## Equality under the `i` flag -/

theorem charMatches_space (up : Char → Str) (d : Char) (h : charMatches up ' ' d = true) :
    d = ' ' := by
  simp only [charMatches, beq_iff_eq] at h
  rw [canonicalize_ascii up ' ' (by decide)] at h
  by_cases hd : d.toNat < 128
  · rw [canonicalize_ascii up d hd] at h
    have e : (asciiUpper d).toNat = 32 := by rw [← h]; decide
    rw [asciiUpper_toNat] at e
    by_cases hl : isAsciiLower d = true
    · simp only [hl, if_true] at e
      simp only [isAsciiLower, Bool.and_eq_true, decide_eq_true_eq] at hl
      omega
    · have hl2 : isAsciiLower d = false := by simpa using hl
      rw [asciiUpper_of_not_lower d hl2] at h
      exact h.symm
  · have := canonicalize_nonascii up d (by omega)
    rw [← h] at this
    have e : (asciiUpper ' ').toNat = 32 := by decide
    omega

theorem flagEqual_refl (up : Char → Str) (s : Str) : flagEqual up s s = true := by
  induction s with
  | nil => rfl
  | cons c s ih => simp [flagEqual, charMatches_self, ih]

theorem spacedVariant_of_flagEqual (up : Char → Str) (b : Str) :
    ∀ t, spacesOk b = true → flagEqual up b t = true → spacedVariant up b t = true := by
  induction b with
  | nil =>
    intro t _ h
    cases t with
    | nil => rfl
    | cons d t => simp [flagEqual] at h
  | cons c b ih =>
    intro t hs h
    cases t with
    | nil => simp [flagEqual] at h
    | cons x t =>
      simp only [flagEqual, Bool.and_eq_true, beq_iff_eq] at h
      obtain ⟨⟨hcx, hws⟩, hbt⟩ := h
      simp only [spacesOk, Bool.and_eq_true] at hs
      have ih2 := ih t hs.2 hbt
      by_cases hc : isWhiteSpace c = true
      · have h1 := hs.1
        simp only [hc, if_true, Bool.and_eq_true, beq_iff_eq] at h1
        cases b with
        | nil => simp at h1
        | cons d b =>
          cases t with
          | nil => simp [flagEqual] at hbt
          | cons y t =>
            simp only [flagEqual, Bool.and_eq_true, beq_iff_eq] at hbt
            have hd : isWhiteSpace d = false := by simpa using h1.2
            have hy : isWhiteSpace y = false := by rw [← hbt.1.2]; exact hd
            simp only [spacedVariant, hc, if_true, ← hws, Bool.true_and]
            simpa [List.dropWhile, hy] using ih2
      · have hc2 : isWhiteSpace c = false := by simpa using hc
        simp [spacedVariant, hc2, hcx, ih2]

/-! ## Brands of several words -/

theorem spaceRuns_head (x : Char) (s : Str) (hx : isWhiteSpace x = true) :
    (spaceRuns (x :: s)).head? =
      some (x :: s.takeWhile isWhiteSpace, s.dropWhile isWhiteSpace) := by
  induction s generalizing x with
  | nil => simp [spaceRuns, hx]
  | cons y s ih =>
    by_cases hy : isWhiteSpace y = true
    · have h := ih y hy
      rw [spaceRuns, if_pos hx]
      cases hr : spaceRuns (y :: s) with
      | nil => rw [hr] at h; simp at h
      | cons r rs =>
        rw [hr] at h
        simp only [List.head?_cons, Option.some.injEq] at h
        simp [h, List.takeWhile, List.dropWhile, hy]
    · have hy2 : isWhiteSpace y = false := by simpa using hy
      rw [spaceRuns, if_pos hx, spaceRuns_of_not_ws y s hy2]
      simp [List.takeWhile, List.dropWhile, hy2]

theorem matchAtoms_spaced_head (up : Char → Str) (b : Str) :
    ∀ t : Str, spacedVariant up b t = true →
      (matchAtoms up (brandAtoms b) t).head? = some (t, []) := by
  induction b with
  | nil =>
    intro t ht
    cases t with
    | nil => rfl
    | cons x t => simp [spacedVariant] at ht
  | cons c b ih =>
    intro t ht
    cases t with
    | nil => simp [spacedVariant] at ht
    | cons x t =>
      by_cases hc : isWhiteSpace c = true
      · simp only [spacedVariant, hc, if_true, Bool.and_eq_true] at ht
        have h1 := ih _ ht.2
        have h2 := spaceRuns_head x t ht.1
        simp only [brandAtoms, List.map_cons, hc, if_true, matchAtoms]
        cases hr : spaceRuns (x :: t) with
        | nil => rw [hr] at h2; simp at h2
        | cons r rs =>
          rw [hr] at h2
          simp only [List.head?_cons, Option.some.injEq] at h2
          subst h2
          simp only [List.flatMap_cons]
          cases hm : matchAtoms up (List.map (fun c => if isWhiteSpace c = true then Atom.spaces
              else Atom.lit c) b) (List.dropWhile isWhiteSpace t) with
          | nil =>
            simp only [brandAtoms] at h1
            rw [hm] at h1
            simp at h1
          | cons q qs =>
            simp only [brandAtoms] at h1
            rw [hm] at h1
            simp only [List.head?_cons, Option.some.injEq] at h1
            subst h1
            simp [List.takeWhile_append_dropWhile]
      · have hc2 : isWhiteSpace c = false := by simpa using hc
        simp only [spacedVariant, hc2, Bool.false_eq_true, if_false, Bool.and_eq_true] at ht
        have h1 := ih _ ht.2
        simp only [brandAtoms, List.map_cons, hc2, Bool.false_eq_true, if_false, matchAtoms,
          ht.1, if_true]
        simp only [brandAtoms] at h1
        simp [List.head?_map, h1]

theorem matchBody_spaced (up : Char → Str) (b t : Str) (ht : spacedVariant up b t = true) :
    matchBody up (brandAtoms b) t = some (t, [], []) := by
  have h := matchAtoms_spaced_head up b t ht
  cases hm : matchAtoms up (brandAtoms b) t with
  | nil => rw [hm] at h; simp at h
  | cons q qs =>
    rw [hm] at h
    simp only [List.head?_cons, Option.some.injEq] at h
    subst h
    simp [matchBody, hm, suffixAlts_nil, lookaheadOk]

theorem rewriteText_spaced (up : Char → Str) (raw : Option Str) (hraw : isBlank raw = false)
    (t : Str) (ht : spacedVariant up (normalizeSpaces raw) t = true) (repl : Str) :
    execAt up (brandAtoms (normalizeSpaces raw)) none t = some ⟨[], t, [], []⟩ ∧
      rewriteText up raw repl t = repl := by
  have hne := brandAtoms_ne_nil _ (normalizeSpaces_ne_nil raw hraw)
  have hm : execAt up (brandAtoms (normalizeSpaces raw)) none t = some ⟨[], t, [], []⟩ := by
    simp [execAt, atLineStart, matchBody_spaced up _ t ht]
  refine ⟨hm, ?_⟩
  rw [rewriteText_eq up raw hraw, replaceBrand_eq, rewriteFrom_some up _ hne repl none t _ hm]
  simp [rewriteFrom_nil up _ hne]

set_option maxRecDepth 100000 in
/-- C15, as stated, fails: the upper-case spelling of the brand `weiße rose` is
`WEISSE ROSE`, and the matcher built from the brand does not match it, because the `i` flag
compares one character with one character and the upper-case of `ß` is two characters. -/
theorem multiword_irregular_spacing_counterexample :
    "weiße rose".toList.flatMap (toUpperCase sampleUpper) = "WEISSE ROSE".toList ∧
      canonicalizeBrand sampleUpper (some "weiße rose".toList) = "Weiße Rose".toList ∧
      rewriteText sampleUpper (some "weiße rose".toList) "Weiße Rose".toList
        "WEISSE ROSE".toList = "WEISSE ROSE".toList := by
  decide

/-- C15, amended.  For every brand that is not blank, a text made of the words of the
normalized brand, each character in any case that the `i` flag identifies with the
character of the brand, the words separated by arbitrary non-empty runs of white-space
characters, is matched as a whole by the matcher built from the brand and rewritten to the
replacement alone, so to the canonical brand when the replacement is the canonical brand. -/
theorem multiword_irregular_spacing (up : Char → Str) (raw : Option Str)
    (hraw : isBlank raw = false) (t : Str)
    (ht : spacedVariant up (normalizeSpaces raw) t = true) (repl : Str) :
    execAt up (brandAtoms (normalizeSpaces raw)) none t = some ⟨[], t, [], []⟩ ∧
      rewriteText up raw repl t = repl ∧
      rewriteText up raw (canonicalizeBrand up raw) t = canonicalizeBrand up raw :=
  ⟨(rewriteText_spaced up raw hraw t ht repl).1, (rewriteText_spaced up raw hraw t ht repl).2,
    (rewriteText_spaced up raw hraw t ht _).2⟩

set_option maxRecDepth 100000 in
/-- Witness of the amended C15: the brand `Café Noir` and the text `CAFÉ \t  noir`. -/
theorem multiword_irregular_spacing_witness :
    execAt sampleUpper (brandAtoms (normalizeSpaces (some "Café Noir".toList))) none
        "CAFÉ \t  noir".toList = some ⟨[], "CAFÉ \t  noir".toList, [], []⟩ ∧
      rewriteText sampleUpper (some "Café Noir".toList) "Café Noir".toList
        "CAFÉ \t  noir".toList = "Café Noir".toList ∧
      rewriteText sampleUpper (some "Café Noir".toList)
          (canonicalizeBrand sampleUpper (some "Café Noir".toList)) "CAFÉ \t  noir".toList =
        canonicalizeBrand sampleUpper (some "Café Noir".toList) :=
  multiword_irregular_spacing sampleUpper (some "Café Noir".toList) (by decide)
    "CAFÉ \t  noir".toList (by decide) "Café Noir".toList

/-! ## Metacharacters -/

set_option maxRecDepth 100000 in
/-- C8, as stated, fails on a spelling in another letter case: the upper-case spelling of
the brand `straße` is `STRASSE`, and rewriting it with the matcher built from the brand
leaves it as it is. -/
theorem metacharacter_safety_counterexample :
    "straße".toList.flatMap (toUpperCase sampleUpper) = "STRASSE".toList ∧
      normalizeSpaces (some "straße".toList) = "straße".toList ∧
      rewriteText sampleUpper (some "straße".toList) "X".toList "STRASSE".toList =
        "STRASSE".toList := by
  decide

set_option maxRecDepth 100000 in
/-- C8, amended.  For every brand that is not empty or made of white space only, whatever
its characters, `buildBrandRegex` does not throw and returns a matcher, and this matcher
rewrites any text equal to the whitespace-normalized brand, case being ignored the way the
`i` flag ignores it (one character for one character), into exactly the replacement.  For
the brand `C++ Gear` the text `C++ Gear` is matched (it becomes the replacement `#`), while
`CCC Gear` and `C Gear` are not (they are unchanged). -/
theorem metacharacter_safety :
    (∀ (up : Char → Str) (raw : Option Str), isBlank raw = false →
      ∃ rx, buildBrandRegex raw = .ok (some rx) ∧
        ∀ text repl, flagEqual up (normalizeSpaces raw) text = true →
          replaceBrand up rx repl text = repl ∧ rewriteText up raw repl text = repl) ∧
    (∀ up : Char → Str,
      rewriteText up (some "C++ Gear".toList) ['#'] "C++ Gear".toList = ['#'] ∧
      rewriteText up (some "C++ Gear".toList) ['#'] "CCC Gear".toList = "CCC Gear".toList ∧
      rewriteText up (some "C++ Gear".toList) ['#'] "C Gear".toList = "C Gear".toList) := by
  constructor
  · intro up raw h
    have hne := normalizeSpaces_ne_nil raw h
    refine ⟨brandAtoms (normalizeSpaces raw), by simp [buildBrandRegex_eq, hne], ?_⟩
    intro text repl ht
    have hsp := spacedVariant_of_flagEqual up _ text (normalizeSpaces_normalized raw).1 ht
    have := (rewriteText_spaced up raw h text hsp repl).2
    exact ⟨by rw [rewriteText_eq up raw h] at this; exact this, this⟩
  · intro up
    have hb : isBlank (some "C++ Gear".toList) = false := by decide
    have hn : normalizeSpaces (some "C++ Gear".toList) = "C++ Gear".toList := by decide
    simp only [rewriteText_eq up _ hb, hn]
    exact ⟨replaceBrand_ascii_eval up _ _ _ _ (by decide) (by decide),
      replaceBrand_ascii_eval up _ _ _ _ (by decide) (by decide),
      replaceBrand_ascii_eval up _ _ _ _ (by decide) (by decide)⟩

set_option maxRecDepth 100000 in
/-- Witness of the amended C8 on a brand made of pattern metacharacters only, and on the
brand `café (x)` spelled `CAFÉ (X)`. -/
theorem metacharacter_safety_witness :
    (∃ rx, buildBrandRegex (some "(.*)+?$".toList) = .ok (some rx) ∧
      replaceBrand sampleUpper rx "X".toList "(.*)+?$".toList = "X".toList) ∧
    (∃ rx, buildBrandRegex (some "café (x)".toList) = .ok (some rx) ∧
      replaceBrand sampleUpper rx "X".toList "CAFÉ (X)".toList = "X".toList) :=
  ⟨(metacharacter_safety.1 sampleUpper (some "(.*)+?$".toList) (by decide)).elim
      (fun rx hrx => ⟨rx, hrx.1, (hrx.2 "(.*)+?$".toList "X".toList (by decide)).1⟩),
    (metacharacter_safety.1 sampleUpper (some "café (x)".toList) (by decide)).elim
      (fun rx hrx => ⟨rx, hrx.1, (hrx.2 "CAFÉ (X)".toList "X".toList (by decide)).1⟩)⟩

/-! ## Capitals outside `[A-Z]` -/

set_option maxRecDepth 100000 in
/-- C5.  The resolver looks for a capital letter with the test `/[A-Z]/`, so a capital
outside ASCII does not count: the brand `Éclat paris`, whose first letter is the capital of
`é`, is title-cased into `Éclat Paris` instead of being returned as it is.  A brand with a
character of `[A-Z]` is returned normalized and otherwise unchanged. -/
theorem canonicalizeBrand_trusts_capitals :
    (normalizeSpaces (some "Éclat paris".toList) = "Éclat paris".toList ∧
      toUpperCase sampleUpper 'é' = ['É'] ∧ toUpperCase sampleUpper 'É' = ['É'] ∧
      canonicalizeBrand sampleUpper (some "Éclat paris".toList) = "Éclat Paris".toList ∧
      canonicalizeBrand sampleUpper (some "Éclat paris".toList) ≠
        normalizeSpaces (some "Éclat paris".toList)) ∧
    (∀ (up : Char → Str) (raw : Option Str), (normalizeSpaces raw).any isAsciiUpper = true →
      canonicalizeBrand up raw = normalizeSpaces raw) :=
  ⟨by decide, canonicalizeBrand_of_ascii_capital⟩

/-! ## `canonicalizeBrand` applied twice -/

theorem asciiUpper_idem (c : Char) : asciiUpper (asciiUpper c) = asciiUpper c := by
  apply asciiUpper_of_not_lower
  have h := asciiUpper_toNat c
  by_cases hl : isAsciiLower c = true
  · simp only [hl, if_true] at h
    simp only [isAsciiLower, Bool.and_eq_true, decide_eq_true_eq] at hl
    simp only [isAsciiLower, Bool.and_eq_false_iff, decide_eq_false_iff_not]
    omega
  · have hl2 : isAsciiLower c = false := by simpa using hl
    rw [asciiUpper_of_not_lower c hl2]
    exact hl2

theorem toUpperCase_ok (up : Char → Str) (hup : UpperTableOk up) (c : Char)
    (hc : isWhiteSpace c = false) :
    ∃ d rest, toUpperCase up c = d :: rest ∧ toUpperCase up d = [d] ∧
      ∀ x ∈ d :: rest, isWhiteSpace x = false := by
  by_cases h1 : c.toNat < 128
  · refine ⟨asciiUpper c, [], by simp [toUpperCase, h1], ?_, ?_⟩
    · simp [toUpperCase, asciiUpper_lt c h1, asciiUpper_idem]
    · intro x hx
      simp only [List.mem_singleton] at hx
      subst hx
      rw [ws_of_upper_eq c (asciiUpper c) (asciiUpper_idem c).symm]
      exact hc
  · by_cases h2 : 65536 ≤ c.toNat
    · refine ⟨c, [], by simp [toUpperCase, h1, h2], by simp [toUpperCase, h1, h2], ?_⟩
      intro x hx
      simp only [List.mem_singleton] at hx
      subst hx
      exact hc
    · obtain ⟨d, rest, e1, e2, e3⟩ := hup c (by omega) (by omega) hc
      exact ⟨d, rest, by simp [toUpperCase, h1, h2, e1], e2, e3⟩

theorem splitSpace_ne_nil (s : Str) : splitSpace s ≠ [] := by
  induction s with
  | nil => simp [splitSpace]
  | cons c s ih =>
    by_cases hc : c = ' '
    · simp [splitSpace, hc]
    · cases hs : splitSpace s with
      | nil => exact absurd hs ih
      | cons w ws => simp [splitSpace, hc, hs]

theorem splitSpace_words (s : Str) (h : spacesOk s = true) :
    (∀ w ∈ splitSpace s, ∀ x ∈ w, isWhiteSpace x = false) ∧
      (∀ w ∈ (splitSpace s).tail, w ≠ []) ∧
      (s ≠ [] → (∀ c, s.head? = some c → isWhiteSpace c = false) →
        ∀ w ∈ splitSpace s, w ≠ []) := by
  induction s with
  | nil => simp [splitSpace]
  | cons c s ih =>
    simp only [spacesOk, Bool.and_eq_true] at h
    obtain ⟨ih1, ih2, ih3⟩ := ih h.2
    by_cases hc : c = ' '
    · subst hc
      have hsp : isWhiteSpace ' ' = true := by decide
      have h1 := h.1
      simp only [hsp, if_true, beq_self_eq_true, Bool.true_and] at h1
      cases s with
      | nil => simp at h1
      | cons d t =>
        simp only [Bool.not_eq_true'] at h1
        have hne := ih3 (by simp) (by
          intro x hx
          simp only [List.head?_cons, Option.some.injEq] at hx
          subst hx
          exact h1)
        simp only [splitSpace, if_true]
        refine ⟨?_, ?_, ?_⟩
        · intro w hw
          rcases List.mem_cons.mp hw with rfl | hw2
          · simp
          · exact ih1 w hw2
        · intro w hw
          exact hne w hw
        · intro _ hh
          have := hh ' ' rfl
          rw [hsp] at this
          exact absurd this (by decide)
    · have hcw : isWhiteSpace c = false := by
        by_cases hw : isWhiteSpace c = true
        · have h1 := h.1
          simp only [hw, if_true, Bool.and_eq_true, beq_iff_eq] at h1
          exact absurd h1.1 hc
        · simpa using hw
      cases hs : splitSpace s with
      | nil => exact absurd hs (splitSpace_ne_nil s)
      | cons w ws =>
        rw [hs] at ih1 ih2
        simp only [splitSpace, hc, if_false, hs]
        have hws : ∀ v ∈ ws, v ≠ [] := by
          intro v hv
          exact ih2 v (by simpa using hv)
        refine ⟨?_, ?_, ?_⟩
        · intro v hv
          rcases List.mem_cons.mp hv with rfl | hv2
          · intro x hx
            rcases List.mem_cons.mp hx with rfl | hx2
            · exact hcw
            · exact ih1 w (by simp) x hx2
          · exact ih1 v (by simp [hv2])
        · intro v hv
          exact hws v (by simpa using hv)
        · intro _ _ v hv
          rcases List.mem_cons.mp hv with rfl | hv2
          · simp
          · exact hws v hv2

theorem splitSpace_word (v : Str) (hv : ∀ x ∈ v, x ≠ ' ') : splitSpace v = [v] := by
  induction v with
  | nil => rfl
  | cons c v ih =>
    have hc : c ≠ ' ' := hv c (by simp)
    simp [splitSpace, hc, ih (fun x hx => hv x (by simp [hx]))]

theorem splitSpace_append (v s : Str) (hv : ∀ x ∈ v, x ≠ ' ') :
    splitSpace (v ++ ' ' :: s) = v :: splitSpace s := by
  induction v with
  | nil => simp [splitSpace]
  | cons c v ih =>
    have hc : c ≠ ' ' := hv c (by simp)
    simp [splitSpace, hc, ih (fun x hx => hv x (by simp [hx]))]

theorem joinSpace_cons_cons (v v2 : Str) (vs : List Str) :
    joinSpace (v :: v2 :: vs) = v ++ ' ' :: joinSpace (v2 :: vs) := by
  simp [joinSpace, List.intercalate, List.intersperse]

theorem joinSpace_single (v : Str) : joinSpace [v] = v := by
  simp [joinSpace, List.intercalate, List.intersperse]

theorem splitSpace_joinSpace (vs : List Str) (hne : vs ≠ [])
    (hv : ∀ v ∈ vs, ∀ x ∈ v, x ≠ ' ') : splitSpace (joinSpace vs) = vs := by
  induction vs with
  | nil => exact absurd rfl hne
  | cons v vs ih =>
    cases vs with
    | nil => rw [joinSpace_single, splitSpace_word v (hv v (by simp))]
    | cons v2 vs =>
      rw [joinSpace_cons_cons, splitSpace_append v _ (hv v (by simp)),
        ih (by simp) (fun w hw => hv w (by simp [hw]))]

theorem spacesOk_append (v s : Str) (hv : ∀ x ∈ v, isWhiteSpace x = false)
    (hs : spacesOk s = true) : spacesOk (v ++ s) = true := by
  induction v with
  | nil => simpa using hs
  | cons c v ih =>
    simp [spacesOk, hv c (by simp), ih (fun x hx => hv x (by simp [hx]))]

theorem joinSpace_normalized (vs : List Str) (hne : vs ≠ [])
    (hv : ∀ v ∈ vs, v ≠ [] ∧ ∀ x ∈ v, isWhiteSpace x = false) :
    Normalized (joinSpace vs) ∧ joinSpace vs ≠ [] := by
  induction vs with
  | nil => exact absurd rfl hne
  | cons v vs ih =>
    obtain ⟨hvn, hvw⟩ := hv v (by simp)
    have hhead : ∀ (t : Str) (c : Char), (v ++ t).head? = some c → isWhiteSpace c = false := by
      intro t c hc
      cases v with
      | nil => exact absurd rfl hvn
      | cons y v =>
        simp only [List.cons_append, List.head?_cons, Option.some.injEq] at hc
        subst hc
        exact hvw y (by simp)
    cases vs with
    | nil =>
      rw [joinSpace_single]
      refine ⟨⟨?_, ?_⟩, hvn⟩
      · simpa using spacesOk_append v [] hvw rfl
      · intro c hc
        exact hhead [] c (by simpa using hc)
    | cons v2 vs =>
      obtain ⟨⟨ih1, ih2⟩, ih3⟩ := ih (by simp) (fun w hw => hv w (by simp [hw]))
      rw [joinSpace_cons_cons]
      refine ⟨⟨?_, hhead _⟩, by simp⟩
      apply spacesOk_append v _ hvw
      cases hj : joinSpace (v2 :: vs) with
      | nil => exact absurd hj ih3
      | cons d t =>
        rw [hj] at ih1 ih2
        have hd := ih2 d rfl
        have hsp : isWhiteSpace ' ' = true := by decide
        rw [spacesOk]
        simp [hsp, hd, ih1]

theorem capitalizeWord_ok (up : Char → Str) (hup : UpperTableOk up) (w : Str) (hne : w ≠ [])
    (hw : ∀ x ∈ w, isWhiteSpace x = false) :
    capitalizeWord up w ≠ [] ∧ (∀ x ∈ capitalizeWord up w, isWhiteSpace x = false) ∧
      capitalizeWord up (capitalizeWord up w) = capitalizeWord up w := by
  cases w with
  | nil => exact absurd rfl hne
  | cons c w =>
    obtain ⟨d, rest, e1, e2, e3⟩ := toUpperCase_ok up hup c (hw c (by simp))
    simp only [capitalizeWord, e1, List.cons_append]
    refine ⟨by simp, ?_, ?_⟩
    · intro x hx
      rcases List.mem_cons.mp hx with rfl | hx2
      · exact e3 x (by simp)
      · rcases List.mem_append.mp hx2 with h | h
        · exact e3 x (by simp [h])
        · exact hw x (by simp [h])
    · simp [e2]

theorem titleCase_ok (up : Char → Str) (hup : UpperTableOk up) (s : Str) (hs : Normalized s)
    (hne : s ≠ []) :
    Normalized (joinSpace ((splitSpace s).map (capitalizeWord up))) ∧
      joinSpace ((splitSpace (joinSpace ((splitSpace s).map (capitalizeWord up)))).map
        (capitalizeWord up)) = joinSpace ((splitSpace s).map (capitalizeWord up)) := by
  obtain ⟨w1, -, w3⟩ := splitSpace_words s hs.1
  have w4 := w3 hne hs.2
  have hcap : ∀ v ∈ (splitSpace s).map (capitalizeWord up),
      v ≠ [] ∧ (∀ x ∈ v, isWhiteSpace x = false) ∧ capitalizeWord up v = v := by
    intro v hv
    obtain ⟨w, hw, rfl⟩ := List.mem_map.mp hv
    exact capitalizeWord_ok up hup w (w4 w hw) (w1 w hw)
  have hne2 : (splitSpace s).map (capitalizeWord up) ≠ [] := by
    simp [splitSpace_ne_nil s]
  refine ⟨(joinSpace_normalized _ hne2 (fun v hv => ⟨(hcap v hv).1, (hcap v hv).2.1⟩)).1, ?_⟩
  rw [splitSpace_joinSpace _ hne2 (fun v hv x hx e => by
    have := (hcap v hv).2.1 x hx
    rw [e] at this
    exact absurd this (by decide))]
  congr 1
  conv_rhs => rw [← List.map_id ((splitSpace s).map (capitalizeWord up))]
  apply List.map_congr_left
  intro v hv
  exact (hcap v hv).2.2

theorem canonicalizeBrand_of_normalized (up : Char → Str) (s : Str) (hs : Normalized s) :
    canonicalizeBrand up (some s) =
      if s = [] then []
      else if s.any isAsciiUpper = true then s
      else if s.any isAsciiLower = true then
        joinSpace ((splitSpace s).map (capitalizeWord up))
      else s := by
  have hn := normalizeSpaces_of_normalized s hs
  unfold canonicalizeBrand toTitleCaseFromAllLower
  simp only [hn]
  by_cases h0 : s = []
  · simp [h0]
  · by_cases hu : s.any isAsciiUpper = true
    · simp [h0, hu]
    · have hu2 : s.any isAsciiUpper = false := by simpa using hu
      by_cases hl : s.any isAsciiLower = true
      · simp only [h0, if_false, hu2, hl, Bool.false_eq_true, Bool.not_false, Bool.and_self,
          if_true]
      · have hl2 : s.any isAsciiLower = false := by simpa using hl
        simp only [h0, if_false, hu2, hl2, Bool.false_eq_true, Bool.not_false, Bool.and_true]

theorem canonicalizeBrand_normalized (up : Char → Str) (hup : UpperTableOk up)
    (raw : Option Str) : Normalized (canonicalizeBrand up raw) := by
  have hn := normalizeSpaces_normalized raw
  have e := canonicalizeBrand_of_normalized up (normalizeSpaces raw) hn
  have e0 : canonicalizeBrand up (some (normalizeSpaces raw)) = canonicalizeBrand up raw := by
    unfold canonicalizeBrand
    simp only [normalizeSpaces_idem]
  rw [e0] at e
  rw [e]
  by_cases h0 : normalizeSpaces raw = []
  · simp only [h0, if_true]
    exact ⟨rfl, by simp⟩
  · simp only [h0, if_false]
    split
    · exact hn
    · split
      · exact (titleCase_ok up hup _ hn h0).1
      · exact hn

/-- C17. When the upper-case table of the host maps a character that is not white space to
a non-empty string without white space whose first character is its own upper-case, then
for every raw brand `canonicalizeBrand(canonicalizeBrand(x)) = canonicalizeBrand(x)`, and
`normalizeSpaces` of the canonical brand is the canonical brand. -/
theorem canonicalizeBrand_idempotent (up : Char → Str) (hup : UpperTableOk up)
    (raw : Option Str) :
    canonicalizeBrand up (some (canonicalizeBrand up raw)) = canonicalizeBrand up raw ∧
      normalizeSpaces (some (canonicalizeBrand up raw)) = canonicalizeBrand up raw := by
  have hcn := canonicalizeBrand_normalized up hup raw
  refine ⟨?_, normalizeSpaces_of_normalized _ hcn⟩
  rw [canonicalizeBrand_of_normalized up _ hcn]
  have hn := normalizeSpaces_normalized raw
  have e := canonicalizeBrand_of_normalized up (normalizeSpaces raw) hn
  have e0 : canonicalizeBrand up (some (normalizeSpaces raw)) = canonicalizeBrand up raw := by
    unfold canonicalizeBrand
    simp only [normalizeSpaces_idem]
  rw [e0] at e
  by_cases h0 : canonicalizeBrand up raw = []
  · simp [h0]
  · simp only [h0, if_false]
    split
    · rfl
    · next hu =>
      split
      · next hl =>
        by_cases hr0 : normalizeSpaces raw = []
        · rw [e] at h0
          simp [hr0] at h0
        · simp only [hr0, if_false] at e
          by_cases hru : (normalizeSpaces raw).any isAsciiUpper = true
          · simp only [hru, if_true] at e
            rw [e] at hu
            exact absurd hru hu
          · by_cases hrl : (normalizeSpaces raw).any isAsciiLower = true
            · simp only [hru, if_false, hrl, if_true] at e
              rw [e]
              exact (titleCase_ok up hup _ hn hr0).2
            · simp only [hru, if_false, hrl] at e
              rw [e] at hl
              exact absurd hl hrl
      · rfl

theorem sampleUpper_fixed (d : Char)
    (h : d.toNat ≠ 0xDF ∧ d.toNat ≠ 0xB5 ∧ d.toNat ≠ 0xFF ∧
      ¬ (0xE0 ≤ d.toNat ∧ d.toNat ≤ 0xFE ∧ d.toNat ≠ 0xF7) ∧
      ¬ (0x430 ≤ d.toNat ∧ d.toNat ≤ 0x44F) ∧ ¬ (0x450 ≤ d.toNat ∧ d.toNat ≤ 0x45F)) :
    sampleUpper d = [d] := by
  obtain ⟨h1, h2, h3, h4, h5, h6⟩ := h
  simp only [sampleUpper, h1, h2, h3, h4, h5, h6, if_false]

theorem sampleUpper_shift (n k : Nat)
    (hlo : 128 ≤ n - k)
    (h : n - k ≠ 0xDF ∧ n - k ≠ 0xB5 ∧ n - k ≠ 0xFF ∧
      ¬ (0xE0 ≤ n - k ∧ n - k ≤ 0xFE ∧ n - k ≠ 0xF7) ∧
      ¬ (0x430 ≤ n - k ∧ n - k ≤ 0x44F) ∧ ¬ (0x450 ≤ n - k ∧ n - k ≤ 0x45F))
    (hw : n - k ∉ whiteSpaceCodes) (hsmall : n - k < 0xD800) :
    toUpperCase sampleUpper (Char.ofNat (n - k)) = [Char.ofNat (n - k)] ∧
      ∀ x ∈ [Char.ofNat (n - k)], isWhiteSpace x = false := by
  have ht := toNat_ofNat_small (n - k) hsmall
  refine ⟨?_, ?_⟩
  · have h1 : ¬ (Char.ofNat (n - k)).toNat < 128 := by rw [ht]; omega
    have h2 : ¬ 65536 ≤ (Char.ofNat (n - k)).toNat := by rw [ht]; omega
    simp only [toUpperCase, h1, h2, if_false]
    exact sampleUpper_fixed _ (by rw [ht]; exact h)
  · intro x hx
    simp only [List.mem_singleton] at hx
    subst hx
    rw [Bool.eq_false_iff]
    intro hws
    rw [isWhiteSpace_iff, ht] at hws
    exact hw hws

theorem sampleUpper_ok : UpperTableOk sampleUpper := by
  intro c h128 h64k hws
  by_cases h1 : c.toNat = 0xDF
  · exact ⟨'S', ['S'], by simp [sampleUpper, h1], by decide, by decide⟩
  by_cases h2 : c.toNat = 0xB5
  · exact ⟨Char.ofNat 0x39C, [], by simp [sampleUpper, h2], by decide, by decide⟩
  by_cases h3 : c.toNat = 0xFF
  · exact ⟨Char.ofNat 0x178, [], by simp [sampleUpper, h3], by decide, by decide⟩
  by_cases h4 : 0xE0 ≤ c.toNat ∧ c.toNat ≤ 0xFE ∧ c.toNat ≠ 0xF7
  · obtain ⟨e1, e2⟩ := sampleUpper_shift c.toNat 0x20 (by omega) (by omega)
      (by simp only [whiteSpaceCodes, List.mem_cons, List.mem_singleton, List.not_mem_nil,
        or_false]; omega) (by omega)
    exact ⟨_, [], by simp only [sampleUpper, h1, h2, h3, h4, if_false, and_self, if_true,
      ne_eq, not_false_eq_true], e1, e2⟩
  by_cases h5 : 0x430 ≤ c.toNat ∧ c.toNat ≤ 0x44F
  · obtain ⟨e1, e2⟩ := sampleUpper_shift c.toNat 0x20 (by omega) (by omega)
      (by simp only [whiteSpaceCodes, List.mem_cons, List.mem_singleton, List.not_mem_nil,
        or_false]; omega) (by omega)
    exact ⟨_, [], by simp only [sampleUpper, h1, h2, h3, h4, h5, if_false, and_self, if_true],
      e1, e2⟩
  by_cases h6 : 0x450 ≤ c.toNat ∧ c.toNat ≤ 0x45F
  · obtain ⟨e1, e2⟩ := sampleUpper_shift c.toNat 0x50 (by omega) (by omega)
      (by simp only [whiteSpaceCodes, List.mem_cons, List.mem_singleton, List.not_mem_nil,
        or_false]; omega) (by omega)
    exact ⟨_, [], by simp only [sampleUpper, h1, h2, h3, h4, h5, h6, if_false, and_self,
      if_true], e1, e2⟩
  · have hf := sampleUpper_fixed c ⟨h1, h2, h3, h4, h5, h6⟩
    refine ⟨c, [], hf, ?_, ?_⟩
    · have a1 : ¬ c.toNat < 128 := by omega
      have a2 : ¬ 65536 ≤ c.toNat := by omega
      simp only [toUpperCase, a1, a2, if_false, hf]
    · intro x hx
      simp only [List.mem_singleton] at hx
      subst hx
      exact hws

/-- Witness of C17 on the brand `  ßeta  max `, whose canonical form is `SSeta Max`. -/
theorem canonicalizeBrand_idempotent_witness :
    (canonicalizeBrand sampleUpper (some (canonicalizeBrand sampleUpper
        (some "  ßeta  max ".toList))) = canonicalizeBrand sampleUpper (some "  ßeta  max ".toList) ∧
      normalizeSpaces (some (canonicalizeBrand sampleUpper (some "  ßeta  max ".toList))) =
        canonicalizeBrand sampleUpper (some "  ßeta  max ".toList)) ∧
    canonicalizeBrand sampleUpper (some "  ßeta  max ".toList) = "SSeta Max".toList :=
  ⟨canonicalizeBrand_idempotent sampleUpper sampleUpper_ok (some "  ßeta  max ".toList),
    by decide⟩

/-! ## The canonical brand and the normalized brand -/

theorem joinSpace_cons_char (x : Char) (w : Str) (rest : List Str) :
    joinSpace ((x :: w) :: rest) = x :: joinSpace (w :: rest) := by
  cases rest with
  | nil => simp [joinSpace_single]
  | cons v vs => simp [joinSpace_cons_cons]

theorem joinSpace_nil_cons (rest : List Str) (h : rest ≠ []) :
    joinSpace ([] :: rest) = ' ' :: joinSpace rest := by
  cases rest with
  | nil => exact absurd rfl h
  | cons v vs => simp [joinSpace_cons_cons]

theorem upperIsCanonical_elim (up : Char → Str) (c : Char) (h : upperIsCanonical up c = true) :
    ∃ d, toUpperCase up c = [d] ∧ charMatches up c d = true ∧
      isWhiteSpace c = isWhiteSpace d := by
  unfold upperIsCanonical at h
  split at h
  · next d hd =>
    simp only [flagEqual, Bool.and_true, Bool.and_eq_true, beq_iff_eq] at h
    exact ⟨d, hd, h.1, h.2⟩
  · exact absurd h (by decide)

theorem titleCase_eq_raise (up : Char → Str) (s : Str) :
    ∀ start : Bool, initialsCanonical up start s = true →
      joinSpace (match splitSpace s with
        | w :: ws => (if start then capitalizeWord up w else w) :: ws.map (capitalizeWord up)
        | [] => []) = raiseInitials up start s := by
  induction s with
  | nil =>
    intro start _
    cases start <;> simp [splitSpace, capitalizeWord, joinSpace_single, raiseInitials]
  | cons c s ih =>
    intro start h
    simp only [initialsCanonical, Bool.and_eq_true] at h
    by_cases hc : c = ' '
    · subst hc
      have ih2 := ih true (by simpa using h.2)
      cases hs : splitSpace s with
      | nil => exact absurd hs (splitSpace_ne_nil s)
      | cons w ws =>
        rw [hs] at ih2
        simp only [if_true] at ih2
        have e : (if start = true then capitalizeWord up [] else ([] : Str)) = [] := by
          cases start <;> rfl
        have e2 : (if start = true then upperOf up ' ' else ' ') = ' ' := by
          cases start <;> rfl
        simp only [splitSpace, if_true, hs, List.map_cons, e, raiseInitials, e2, beq_self_eq_true]
        rw [joinSpace_nil_cons _ (by simp), ih2]
    · have hb : (c == ' ') = false := by simpa using hc
      have ih2 := ih false (by simpa [hb] using h.2)
      cases hs : splitSpace s with
      | nil => exact absurd hs (splitSpace_ne_nil s)
      | cons w ws =>
        rw [hs] at ih2
        simp only [Bool.false_eq_true, if_false] at ih2
        simp only [splitSpace, hc, if_false, hs, raiseInitials, hb]
        have e : (if start = true then capitalizeWord up (c :: w) else c :: w) =
            (if start = true then upperOf up c else c) :: w := by
          cases start with
          | false => rfl
          | true =>
            have hu : upperIsCanonical up c = true := by simpa using h.1
            obtain ⟨d, hd, -, -⟩ := upperIsCanonical_elim up c hu
            simp [capitalizeWord, upperOf, hd]
        rw [e, joinSpace_cons_char, ih2]

theorem initialsRaised_refl (up : Char → Str) (s : Str) :
    ∀ start, initialsRaised up start s s = true := by
  induction s with
  | nil => intro _; rfl
  | cons c s ih => intro start; simp [initialsRaised, ih]

theorem initialsRaised_raise (up : Char → Str) (s : Str) :
    ∀ start, initialsRaised up start s (raiseInitials up start s) = true := by
  induction s with
  | nil => intro _; rfl
  | cons c s ih =>
    intro start
    cases start with
    | false => simp [initialsRaised, raiseInitials, ih]
    | true =>
      simp only [initialsRaised, raiseInitials, if_true, ih, Bool.and_true, Bool.true_and,
        upperOf]
      split
      · next d hd => simp [hd]
      · simp

theorem flagEqual_raise (up : Char → Str) (s : Str) :
    ∀ start, initialsCanonical up start s = true →
      flagEqual up s (raiseInitials up start s) = true := by
  induction s with
  | nil => intro _ _; rfl
  | cons c s ih =>
    intro start h
    simp only [initialsCanonical, Bool.and_eq_true] at h
    have ih2 := ih (c == ' ') h.2
    cases start with
    | false => simp [flagEqual, raiseInitials, charMatches_self, ih2]
    | true =>
      have hu : upperIsCanonical up c = true := by simpa using h.1
      obtain ⟨d, hd, h1, h2⟩ := upperIsCanonical_elim up c hu
      simp [flagEqual, raiseInitials, upperOf, hd, h1, h2, ih2]

theorem spacesOk_flag (up : Char → Str) (s : Str) :
    ∀ t, spacesOk s = true → flagEqual up s t = true → spacesOk t = true := by
  induction s with
  | nil =>
    intro t _ h
    cases t with
    | nil => rfl
    | cons d t => simp [flagEqual] at h
  | cons c s ih =>
    intro t hs h
    cases t with
    | nil => simp [flagEqual] at h
    | cons d t =>
      simp only [flagEqual, Bool.and_eq_true, beq_iff_eq] at h
      obtain ⟨⟨hcd, hws⟩, hst⟩ := h
      simp only [spacesOk, Bool.and_eq_true] at hs
      have ih2 := ih t hs.2 hst
      by_cases hc : isWhiteSpace c = true
      · have h1 := hs.1
        simp only [hc, if_true, Bool.and_eq_true, beq_iff_eq] at h1
        obtain ⟨hsp, h2⟩ := h1
        subst hsp
        have hd := charMatches_space up d hcd
        subst hd
        cases s with
        | nil => simp at h2
        | cons x s =>
          cases t with
          | nil => simp [flagEqual] at hst
          | cons y t =>
            simp only [flagEqual, Bool.and_eq_true, beq_iff_eq] at hst
            have hx : isWhiteSpace x = false := by simpa using h2
            have hy : isWhiteSpace y = false := by rw [← hst.1.2]; exact hx
            rw [spacesOk]
            simp [hc, hy, ih2]
      · have hc2 : isWhiteSpace c = false := by simpa using hc
        have hd2 : isWhiteSpace d = false := by rw [← hws]; exact hc2
        cases t with
        | nil => simp [spacesOk, hd2]
        | cons y t =>
          rw [spacesOk]
          simp [hd2, ih2]

theorem normalized_flag (up : Char → Str) (s t : Str) (h : flagEqual up s t = true)
    (hs : Normalized s) : Normalized t := by
  refine ⟨spacesOk_flag up s t hs.1 h, ?_⟩
  intro d hd
  cases t with
  | nil => simp at hd
  | cons y t =>
    simp only [List.head?_cons, Option.some.injEq] at hd
    subst hd
    cases s with
    | nil => simp [flagEqual] at h
    | cons x s =>
      simp only [flagEqual, Bool.and_eq_true, beq_iff_eq] at h
      rw [← h.1.2]
      exact hs.2 x rfl

theorem flagEqual_nil_iff (up : Char → Str) (s t : Str) (h : flagEqual up s t = true) :
    s = [] ↔ t = [] := by
  cases s <;> cases t <;> simp [flagEqual] at h ⊢

theorem brandAtoms_flag (up : Char → Str) (s : Str) :
    ∀ t, flagEqual up s t = true →
      ∀ x, matchAtoms up (brandAtoms s) x = matchAtoms up (brandAtoms t) x := by
  induction s with
  | nil =>
    intro t h x
    cases t with
    | nil => rfl
    | cons d t => simp [flagEqual] at h
  | cons c s ih =>
    intro t h x
    cases t with
    | nil => simp [flagEqual] at h
    | cons d t =>
      simp only [flagEqual, Bool.and_eq_true, beq_iff_eq] at h
      obtain ⟨⟨hcd, hws⟩, hst⟩ := h
      have ih2 := ih t hst
      simp only [charMatches, beq_iff_eq] at hcd
      by_cases hc : isWhiteSpace c = true
      · simp only [brandAtoms, List.map_cons, ← hws, hc, if_true, matchAtoms]
        simp only [brandAtoms] at ih2
        simp only [ih2]
      · have hc2 : isWhiteSpace c = false := by simpa using hc
        simp only [brandAtoms, List.map_cons, ← hws, hc2, Bool.false_eq_true, if_false]
        simp only [brandAtoms] at ih2
        cases x with
        | nil => simp [matchAtoms]
        | cons y x =>
          simp only [matchAtoms, charMatches, hcd, ih2]

theorem replaceLoop_congr (up : Char → Str) (as bs : List Atom)
    (h : ∀ x, matchAtoms up as x = matchAtoms up bs x) (repl : Str) (n : Nat) :
    ∀ (prev : Option Char) (s : Str),
      replaceLoop up as repl n prev s = replaceLoop up bs repl n prev s := by
  have hb : ∀ x, matchBody up as x = matchBody up bs x := by
    intro x
    simp only [matchBody, h]
  have he : ∀ prev x, execAt up as prev x = execAt up bs prev x := by
    intro prev x
    simp only [execAt, hb]
  induction n with
  | zero => intro prev s; rfl
  | succ n ih =>
    intro prev s
    simp only [replaceLoop, he, ih]

theorem rewriteText_congr (up : Char → Str) (b1 b2 : Option Str)
    (h : normalizeSpaces b1 = normalizeSpaces b2) (repl text : Str) :
    rewriteText up b1 repl text = rewriteText up b2 repl text := by
  simp only [rewriteText, buildBrandRegex_eq, h]

theorem rewriteText_flag (up : Char → Str) (s t : Str) (hs : Normalized s)
    (h : flagEqual up s t = true) (repl text : Str) :
    rewriteText up (some t) repl text = rewriteText up (some s) repl text := by
  have ht := normalized_flag up s t h hs
  simp only [rewriteText, buildBrandRegex_eq, normalizeSpaces_of_normalized s hs,
    normalizeSpaces_of_normalized t ht]
  by_cases h0 : s = []
  · have h1 := (flagEqual_nil_iff up s t h).mp h0
    simp [h0, h1]
  · have h1 : t ≠ [] := fun e => h0 ((flagEqual_nil_iff up s t h).mpr e)
    simp only [h0, h1, if_false]
    unfold replaceBrand
    exact (replaceLoop_congr up _ _ (brandAtoms_flag up s t h) repl _ none text).symm

theorem canonicalizeBrand_eq (up : Char → Str) (raw : Option Str) :
    canonicalizeBrand up raw =
      if normalizeSpaces raw = [] then []
      else if (normalizeSpaces raw).any isAsciiUpper = true then normalizeSpaces raw
      else if (normalizeSpaces raw).any isAsciiLower = true then
        joinSpace ((splitSpace (normalizeSpaces raw)).map (capitalizeWord up))
      else normalizeSpaces raw := by
  rw [← canonicalizeBrand_of_normalized up _ (normalizeSpaces_normalized raw)]
  unfold canonicalizeBrand
  simp only [normalizeSpaces_idem]

theorem canonicalizeBrand_raise (up : Char → Str) (raw : Option Str)
    (h : resolverRegular up (normalizeSpaces raw) = true) :
    canonicalizeBrand up raw = normalizeSpaces raw ∨
      (canonicalizeBrand up raw = raiseInitials up true (normalizeSpaces raw) ∧
        initialsCanonical up true (normalizeSpaces raw) = true) := by
  rw [canonicalizeBrand_eq]
  by_cases h0 : normalizeSpaces raw = []
  · simp [h0]
  · simp only [h0, if_false]
    by_cases hu : (normalizeSpaces raw).any isAsciiUpper = true
    · simp [hu]
    · by_cases hl : (normalizeSpaces raw).any isAsciiLower = true
      · have hi : initialsCanonical up true (normalizeSpaces raw) = true := by
          simp only [resolverRegular, Bool.or_eq_true, Bool.not_eq_true'] at h
          rcases h with (h | h) | h
          · exact absurd h hu
          · rw [hl] at h; exact absurd h (by decide)
          · exact h
        right
        refine ⟨?_, hi⟩
        simp only [hu, if_false, hl, if_true]
        have := titleCase_eq_raise up (normalizeSpaces raw) true hi
        cases hs : splitSpace (normalizeSpaces raw) with
        | nil => exact absurd hs (splitSpace_ne_nil _)
        | cons w ws =>
          rw [hs] at this
          simpa using this
      · simp [hu, hl]

theorem regular_flagEqual (up : Char → Str) (raw : Option Str)
    (h : resolverRegular up (normalizeSpaces raw) = true) :
    flagEqual up (normalizeSpaces raw) (canonicalizeBrand up raw) = true := by
  rcases canonicalizeBrand_raise up raw h with e | ⟨e, hi⟩
  · rw [e]; exact flagEqual_refl up _
  · rw [e]; exact flagEqual_raise up _ true hi

theorem regular_rewriteText (up : Char → Str) (raw : Option Str)
    (h : resolverRegular up (normalizeSpaces raw) = true) (repl text : Str) :
    rewriteText up (some (canonicalizeBrand up raw)) repl text =
      rewriteText up raw repl text := by
  rw [rewriteText_flag up _ _ (normalizeSpaces_normalized raw) (regular_flagEqual up raw h)
    repl text]
  exact rewriteText_congr up _ _ (normalizeSpaces_idem raw) repl text

set_option maxRecDepth 100000 in
/-- C16, as stated, fails on the brand `ßeta`: the upper-case of `ß` is `SS`, so the
canonical brand `SSeta` is longer than the normalized brand, and the matcher built from the
raw brand rewrites the text `ßeta` while the matcher built from the canonical brand leaves
it as it is. -/
theorem resolver_changes_initials_counterexample :
    normalizeSpaces (some "ßeta".toList) = "ßeta".toList ∧
      canonicalizeBrand sampleUpper (some "ßeta".toList) = "SSeta".toList ∧
      (canonicalizeBrand sampleUpper (some "ßeta".toList)).length ≠
        (normalizeSpaces (some "ßeta".toList)).length ∧
      rewriteText sampleUpper (some "ßeta".toList) "X".toList "ßeta".toList = "X".toList ∧
      rewriteText sampleUpper (some (canonicalizeBrand sampleUpper (some "ßeta".toList)))
        "X".toList "ßeta".toList = "ßeta".toList := by
  decide

/-- C16, amended.  Whenever the resolver returns the normalized brand as it is (the brand has
a character of `[A-Z]`, or none of `[a-z]`), or every word-initial character of the
normalized brand has a one-character upper-case that the `i` flag identifies with it: the
canonical brand is the normalized brand with some word-initial characters replaced by their
upper-case and nothing else changed; the two are equal when case is ignored the way the
`i` flag ignores it; and the matcher built from the canonical brand rewrites every text as
the matcher built from the raw brand does, whatever the replacement. -/
theorem resolver_changes_initials (up : Char → Str) (raw : Option Str)
    (h : resolverRegular up (normalizeSpaces raw) = true) :
    initialsRaised up true (normalizeSpaces raw) (canonicalizeBrand up raw) = true ∧
      flagEqual up (normalizeSpaces raw) (canonicalizeBrand up raw) = true ∧
      ∀ repl text, rewriteText up (some (canonicalizeBrand up raw)) repl text =
        rewriteText up raw repl text := by
  refine ⟨?_, regular_flagEqual up raw h, regular_rewriteText up raw h⟩
  rcases canonicalizeBrand_raise up raw h with e | ⟨e, -⟩
  · rw [e]; exact initialsRaised_refl up _ true
  · rw [e]; exact initialsRaised_raise up _ true

set_option maxRecDepth 100000 in
/-- Witness of the amended C16 on the brand ` émile  zola `, whose canonical form is
`Émile Zola`. -/
theorem resolver_changes_initials_witness :
    (initialsRaised sampleUpper true (normalizeSpaces (some " émile  zola ".toList))
        (canonicalizeBrand sampleUpper (some " émile  zola ".toList)) = true ∧
      flagEqual sampleUpper (normalizeSpaces (some " émile  zola ".toList))
        (canonicalizeBrand sampleUpper (some " émile  zola ".toList)) = true ∧
      ∀ repl text,
        rewriteText sampleUpper (some (canonicalizeBrand sampleUpper
          (some " émile  zola ".toList))) repl text =
        rewriteText sampleUpper (some " émile  zola ".toList) repl text) ∧
    canonicalizeBrand sampleUpper (some " émile  zola ".toList) = "Émile Zola".toList :=
  ⟨resolver_changes_initials sampleUpper (some " émile  zola ".toList) (by decide), by decide⟩

/-! ## Exact matches of the core -/

theorem charMatches_symm (up : Char → Str) (c x : Char) :
    charMatches up c x = charMatches up x c := by
  simp only [charMatches]
  exact Bool.beq_comm

theorem charMatches_trans (up : Char → Str) (a b c : Char) (h1 : charMatches up a b = true)
    (h2 : charMatches up b c = true) : charMatches up a c = true := by
  simp only [charMatches, beq_iff_eq] at h1 h2 ⊢
  rw [h1, h2]

theorem alnum_eq_of_charMatches (up : Char → Str) (c x : Char)
    (h : charMatches up c x = true) : isAsciiAlnum c = isAsciiAlnum x := by
  cases hc : isAsciiAlnum c with
  | true => exact (charMatches_alnum up c x hc h).symm
  | false =>
    cases hx : isAsciiAlnum x with
    | false => rfl
    | true =>
      have := charMatches_alnum up x c hx (by rw [charMatches_symm]; exact h)
      rw [hc] at this
      exact this

theorem ws_of_lineTerminator (c : Char) (h : isLineTerminator c = true) :
    isWhiteSpace c = true := by
  rw [isWhiteSpace_iff]
  simp only [isLineTerminator, Bool.or_eq_true, beq_iff_eq] at h
  simp only [whiteSpaceCodes, List.mem_cons, List.mem_singleton, List.not_mem_nil, or_false]
  omega

theorem matchAtoms_iff (up : Char → Str) (as : List Atom) :
    ∀ (s : Str) (r : Str × Str),
      r ∈ matchAtoms up as s ↔ (s = r.1 ++ r.2 ∧ Matches up as r.1) := by
  induction as with
  | nil =>
    intro s r
    simp only [matchAtoms, List.mem_singleton, Matches]
    constructor
    · rintro rfl
      exact ⟨rfl, rfl⟩
    · rintro ⟨h1, h2⟩
      rcases r with ⟨m, q⟩
      simp only at h1 h2
      subst h2
      simp [h1]
  | cons a as ih =>
    intro s r
    rcases r with ⟨m, q⟩
    cases a with
    | lit c =>
      cases s with
      | nil =>
        simp only [matchAtoms, List.not_mem_nil, Matches, false_iff]
        rintro ⟨h1, x, m2, h2, -, -⟩
        rw [h2] at h1
        simp at h1
      | cons x s =>
        simp only [matchAtoms, Matches]
        by_cases hm : charMatches up c x = true
        · simp only [hm, if_true, List.mem_map]
          constructor
          · rintro ⟨q0, hq0, he⟩
            obtain ⟨e1, e2⟩ := (ih s q0).mp hq0
            simp only [Prod.mk.injEq] at he
            obtain ⟨rfl, rfl⟩ := he
            exact ⟨by simp [e1], x, q0.1, rfl, hm, e2⟩
          · rintro ⟨h1, y, m2, h2, h3, h4⟩
            subst h2
            simp only [List.cons_append, List.cons.injEq] at h1
            obtain ⟨rfl, h1⟩ := h1
            exact ⟨(m2, q), (ih s (m2, q)).mpr ⟨h1, h4⟩, rfl⟩
        · simp only [hm, Bool.false_eq_true, if_false, List.not_mem_nil, false_iff]
          rintro ⟨h1, y, m2, h2, h3, -⟩
          subst h2
          simp only [List.cons_append, List.cons.injEq] at h1
          rw [← h1.1] at h3
          exact hm h3
    | spaces =>
      simp only [matchAtoms, Matches, List.mem_flatMap, List.mem_map]
      constructor
      · rintro ⟨run, hrun, q0, hq0, he⟩
        obtain ⟨e1, e2, e3⟩ := spaceRuns_mem s run hrun
        obtain ⟨f1, f2⟩ := (ih run.2 q0).mp hq0
        simp only [Prod.mk.injEq] at he
        obtain ⟨rfl, rfl⟩ := he
        exact ⟨by rw [← e1, f1, List.append_assoc], run.1, q0.1, rfl, e2, e3, f2⟩
      · rintro ⟨h1, run, m2, h2, h3, h4, h5⟩
        subst h2
        refine ⟨(run, m2 ++ q), ?_, (m2, q), (ih (m2 ++ q) (m2, q)).mpr ⟨rfl, h5⟩, rfl⟩
        rw [h1, List.append_assoc]
        exact spaceRuns_mem_of run (m2 ++ q) h3 h4

theorem suffixAlts_mem_nil (up : Char → Str) (s : Str) : ([], s) ∈ suffixAlts up s := by
  simp [suffixAlts]

theorem suffixAlts_mem_s (up : Char → Str) (x : Char) (r : Str)
    (h : charMatches up 's' x = true) : ([x], r) ∈ suffixAlts up (x :: r) := by
  simp only [suffixAlts, suffixPatterns, List.mem_append, List.mem_flatMap, List.mem_cons,
    List.mem_singleton, Option.mem_toList, Option.mem_def]
  left
  refine ⟨"s".toList, by simp, ?_⟩
  show matchLiteral up ['s'] (x :: r) = some ([x], r)
  simp [matchLiteral, h]

theorem matchBody_ne_none_iff (up : Char → Str) (as : List Atom) (s : Str) :
    matchBody up as s ≠ none ↔
      ∃ m sf r, s = m ++ (sf ++ r) ∧ Matches up as m ∧ (sf, r) ∈ suffixAlts up (sf ++ r) ∧
        lookaheadOk r = true := by
  constructor
  · intro h
    cases hm : matchBody up as s with
    | none => exact absurd hm h
    | some r =>
      obtain ⟨h1, h2, h3⟩ := matchBody_some_mem up as s r hm
      obtain ⟨e1, e2⟩ := (matchAtoms_iff up as s _).mp h1
      exact ⟨r.1, r.2.1, r.2.2, e1, e2, h2, h3⟩
  · rintro ⟨m, sf, r, h1, h2, h3, h4⟩
    exact matchBody_of_mem up as s m (sf ++ r) sf r
      ((matchAtoms_iff up as s (m, sf ++ r)).mpr ⟨h1, h2⟩) h3 h4

theorem Matches_append (up : Char → Str) (as bs : List Atom) :
    ∀ (u w : Str), Matches up as u → Matches up bs w → Matches up (as ++ bs) (u ++ w) := by
  induction as with
  | nil =>
    intro u w hu hw
    simp only [Matches] at hu
    subst hu
    simpa using hw
  | cons a as ih =>
    intro u w hu hw
    cases a with
    | lit c =>
      obtain ⟨x, m2, h1, h2, h3⟩ := hu
      subst h1
      exact ⟨x, m2 ++ w, rfl, h2, ih m2 w h3 hw⟩
    | spaces =>
      obtain ⟨run, m2, h1, h2, h3, h4⟩ := hu
      subst h1
      exact ⟨run, m2 ++ w, by simp, h2, h3, ih m2 w h4 hw⟩

theorem Matches_split (up : Char → Str) (as bs : List Atom) :
    ∀ (m : Str), Matches up (as ++ bs) m →
      ∃ u w, m = u ++ w ∧ Matches up as u ∧ Matches up bs w := by
  induction as with
  | nil =>
    intro m h
    exact ⟨[], m, rfl, rfl, by simpa using h⟩
  | cons a as ih =>
    intro m h
    cases a with
    | lit c =>
      obtain ⟨x, m2, h1, h2, h3⟩ := h
      obtain ⟨u, w, e1, e2, e3⟩ := ih m2 h3
      exact ⟨x :: u, w, by simp [h1, e1], ⟨x, u, rfl, h2, e2⟩, e3⟩
    | spaces =>
      obtain ⟨run, m2, h1, h2, h3, h4⟩ := h
      obtain ⟨u, w, e1, e2, e3⟩ := ih m2 h4
      exact ⟨run ++ u, w, by simp [h1, e1], ⟨run, u, rfl, h2, h3, e2⟩, e3⟩

/-- A text whose continuation does not start with white space is cut at a boundary between
two terms. -/
theorem Matches_cut (up : Char → Str) (as : List Atom) :
    ∀ (u w : Str), Matches up as (u ++ w) → (∀ c, w.head? = some c → isWhiteSpace c = false) →
      ∃ as1 as2, as = as1 ++ as2 ∧ Matches up as1 u ∧ Matches up as2 w := by
  induction as with
  | nil =>
    intro u w h _
    simp only [Matches] at h
    have := List.append_eq_nil.mp h
    exact ⟨[], [], rfl, this.1, this.2⟩
  | cons a as ih =>
    intro u w h hw
    cases u with
    | nil => exact ⟨[], a :: as, rfl, rfl, by simpa using h⟩
    | cons y u =>
      cases a with
      | lit c =>
        obtain ⟨x, m2, h1, h2, h3⟩ := h
        simp only [List.cons_append, List.cons.injEq] at h1
        obtain ⟨rfl, rfl⟩ := h1
        obtain ⟨as1, as2, e1, e2, e3⟩ := ih u w h3 hw
        exact ⟨Atom.lit c :: as1, as2, by simp [e1], ⟨y, u, rfl, h2, e2⟩, e3⟩
      | spaces =>
        obtain ⟨run, m2, h1, h2, h3, h4⟩ := h
        rw [List.append_eq_append_iff] at h1
        rcases h1 with ⟨a1, ha1, ha2⟩ | ⟨c1, hc1, hc2⟩
        · -- the run covers `y :: u`
          cases a1 with
          | nil =>
            simp only [List.append_nil] at ha1
            simp only [List.nil_append] at ha2
            rw [← ha2] at h4
            obtain ⟨as1, as2, e1, e2, e3⟩ := ih [] w (by simpa using h4) hw
            exact ⟨Atom.spaces :: as1, as2, by simp [e1],
              ⟨run, [], by simp [ha1], h2, h3, e2⟩, e3⟩
          | cons z a1 =>
            exfalso
            have hz : isWhiteSpace z = true := h3 z (by rw [ha1]; simp)
            rw [ha2] at hw
            have := hw z rfl
            rw [hz] at this
            exact Bool.noConfusion this
        · -- the run ends inside `y :: u`
          rw [hc2] at h4
          obtain ⟨as1, as2, e1, e2, e3⟩ := ih c1 w h4 hw
          exact ⟨Atom.spaces :: as1, as2, by simp [e1], ⟨run, c1, hc1, h2, h3, e2⟩, e3⟩
theorem atomEquiv_refl (up : Char → Str) (a : Atom) : atomEquiv up a a := by
  cases a <;> simp [atomEquiv]

theorem atomEquiv_symm (up : Char → Str) (a b : Atom) (h : atomEquiv up a b) :
    atomEquiv up b a := by
  cases a <;> cases b <;> simp_all [atomEquiv]

theorem atomEquiv_trans (up : Char → Str) (a b c : Atom) (h1 : atomEquiv up a b)
    (h2 : atomEquiv up b c) : atomEquiv up a c := by
  cases a <;> cases b <;> cases c <;> simp_all [atomEquiv]

theorem Matches_equiv (up : Char → Str) (as bs : List Atom)
    (h : List.Forall₂ (atomEquiv up) as bs) : ∀ m, Matches up bs m → Matches up as m := by
  induction h with
  | nil => intro m hm; exact hm
  | @cons a b as bs hab _ ih =>
    intro m hm
    cases a with
    | lit c =>
      cases b with
      | lit d =>
        obtain ⟨x, m2, h1, h2, h3⟩ := hm
        refine ⟨x, m2, h1, ?_, ih m2 h3⟩
        simp only [atomEquiv] at hab
        simp only [charMatches, beq_iff_eq] at h2 ⊢
        rw [hab, h2]
      | spaces => exact absurd hab (by simp [atomEquiv])
    | spaces =>
      cases b with
      | lit d => exact absurd hab (by simp [atomEquiv])
      | spaces =>
        obtain ⟨run, m2, h1, h2, h3, h4⟩ := hm
        exact ⟨run, m2, h1, h2, h3, ih m2 h4⟩

/-- When a list of terms is shifted by one place onto an equivalent list, its first and its
last terms are equivalent. -/
theorem atomEquiv_shift (up : Char → Str) :
    ∀ (l3 l2 : List Atom) (a0 al : Atom), a0 :: l2 = l3 ++ [al] →
      List.Forall₂ (atomEquiv up) l2 l3 → atomEquiv up a0 al := by
  intro l3
  induction l3 with
  | nil =>
    intro l2 a0 al h _
    simp only [List.nil_append, List.cons.injEq] at h
    rw [h.1]
    exact atomEquiv_refl up al
  | cons b l3 ih =>
    intro l2 a0 al h hf
    simp only [List.cons_append, List.cons.injEq] at h
    obtain ⟨rfl, h2⟩ := h
    cases hf with
    | cons hcb hrest =>
      rename_i c l2'
      have := ih l2' c al (by rw [← h2]) hrest
      exact atomEquiv_trans up _ _ _ (atomEquiv_symm up _ _ hcb) this

theorem brandAtoms_append (u w : Str) : brandAtoms (u ++ w) = brandAtoms u ++ brandAtoms w := by
  simp [brandAtoms]

theorem brandAtoms_length (s : Str) : (brandAtoms s).length = s.length := by
  simp [brandAtoms]

theorem brandAtoms_lit (s : Str) (c : Char) (h : Atom.lit c ∈ brandAtoms s) :
    isWhiteSpace c = false := by
  simp only [brandAtoms, List.mem_map] at h
  obtain ⟨d, _, hd⟩ := h
  by_cases hw : isWhiteSpace d = true
  · simp [hw] at hd
  · simp only [hw, Bool.false_eq_true, if_false, Atom.lit.injEq] at hd
    rw [← hd]
    simpa using hw

theorem Matches_self (up : Char → Str) (s : Str) : Matches up (brandAtoms s) s := by
  induction s with
  | nil => rfl
  | cons c s ih =>
    by_cases hw : isWhiteSpace c = true
    · simp only [brandAtoms, List.map_cons, hw, if_true]
      exact ⟨[c], s, rfl, by simp, by simpa using hw, ih⟩
    · simp only [brandAtoms, List.map_cons, hw, Bool.false_eq_true, if_false]
      exact ⟨c, s, rfl, charMatches_self up c, ih⟩

theorem not_alnum_of_ws (c : Char) (h : isWhiteSpace c = true) : isAsciiAlnum c = false := by
  cases ha : isAsciiAlnum c with
  | false => rfl
  | true =>
    rw [not_ws_of_alnum c ha] at h
    exact Bool.noConfusion h

/-- Two texts matched by the same non-empty terms start with characters of the same
class. -/
theorem lookahead_of_matches (up : Char → Str) (as : List Atom) (has : as ≠ []) (u w X Y : Str)
    (hu : Matches up as u) (hw : Matches up as w) :
    lookaheadOk (u ++ X) = lookaheadOk (w ++ Y) := by
  cases as with
  | nil => exact absurd rfl has
  | cons a as =>
    cases a with
    | lit c =>
      obtain ⟨x, u2, h1, h2, -⟩ := hu
      obtain ⟨y, w2, h3, h4, -⟩ := hw
      subst h1 h3
      simp only [List.cons_append, lookaheadOk]
      rw [← alnum_eq_of_charMatches up c x h2, ← alnum_eq_of_charMatches up c y h4]
    | spaces =>
      obtain ⟨r1, u2, h1, h2, h3, -⟩ := hu
      obtain ⟨r2, w2, h4, h5, h6, -⟩ := hw
      subst h1 h4
      cases r1 with
      | nil => exact absurd rfl h2
      | cons x r1 =>
        cases r2 with
        | nil => exact absurd rfl h5
        | cons y r2 =>
          simp [lookaheadOk, not_alnum_of_ws x (h3 x (by simp)),
            not_alnum_of_ws y (h6 y (by simp))]

/-- Terms that match a prefix of a normalized text match it one character for one term, so
they are equivalent to the terms of that prefix. -/
theorem Matches_prefix (up : Char → Str) (bs : List Atom) :
    ∀ (q y cs X : Str), Matches up bs q → q ++ y = cs ++ X → spacesOk cs = true →
      bs.length ≤ cs.length → (∀ c, Atom.lit c ∈ bs → isWhiteSpace c = false) →
      ∃ rem, cs = q ++ rem ∧ List.Forall₂ (atomEquiv up) bs (brandAtoms q) := by
  induction bs with
  | nil =>
    intro q y cs X hq _ _ _ _
    simp only [Matches] at hq
    subst hq
    exact ⟨cs, rfl, List.Forall₂.nil⟩
  | cons b bs ih =>
    intro q y cs X hq he hs hlen hlit
    cases cs with
    | nil => simp at hlen
    | cons d cs =>
      have hs2 : spacesOk cs = true := by
        simp only [spacesOk, Bool.and_eq_true] at hs
        exact hs.2
      have hlen2 : bs.length ≤ cs.length := by simpa using hlen
      have hlit2 : ∀ c, Atom.lit c ∈ bs → isWhiteSpace c = false :=
        fun c hc => hlit c (by simp [hc])
      cases b with
      | lit c =>
        obtain ⟨x, q2, h1, h2, h3⟩ := hq
        subst h1
        simp only [List.cons_append, List.cons.injEq] at he
        obtain ⟨rfl, he2⟩ := he
        obtain ⟨rem, e1, e2⟩ := ih q2 y cs X h3 he2 hs2 hlen2 hlit2
        have hcw : isWhiteSpace c = false := hlit c (by simp)
        have hxw : isWhiteSpace x = false := by
          cases hx : isWhiteSpace x with
          | false => rfl
          | true =>
            exfalso
            simp only [spacesOk, hx, if_true, Bool.and_eq_true, beq_iff_eq] at hs
            have hsp := hs.1.1
            subst hsp
            have := charMatches_space up c (by rw [charMatches_symm]; exact h2)
            subst this
            rw [hx] at hcw
            exact Bool.noConfusion hcw
        refine ⟨rem, by rw [e1]; rfl, ?_⟩
        simp only [brandAtoms, List.map_cons, hxw, Bool.false_eq_true, if_false]
        refine List.Forall₂.cons ?_ e2
        simp only [atomEquiv]
        simpa [charMatches] using h2
      | spaces =>
        obtain ⟨run, q2, h1, h2, h3, h4⟩ := hq
        subst h1
        cases run with
        | nil => exact absurd rfl h2
        | cons r0 run =>
          simp only [List.cons_append, List.cons.injEq] at he
          obtain ⟨rfl, he2⟩ := he
          have hr0 : isWhiteSpace r0 = true := h3 r0 (by simp)
          simp only [spacesOk, hr0, if_true, Bool.and_eq_true, beq_iff_eq] at hs
          have hrun : run = [] := by
            cases run with
            | nil => rfl
            | cons r1 run =>
              exfalso
              cases cs with
              | nil => simp at hs
              | cons e cs =>
                simp only [List.cons_append, List.cons.injEq] at he2
                have h5 := hs.1.2
                simp only [Bool.not_eq_true'] at h5
                rw [← he2.1, h3 r1 (by simp)] at h5
                exact Bool.noConfusion h5
          subst hrun
          simp only [List.nil_append] at he2
          obtain ⟨rem, e1, e2⟩ := ih q2 y cs X h4 he2 hs2 hlen2 hlit2
          refine ⟨rem, by rw [e1]; rfl, ?_⟩
          simp only [List.cons_append, List.nil_append, brandAtoms, List.map_cons, hr0, if_true]
          exact List.Forall₂.cons (by simp [atomEquiv]) e2

/-- The transfer of a suffix: `T' = p ++ rem ++ X` and `T = p ++ o2 ++ Y`, where `rem` and
`o2` are matched by the same terms.  If an alternative of the suffix passes the look-ahead
at `T'`, one passes at `T`, except when `p` is empty and the terms are a single literal
that matches `s`. -/
theorem suffix_transfer (up : Char → Str) (bs : List Atom) (hbs : bs ≠ [])
    (p rem o2 X Y : Str) (hrem : Matches up bs rem) (ho2 : Matches up bs o2)
    (sf r : Str) (he : p ++ (rem ++ X) = sf ++ r)
    (hsf : (sf, r) ∈ suffixAlts up (sf ++ r)) (hl : lookaheadOk r = true) :
    (∃ sf2 r2, p ++ (o2 ++ Y) = sf2 ++ r2 ∧ (sf2, r2) ∈ suffixAlts up (sf2 ++ r2) ∧
      lookaheadOk r2 = true) ∨
    (p = [] ∧ ∃ a, bs = [Atom.lit a] ∧ charMatches up 's' a = true) := by
  by_cases hT : lookaheadOk (p ++ (o2 ++ Y)) = true
  · exact Or.inl ⟨[], p ++ (o2 ++ Y), rfl, suffixAlts_mem_nil up _, hT⟩
  · have hT2 : lookaheadOk (p ++ (o2 ++ Y)) = false := by simpa using hT
    -- the head of both texts is alphanumeric
    have hT' : lookaheadOk (p ++ (rem ++ X)) = false := by
      cases p with
      | nil =>
        simp only [List.nil_append] at hT2 ⊢
        rw [lookahead_of_matches up bs hbs rem o2 X Y hrem ho2]
        exact hT2
      | cons c p => simpa [lookaheadOk] using hT2
    rcases suffixAlts_shape up _ _ hsf with h0 | ⟨x, h1, hx⟩ | ⟨a, x, h1, ha, hx⟩
    · simp only at h0
      subst h0
      simp only [List.nil_append] at he
      rw [he, hl] at hT'
      exact Bool.noConfusion hT'
    · simp only at h1
      subst h1
      cases p with
      | cons c p =>
        simp only [List.cons_append, List.singleton_append, List.cons.injEq] at he
        obtain ⟨rfl, he2⟩ := he
        simp only [List.nil_append] at he2
        left
        refine ⟨[c], p ++ (o2 ++ Y), rfl, suffixAlts_mem_s up c _ hx, ?_⟩
        cases p with
        | nil =>
          simp only [List.nil_append] at he2 ⊢
          rw [← lookahead_of_matches up bs hbs rem o2 X Y hrem ho2, he2]
          exact hl
        | cons d p =>
          rw [← he2] at hl
          simpa [lookaheadOk] using hl
      | nil =>
        simp only [List.nil_append, List.singleton_append] at he
        cases bs with
        | nil => exact absurd rfl hbs
        | cons b bs =>
          cases b with
          | spaces =>
            exfalso
            obtain ⟨run, u2, h4, h5, h6, -⟩ := hrem
            subst h4
            cases run with
            | nil => exact absurd rfl h5
            | cons y run =>
              simp only [List.cons_append, List.cons.injEq] at he
              have hy := h6 y (by simp)
              rw [he.1] at hy
              have := charMatches_alnum up 's' x (by decide) hx
              rw [not_alnum_of_ws x hy] at this
              exact Bool.noConfusion this
          | lit c =>
            obtain ⟨y, rem2, h4, h5, h6⟩ := hrem
            obtain ⟨w, o22, h7, h8, h9⟩ := ho2
            subst h4 h7
            simp only [List.cons_append, List.cons.injEq] at he
            obtain ⟨rfl, he2⟩ := he
            have hcs : charMatches up 's' c = true :=
              charMatches_trans up 's' y c hx (by rw [charMatches_symm]; exact h5)
            by_cases hb : bs = []
            · right
              subst hb
              exact ⟨rfl, c, rfl, hcs⟩
            · left
              refine ⟨[w], o22 ++ Y, rfl,
                suffixAlts_mem_s up w _ (charMatches_trans up 's' c w hcs h8), ?_⟩
              rw [← lookahead_of_matches up bs hb rem2 o22 X Y h6 h9, he2]
              exact hl
    · simp only at h1
      subst h1
      exfalso
      have hna := apostrophe_not_alnum up a ha
      cases p with
      | cons c p =>
        simp only [List.cons_append, List.cons.injEq] at he
        rw [← he.1] at hna
        simp [lookaheadOk, hna] at hT'
      | nil =>
        simp only [List.nil_append] at he hT'
        rw [he] at hT'
        simp [lookaheadOk, hna] at hT'
theorem single_lit_alnum (up : Char → Str) (a : Char) (z : Str)
    (hs : charMatches up 's' a = true) (hz : Matches up [Atom.lit a] z) :
    ∃ x, z = [x] ∧ isAsciiAlnum x = true := by
  obtain ⟨x, m2, h1, h2, h3⟩ := hz
  simp only [Matches] at h3
  subst h3
  exact ⟨x, h1, charMatches_alnum up 's' x (by decide) (charMatches_trans up 's' a x hs h2)⟩

/-- The body of the expression at a text `z ++ cb ++ X`, where the canonical brand stands
in place of a match `occ ++ sf`: if it matches there, it matches at the original text
`z ++ occ ++ sf ++ rest`. -/
theorem body_transfer (up : Char → Str) (cb : Str) (hcb : Normalized cb) (hne : cb ≠ [])
    (z occ sf rest X : Str) (hocc : Matches up (brandAtoms cb) occ)
    (hsf : (sf, rest) ∈ suffixAlts up (sf ++ rest)) (hl : lookaheadOk rest = true)
    (hz : ∀ c, z.getLast? = some c → isAsciiAlnum c = false)
    (h : matchBody up (brandAtoms cb) (z ++ (cb ++ X)) ≠ none) :
    matchBody up (brandAtoms cb) (z ++ (occ ++ (sf ++ rest))) ≠ none := by
  rw [matchBody_ne_none_iff] at h ⊢
  by_cases hz0 : z = []
  · subst hz0
    exact ⟨occ, sf, rest, rfl, hocc, hsf, hl⟩
  obtain ⟨m', sf', r', he, hm', hsf', hl'⟩ := h
  have has : brandAtoms cb ≠ [] := brandAtoms_ne_nil cb hne
  -- the case where the match of the core ends inside `z`
  have key : ∀ c', z = m' ++ c' → sf' ++ r' = c' ++ (cb ++ X) →
      ∃ m sf2 r, z ++ (occ ++ (sf ++ rest)) = m ++ (sf2 ++ r) ∧ Matches up (brandAtoms cb) m ∧
        (sf2, r) ∈ suffixAlts up (sf2 ++ r) ∧ lookaheadOk r = true := by
    intro c' hc1 hc2
    rcases suffix_transfer up (brandAtoms cb) has c' cb occ X (sf ++ rest) (Matches_self up cb)
      hocc sf' r' hc2.symm hsf' hl' with ⟨sf2, r2, e1, e2, e3⟩ | ⟨hc0, a, ha, hs⟩
    · exact ⟨m', sf2, r2, by rw [hc1, List.append_assoc, e1], hm', e2, e3⟩
    · exfalso
      subst hc0
      simp only [List.append_nil] at hc1
      rw [ha, ← hc1] at hm'
      obtain ⟨x, hx1, hx2⟩ := single_lit_alnum up a z hs hm'
      have := hz x (by rw [hx1]; rfl)
      rw [hx2] at this
      exact Bool.noConfusion this
  rw [List.append_eq_append_iff] at he
  rcases he with ⟨a', ha1, ha2⟩ | ⟨c', hc1, hc2⟩
  · cases a' with
    | nil =>
      exact key [] (by simpa using ha1.symm) (by simpa using ha2.symm)
    | cons y0 a'' =>
      -- the match of the core covers `z` and a part of the canonical brand
      have hy0 : ∀ c, (y0 :: a'').head? = some c → isWhiteSpace c = false := by
        intro c hc
        simp only [List.head?_cons, Option.some.injEq] at hc
        subst hc
        apply hcb.2
        cases cb with
        | nil => exact absurd rfl hne
        | cons d cb =>
          simp only [List.cons_append, List.cons.injEq] at ha2
          rw [ha2.1]
          rfl
      rw [ha1] at hm'
      obtain ⟨as1, as2, hA, hA1, hA2⟩ := Matches_cut up _ z (y0 :: a'') hm' hy0
      have has1 : as1 ≠ [] := by
        intro h0
        subst h0
        simp only [Matches] at hA1
        exact hz0 hA1
      have hlenA : as1.length + as2.length = cb.length := by
        rw [← brandAtoms_length cb, hA, List.length_append]
      have hpos : 0 < as1.length := List.length_pos.mpr has1
      obtain ⟨rem, hcbeq, hF⟩ := Matches_prefix up as2 (y0 :: a'') (sf' ++ r') cb X hA2
        ha2.symm hcb.1 (by omega)
        (fun c hc => brandAtoms_lit cb c (by rw [hA]; exact List.mem_append_right _ hc))
      have hlen2 : as2.length = (y0 :: a'').length := by
        rw [hF.length_eq, brandAtoms_length]
      have hlen3 : cb.length = (y0 :: a'').length + rem.length := by
        rw [hcbeq, List.length_append]
      have hrem : rem ≠ [] := by
        intro h0
        rw [h0] at hlen3
        simp only [List.length_nil] at hlen3
        omega
      have hX : rem ++ X = sf' ++ r' := by
        rw [hcbeq, List.append_assoc] at ha2
        exact List.append_cancel_left ha2
      have hA' : brandAtoms cb = brandAtoms (y0 :: a'') ++ brandAtoms rem := by
        rw [hcbeq, brandAtoms_append]
      rw [hA'] at hocc
      obtain ⟨o1, o2, ho, ho1, ho2⟩ := Matches_split up _ _ occ hocc
      have ho1' : Matches up as2 o1 := Matches_equiv up as2 _ hF o1 ho1
      have hm2 : Matches up (brandAtoms cb) (z ++ o1) := by
        rw [hA]
        exact Matches_append up as1 as2 z o1 hA1 ho1'
      rcases suffix_transfer up (brandAtoms rem) (brandAtoms_ne_nil rem hrem) [] rem o2 X
        (sf ++ rest) (Matches_self up rem) ho2 sf' r' (by simpa using hX) hsf' hl'
        with ⟨sf2, r2, e1, e2, e3⟩ | ⟨-, a, ha, hs⟩
      · simp only [List.nil_append] at e1
        exact ⟨z ++ o1, sf2, r2, by rw [ho, List.append_assoc, List.append_assoc, e1], hm2,
          e2, e3⟩
      · exfalso
        have hr1 : rem.length = 1 := by
          rw [← brandAtoms_length rem, ha]
          rfl
        have h1 : as1.length = 1 := by omega
        cases as1 with
        | nil => exact absurd rfl has1
        | cons a0 as1' =>
          have h0 : as1' = [] := by
            apply List.length_eq_zero.mp
            simpa using h1
          subst h0
          have hshift : a0 :: as2 = brandAtoms (y0 :: a'') ++ [Atom.lit a] := by
            rw [← ha, ← hA', hA]
            rfl
          have heq := atomEquiv_shift up _ as2 a0 (Atom.lit a) hshift hF
          cases a0 with
          | spaces => exact absurd heq (by simp [atomEquiv])
          | lit c0 =>
            simp only [atomEquiv] at heq
            have hsc : charMatches up 's' c0 = true := by
              simp only [charMatches, beq_iff_eq] at hs ⊢
              rw [hs, heq]
            obtain ⟨x, hx1, hx2⟩ := single_lit_alnum up c0 z hsc hA1
            have := hz x (by rw [hx1]; rfl)
            rw [hx2] at this
            exact Bool.noConfusion this
  · exact key c' hc1 hc2
/-! ## The scan of a text and of its rewrite -/

theorem scanLoop_fuel (up : Char → Str) (as : List Atom) (has : as ≠ [])
    (n k : Nat) (prev : Option Char) (s : Str) (hn : s.length < n) (hk : s.length < k) :
    scanLoop up as n prev s = scanLoop up as k prev s := by
  induction n generalizing k prev s with
  | zero => omega
  | succ n ih =>
    cases k with
    | zero => omega
    | succ k =>
      simp only [scanLoop]
      cases hm : execAt up as prev s with
      | none =>
        cases s with
        | nil => rfl
        | cons c t =>
          simp only
          simp only [List.length_cons] at hn hk
          rw [ih k (some c) t (by omega) (by omega)]
      | some m =>
        obtain ⟨p, hp, hlen⟩ := execAt_consumed up as has prev s m hm
        simp only [hp]
        rw [ih k (some p) m.rest (by omega) (by omega)]

theorem scanFrom_nil (up : Char → Str) (as : List Atom) (has : as ≠ [])
    (prev : Option Char) : scanFrom up as prev [] = [] := by
  unfold scanFrom
  simp only [scanLoop, List.length_nil]
  cases hm : execAt up as prev [] with
  | none => rfl
  | some m =>
    obtain ⟨p, _, hlen⟩ := execAt_consumed up as has prev [] m hm
    simp at hlen

theorem scanFrom_none (up : Char → Str) (as : List Atom)
    (prev : Option Char) (c : Char) (t : Str) (h : execAt up as prev (c :: t) = none) :
    scanFrom up as prev (c :: t) = scanFrom up as (some c) t := by
  unfold scanFrom
  rw [scanLoop]
  simp only [h]
  rfl

theorem scanFrom_some (up : Char → Str) (as : List Atom) (has : as ≠ [])
    (prev : Option Char) (s : Str) (m : Match) (h : execAt up as prev s = some m) :
    scanFrom up as prev s =
      m :: scanFrom up as ((m.left ++ m.brand ++ m.suffix).getLast?) m.rest := by
  obtain ⟨p, hp, hlen⟩ := execAt_consumed up as has prev s m h
  unfold scanFrom
  have e : scanLoop up as (s.length + 1) prev s =
      m :: scanLoop up as s.length (some p) m.rest := by
    simp only [scanLoop, h, hp]
  rw [e]
  rw [scanLoop_fuel up as has s.length (m.rest.length + 1) (some p) m.rest hlen (by omega), hp]

/-- What a successful attempt consists of. -/
theorem execAt_some_full (up : Char → Str) (as : List Atom) (prev : Option Char) (s : Str)
    (m : Match) (h : execAt up as prev s = some m) :
    Matches up as m.brand ∧ (m.suffix, m.rest) ∈ suffixAlts up (m.suffix ++ m.rest) ∧
      lookaheadOk m.rest = true ∧
      ((m.left = [] ∧ atLineStart prev = true ∧ s = m.brand ++ (m.suffix ++ m.rest)) ∨
        (∃ c, m.left = [c] ∧ isAsciiAlnum c = false ∧
          s = c :: (m.brand ++ (m.suffix ++ m.rest)) ∧
          (atLineStart prev = true → matchBody up as s = none))) := by
  unfold execAt at h
  split at h
  · next r hr =>
    by_cases hb : atLineStart prev = true
    · simp only [hb, if_true] at hr
      obtain ⟨e1, e2, e3⟩ := matchBody_some_mem up _ s r hr
      obtain ⟨f1, f2⟩ := (matchAtoms_iff up as s _).mp e1
      simp only [Option.some.injEq] at h
      subst h
      exact ⟨f2, e2, e3, Or.inl ⟨rfl, hb, f1⟩⟩
    · simp [hb] at hr
  · next hnone =>
    cases s with
    | nil => simp at h
    | cons c t =>
      by_cases hc : isAsciiAlnum c = true
      · simp [hc] at h
      · simp only [hc, Bool.false_eq_true, if_false, Option.map_eq_some'] at h
        obtain ⟨r, hr, rfl⟩ := h
        obtain ⟨e1, e2, e3⟩ := matchBody_some_mem up _ t r hr
        obtain ⟨f1, f2⟩ := (matchAtoms_iff up as t _).mp e1
        refine ⟨f2, e2, e3, Or.inr ⟨c, rfl, by simpa using hc, by rw [f1], ?_⟩⟩
        intro hb
        simpa [hb] using hnone

theorem execAt_of_start (up : Char → Str) (as : List Atom) (prev : Option Char) (s : Str)
    (r : Str × Str × Str) (hb : atLineStart prev = true) (h : matchBody up as s = some r) :
    execAt up as prev s = some ⟨[], r.1, r.2.1, r.2.2⟩ := by
  simp [execAt, hb, h]

theorem execAt_of_char (up : Char → Str) (as : List Atom) (prev : Option Char) (c : Char)
    (t : Str) (r : Str × Str × Str)
    (h1 : atLineStart prev = true → matchBody up as (c :: t) = none)
    (hc : isAsciiAlnum c = false) (h : matchBody up as t = some r) :
    execAt up as prev (c :: t) = some ⟨[c], r.1, r.2.1, r.2.2⟩ := by
  have e : (if atLineStart prev = true then matchBody up as (c :: t) else none) = none := by
    by_cases hb : atLineStart prev = true
    · simp [hb, h1 hb]
    · simp [hb]
  unfold execAt
  rw [e]
  simp [hc, h]

/-- At the canonical brand followed by a boundary, the body of the expression matches the
brand and the first alternative of the suffix that passes the look-ahead. -/
theorem matchBody_at_canonical (up : Char → Str) (cb : Str) (hs : spacesOk cb = true)
    (X : Str) (hX : lookaheadOk X = true) :
    ∃ sf X', matchBody up (brandAtoms cb) (cb ++ X) = some (cb, sf, X') ∧ sf ++ X' = X := by
  have h1 := matchAtoms_self up cb hs cb rfl X
  have hmem : (cb, ([] : Str), X) ∈ (suffixAlts up X).map (fun r => (cb, r.1, r.2)) :=
    List.mem_map.mpr ⟨([], X), suffixAlts_mem_nil up X, rfl⟩
  cases hf : ((suffixAlts up X).map (fun r => (cb, r.1, r.2))).find?
      (fun r => lookaheadOk r.2.2) with
  | none =>
    exfalso
    have := List.find?_eq_none.mp hf _ hmem
    simp [hX] at this
  | some r0 =>
    have hin := List.mem_of_find?_eq_some hf
    obtain ⟨q, hq, rfl⟩ := List.mem_map.mp hin
    refine ⟨q.1, q.2, ?_, suffixAlts_mem up X q hq⟩
    simp only [matchBody, h1, List.flatMap_cons, List.flatMap_nil, List.append_nil]
    exact hf

theorem last_of_matches (up : Char → Str) (hup : SpaceStable up) (cb : Str)
    (hcb : Normalized cb) (hne : cb ≠ []) (occ : Str)
    (h : Matches up (brandAtoms cb) occ) :
    ∃ p, occ.getLast? = some p ∧ isLineTerminator p = false := by
  have hl := spacesOk_last cb hcb.1
  obtain ⟨cb', cl, rfl⟩ : ∃ cb' cl, cb = cb' ++ [cl] := by
    refine ⟨cb.dropLast, cb.getLast hne, ?_⟩
    exact (List.dropLast_append_getLast hne).symm
  have hcl : isWhiteSpace cl = false := hl cl (by simp)
  rw [brandAtoms_append] at h
  obtain ⟨u, w, e1, -, e3⟩ := Matches_split up _ _ occ h
  simp only [brandAtoms, List.map_cons, List.map_nil, hcl, Bool.false_eq_true, if_false] at e3
  obtain ⟨x, m2, f1, f2, f3⟩ := e3
  simp only [Matches] at f3
  subst f3
  subst f1
  refine ⟨x, by rw [e1]; simp, ?_⟩
  cases hx : isLineTerminator x with
  | false => rfl
  | true =>
    have := hup cl x (ws_of_lineTerminator x hx) f2
    rw [hcl] at this
    exact Bool.noConfusion this

theorem last_consumed (up : Char → Str) (hup : SpaceStable up) (cb : Str)
    (hcb : Normalized cb) (hne : cb ≠ []) (prev : Option Char) (s : Str) (m : Match)
    (h : execAt up (brandAtoms cb) prev s = some m) :
    ∃ p, (m.left ++ m.brand ++ m.suffix).getLast? = some p ∧ isLineTerminator p = false := by
  obtain ⟨h1, h2, -, -⟩ := execAt_some_full up _ prev s m h
  rcases suffixAlts_shape up _ _ h2 with hsf | ⟨x, hsf, hx⟩ | ⟨a, x, hsf, _, hx⟩
  · simp only at hsf
    obtain ⟨p, hp1, hp2⟩ := last_of_matches up hup cb hcb hne m.brand h1
    have hbne : m.brand ≠ [] := by
      intro h0; rw [h0] at hp1; simp at hp1
    refine ⟨p, ?_, hp2⟩
    rw [hsf, List.append_nil, List.getLast?_append_of_ne_nil _ hbne]
    exact hp1
  · simp only at hsf
    refine ⟨x, by rw [hsf, List.getLast?_append_of_ne_nil _ (by simp)]; rfl, ?_⟩
    exact not_lineTerminator_of_alnum x (charMatches_alnum up 's' x (by decide) hx)
  · simp only at hsf
    refine ⟨x, by rw [hsf, List.getLast?_append_of_ne_nil _ (by simp)]; rfl, ?_⟩
    exact not_lineTerminator_of_alnum x (charMatches_alnum up 's' x (by decide) hx)

theorem last_of_canonical (cb : Str) (hcb : Normalized cb) (hne : cb ≠ []) (l : Str) :
    ∃ q, (l ++ cb ++ []).getLast? = some q ∧ isLineTerminator q = false := by
  refine ⟨cb.getLast hne, ?_, ?_⟩
  · rw [List.append_nil, List.getLast?_append_of_ne_nil _ hne]
    exact List.getLast?_eq_getLast _ hne
  · have := spacesOk_last cb hcb.1 (cb.getLast hne) (List.getLast?_eq_getLast _ hne)
    cases hx : isLineTerminator (cb.getLast hne) with
    | false => rfl
    | true =>
      rw [ws_of_lineTerminator _ hx] at this
      exact Bool.noConfusion this

/-- Where the body does not match in a text, it does not match in the rewritten text: `k`
is a part already copied, `w` the part that the loop rewrites. -/
theorem body_none_rewrite (up : Char → Str) (cb : Str) (hcb : Normalized cb) (hne : cb ≠ [])
    (n : Nat) :
    ∀ (w : Str), w.length ≤ n → ∀ (prev : Option Char) (k : Str),
      (∀ c, k.getLast? = some c → prev = some c) →
      matchBody up (brandAtoms cb) (k ++ w) = none →
      matchBody up (brandAtoms cb) (k ++ rewriteFrom up (brandAtoms cb) cb prev w) = none := by
  have has := brandAtoms_ne_nil cb hne
  induction n with
  | zero =>
    intro w hw prev k _ h
    have : w = [] := List.length_eq_zero.mp (by omega)
    subst this
    rw [rewriteFrom_nil up _ has]
    exact h
  | succ n ih =>
    intro w hw prev k hk h
    cases hm : execAt up (brandAtoms cb) prev w with
    | none =>
      cases w with
      | nil =>
        rw [rewriteFrom_nil up _ has]
        exact h
      | cons c w1 =>
        rw [rewriteFrom_none up _ cb prev c w1 hm]
        have e : ∀ v : Str, k ++ c :: v = (k ++ [c]) ++ v := by intro v; simp
        rw [e]
        apply ih w1 (by simpa using hw) (some c) (k ++ [c]) (by simp)
        rw [← e]
        exact h
    | some m =>
      obtain ⟨h1, h2, h3, h4⟩ := execAt_some_full up _ prev w m hm
      rw [rewriteFrom_some up _ has cb prev w m hm]
      cases hb : matchBody up (brandAtoms cb)
          (k ++ (m.left ++ cb ++ rewriteFrom up (brandAtoms cb) cb
            ((m.left ++ m.brand ++ m.suffix).getLast?) m.rest)) with
      | none => rfl
      | some r =>
        exfalso
        have hz : ∀ c, (k ++ m.left).getLast? = some c → isAsciiAlnum c = false := by
          intro c hc
          rcases h4 with ⟨hl, hls, -⟩ | ⟨d, hl, hd, -, -⟩
          · rw [hl, List.append_nil] at hc
            have := hk c hc
            rw [this] at hls
            exact not_alnum_of_lineTerminator c hls
          · rw [hl, List.getLast?_append_of_ne_nil _ (by simp)] at hc
            simp only [List.getLast?_singleton, Option.some.injEq] at hc
            rw [← hc]
            exact hd
        have hw2 : w = m.left ++ (m.brand ++ (m.suffix ++ m.rest)) := by
          rcases h4 with ⟨hl, -, e⟩ | ⟨d, hl, -, e, -⟩
          · rw [hl, e]; rfl
          · rw [hl, e]; rfl
        have e : ∀ X : Str, k ++ (m.left ++ cb ++ X) = (k ++ m.left) ++ (cb ++ X) := by
          intro X; simp
        rw [e] at hb
        have := body_transfer up cb hcb hne (k ++ m.left) m.brand m.suffix m.rest _ h1 h2 h3 hz
          (by rw [hb]; exact Option.noConfusion)
        apply this
        rw [List.append_assoc, ← hw2]
        exact h

theorem exec_none_transfer (up : Char → Str) (cb : Str) (hcb : Normalized cb)
    (hne : cb ≠ []) (prev prev2 : Option Char) (hf : atLineStart prev = atLineStart prev2)
    (c : Char) (t : Str) (h : execAt up (brandAtoms cb) prev (c :: t) = none) :
    execAt up (brandAtoms cb) prev2
      (c :: rewriteFrom up (brandAtoms cb) cb (some c) t) = none := by
  rw [execAt_eq_none_iff] at h ⊢
  constructor
  · intro hb
    have := body_none_rewrite up cb hcb hne t.length t (Nat.le_refl _) (some c) [c]
      (by simp) (h.1 (by rw [hf]; exact hb))
    exact this
  · intro hc
    have := body_none_rewrite up cb hcb hne t.length t (Nat.le_refl _) (some c) []
      (by simp) (h.2 hc)
    exact this

theorem exec_hit_transfer (up : Char → Str) (cb : Str) (hcb : Normalized cb)
    (hne : cb ≠ []) (prev prev2 : Option Char) (hf : atLineStart prev = atLineStart prev2)
    (s : Str) (m : Match) (h : execAt up (brandAtoms cb) prev s = some m) (X : Str)
    (hX : lookaheadOk X = true) :
    ∃ sf X', execAt up (brandAtoms cb) prev2 (m.left ++ cb ++ X) = some ⟨m.left, cb, sf, X'⟩ ∧
      sf ++ X' = X := by
  obtain ⟨h1, h2, h3, h4⟩ := execAt_some_full up _ prev s m h
  obtain ⟨sf, X', hmb, hsx⟩ := matchBody_at_canonical up cb hcb.1 X hX
  refine ⟨sf, X', ?_, hsx⟩
  rcases h4 with ⟨hl, hls, -⟩ | ⟨d, hl, hd, e, hno⟩
  · rw [hl, List.nil_append]
    exact execAt_of_start up _ prev2 _ _ (by rw [← hf]; exact hls) hmb
  · rw [hl]
    apply execAt_of_char up _ prev2 d (cb ++ X) _ ?_ hd hmb
    intro hb
    cases hb2 : matchBody up (brandAtoms cb) (d :: (cb ++ X)) with
    | none => rfl
    | some r =>
      exfalso
      have := body_transfer up cb hcb hne [d] m.brand m.suffix m.rest X h1 h2 h3
        (by intro c hc; simp only [List.getLast?_singleton, Option.some.injEq] at hc
            rw [← hc]; exact hd)
        (by
          show matchBody up (brandAtoms cb) (d :: (cb ++ X)) ≠ none
          rw [hb2]
          exact Option.noConfusion)
      apply this
      show matchBody up (brandAtoms cb) (d :: (m.brand ++ (m.suffix ++ m.rest))) = none
      rw [← e]
      exact hno (by rw [hf]; exact hb)

/-- The rewrite of a rewritten text: as long as the scan of the rewritten text finds no
suffix, it finds the canonical brand where the first rewrite put it and nothing else, so the
second rewrite changes nothing. -/
theorem rewrite_stable_aux (up : Char → Str) (hup : SpaceStable up) (cb : Str)
    (hcb : Normalized cb) (hne : cb ≠ []) (n : Nat) :
    ∀ (t : Str), t.length ≤ n → ∀ (prev prev2 : Option Char),
      atLineStart prev = atLineStart prev2 →
      (scanFrom up (brandAtoms cb) prev2 (rewriteFrom up (brandAtoms cb) cb prev t)).all
        (fun m => m.suffix.isEmpty) = true →
      rewriteFrom up (brandAtoms cb) cb prev2 (rewriteFrom up (brandAtoms cb) cb prev t) =
          rewriteFrom up (brandAtoms cb) cb prev t ∧
        ∀ m ∈ scanFrom up (brandAtoms cb) prev2 (rewriteFrom up (brandAtoms cb) cb prev t),
          m.brand = cb := by
  have has := brandAtoms_ne_nil cb hne
  induction n with
  | zero =>
    intro t ht prev prev2 _ _
    have : t = [] := List.length_eq_zero.mp (by omega)
    subst this
    simp [rewriteFrom_nil up _ has, scanFrom_nil up _ has]
  | succ n ih =>
    intro t ht prev prev2 hf hall
    cases hm : execAt up (brandAtoms cb) prev t with
    | none =>
      cases t with
      | nil => simp [rewriteFrom_nil up _ has, scanFrom_nil up _ has]
      | cons c t1 =>
        have hk := exec_none_transfer up cb hcb hne prev prev2 hf c t1 hm
        rw [rewriteFrom_none up _ cb prev c t1 hm] at hall ⊢
        rw [scanFrom_none up _ prev2 c _ hk] at hall ⊢
        rw [rewriteFrom_none up _ cb prev2 c _ hk]
        obtain ⟨e1, e2⟩ := ih t1 (by simpa using ht) (some c) (some c) rfl hall
        exact ⟨by rw [e1], e2⟩
    | some m =>
      obtain ⟨h1, h2, h3, h4⟩ := execAt_some_full up _ prev t m hm
      obtain ⟨p, hp, hpl⟩ := last_consumed up hup cb hcb hne prev t m hm
      obtain ⟨_, _, hlen⟩ := execAt_consumed up _ has prev t m hm
      have hX : lookaheadOk (rewriteFrom up (brandAtoms cb) cb (some p) m.rest) = true := by
        rw [lookaheadOk_congr _ _ (rewriteFrom_head up _ has cb (some p) hpl m.rest)]
        exact h3
      obtain ⟨sf, X', hex, hsx⟩ := exec_hit_transfer up cb hcb hne prev prev2 hf t m hm _ hX
      rw [rewriteFrom_some up _ has cb prev t m hm, hp] at hall ⊢
      rw [scanFrom_some up _ has prev2 _ _ hex] at hall ⊢
      simp only [List.all_cons, Bool.and_eq_true, List.isEmpty_eq_true] at hall
      obtain ⟨hsf0, hall2⟩ := hall
      subst hsf0
      simp only [List.nil_append] at hsx
      subst hsx
      obtain ⟨q, hq, hql⟩ := last_of_canonical cb hcb hne m.left
      rw [hq] at hall2 ⊢
      rw [rewriteFrom_some up _ has cb prev2 _ _ hex]
      simp only
      rw [hq]
      obtain ⟨e1, e2⟩ := ih m.rest (by omega) (some p) (some q)
        (by simp [atLineStart, hpl, hql]) hall2
      refine ⟨by rw [e1], ?_⟩
      intro m2 hm2
      rcases List.mem_cons.mp hm2 with rfl | hm3
      · rfl
      · exact e2 m2 hm3

/-- A rewrite never lengthens a text when the replacement is the brand of the matcher, and
it keeps the length only if no match carries a suffix. -/
theorem rewrite_length (up : Char → Str) (cb : Str) (hne : cb ≠ []) (n : Nat) :
    ∀ (s : Str), s.length ≤ n → ∀ (prev : Option Char),
      (rewriteFrom up (brandAtoms cb) cb prev s).length ≤ s.length ∧
        ((rewriteFrom up (brandAtoms cb) cb prev s).length = s.length →
          (scanFrom up (brandAtoms cb) prev s).all (fun m => m.suffix.isEmpty) = true) := by
  have has := brandAtoms_ne_nil cb hne
  induction n with
  | zero =>
    intro s hs prev
    have : s = [] := List.length_eq_zero.mp (by omega)
    subst this
    simp [rewriteFrom_nil up _ has, scanFrom_nil up _ has]
  | succ n ih =>
    intro s hs prev
    cases hm : execAt up (brandAtoms cb) prev s with
    | none =>
      cases s with
      | nil => simp [rewriteFrom_nil up _ has, scanFrom_nil up _ has]
      | cons c t =>
        rw [rewriteFrom_none up _ cb prev c t hm, scanFrom_none up _ prev c t hm]
        obtain ⟨e1, e2⟩ := ih t (by simpa using hs) (some c)
        simp only [List.length_cons]
        exact ⟨by omega, fun h => e2 (by omega)⟩
    | some m =>
      obtain ⟨h1, _, h3, _⟩ := execAt_some up _ prev s m hm
      obtain ⟨_, _, hlen⟩ := execAt_consumed up _ has prev s m hm
      rw [rewriteFrom_some up _ has cb prev s m hm, scanFrom_some up _ has prev s m hm]
      obtain ⟨e1, e2⟩ := ih m.rest (by omega) ((m.left ++ m.brand ++ m.suffix).getLast?)
      have hl := congrArg List.length h1
      simp only [List.length_append] at hl ⊢
      rw [brandAtoms_length] at h3
      refine ⟨by omega, ?_⟩
      intro h
      simp only [List.all_cons, Bool.and_eq_true, List.isEmpty_eq_true]
      exact ⟨List.length_eq_zero.mp (by omega), e2 (by omega)⟩
/-! ## Repeated rewriting -/

theorem sampleUpper_canon (c : Char) :
    canonicalize sampleUpper c = c ∨ isWhiteSpace (canonicalize sampleUpper c) = false := by
  by_cases h0 : c.toNat < 128
  · rw [canonicalize_ascii _ c h0]
    by_cases hl : isAsciiLower c = true
    · right
      apply not_ws_of_letter
      rw [asciiUpper_toNat, if_pos hl]
      simp only [isAsciiLower, Bool.and_eq_true, decide_eq_true_eq] at hl
      omega
    · left
      exact asciiUpper_of_not_lower c (by simpa using hl)
  by_cases h64 : 65536 ≤ c.toNat
  · left
    simp [canonicalize, toUpperCase, h0, h64]
  have key : ∀ k : Nat, k < 0xD800 → 128 ≤ k → k ∉ whiteSpaceCodes →
      sampleUpper c = [Char.ofNat k] → isWhiteSpace (canonicalize sampleUpper c) = false := by
    intro k hk h128 hw he
    have ht := toNat_ofNat_small k hk
    have e : canonicalize sampleUpper c = Char.ofNat k := by
      have a : ¬ (Char.ofNat k).toNat < 128 := by rw [ht]; omega
      simp [canonicalize, toUpperCase, h0, h64, he, a]
    rw [e, Bool.eq_false_iff]
    intro hws
    rw [isWhiteSpace_iff, ht] at hws
    exact hw hws
  by_cases h1 : c.toNat = 0xDF
  · left
    simp [canonicalize, toUpperCase, h0, h64, sampleUpper, h1]
  by_cases h2 : c.toNat = 0xB5
  · right
    exact key 0x39C (by omega) (by omega) (by decide) (by simp [sampleUpper, h2])
  by_cases h3 : c.toNat = 0xFF
  · right
    exact key 0x178 (by omega) (by omega) (by decide) (by simp [sampleUpper, h3])
  by_cases h4 : 0xE0 ≤ c.toNat ∧ c.toNat ≤ 0xFE ∧ c.toNat ≠ 0xF7
  · right
    exact key (c.toNat - 0x20) (by omega) (by omega)
      (by simp only [whiteSpaceCodes, List.mem_cons, List.mem_singleton, List.not_mem_nil,
        or_false]; omega)
      (by simp only [sampleUpper, h1, h2, h3, h4, if_false, and_self, if_true, ne_eq,
        not_false_eq_true])
  by_cases h5 : 0x430 ≤ c.toNat ∧ c.toNat ≤ 0x44F
  · right
    exact key (c.toNat - 0x20) (by omega) (by omega)
      (by simp only [whiteSpaceCodes, List.mem_cons, List.mem_singleton, List.not_mem_nil,
        or_false]; omega)
      (by simp only [sampleUpper, h1, h2, h3, h4, h5, if_false, and_self, if_true])
  by_cases h6 : 0x450 ≤ c.toNat ∧ c.toNat ≤ 0x45F
  · right
    exact key (c.toNat - 0x50) (by omega) (by omega)
      (by simp only [whiteSpaceCodes, List.mem_cons, List.mem_singleton, List.not_mem_nil,
        or_false]; omega)
      (by simp only [sampleUpper, h1, h2, h3, h4, h5, h6, if_false, and_self, if_true])
  · left
    have hf := sampleUpper_fixed c ⟨h1, h2, h3, h4, h5, h6⟩
    simp [canonicalize, toUpperCase, h0, h64, hf]

theorem sampleUpper_canon_ws (x : Char) (hx : isWhiteSpace x = true) :
    canonicalize sampleUpper x = x := by
  rcases sampleUpper_canon x with h | h
  · exact h
  · exfalso
    rw [isWhiteSpace_iff] at hx
    by_cases h0 : x.toNat < 128
    · rw [canonicalize_ascii _ x h0] at h
      have hl : isAsciiLower x = false := by
        simp only [whiteSpaceCodes, List.mem_cons, List.mem_singleton, List.not_mem_nil,
          or_false] at hx
        simp only [isAsciiLower, Bool.and_eq_false_iff, decide_eq_false_iff_not]
        omega
      rw [asciiUpper_of_not_lower x hl, Bool.eq_false_iff] at h
      exact h ((isWhiteSpace_iff x).mpr hx)
    · have hf : sampleUpper x = [x] := by
        apply sampleUpper_fixed
        simp only [whiteSpaceCodes, List.mem_cons, List.mem_singleton, List.not_mem_nil,
          or_false] at hx
        omega
      have e : canonicalize sampleUpper x = x := by
        by_cases h64 : 65536 ≤ x.toNat
        · simp [canonicalize, toUpperCase, h0, h64]
        · simp [canonicalize, toUpperCase, h0, h64, hf]
      rw [e, Bool.eq_false_iff] at h
      exact h ((isWhiteSpace_iff x).mpr hx)

theorem sampleUpper_spaceStable : SpaceStable sampleUpper := by
  intro c x hx hcx
  have e : canonicalize sampleUpper c = canonicalize sampleUpper x := by
    simpa [charMatches] using hcx
  rw [sampleUpper_canon_ws x hx] at e
  rcases sampleUpper_canon c with h | h
  · rw [h] at e
    rw [e]
    exact hx
  · rw [e, hx] at h
    exact Bool.noConfusion h

theorem isBlank_normalized (B : Str) (hB : Normalized B) (hne : B ≠ []) :
    isBlank (some B) = false := by
  cases B with
  | nil => exact absurd rfl hne
  | cons c s =>
    have := hB.2 c rfl
    simp [isBlank, stringOrEmpty, this]

theorem rewriteText_normalized (up : Char → Str) (B : Str) (hB : Normalized B) (hne : B ≠ [])
    (repl t : Str) :
    rewriteText up (some B) repl t = rewriteFrom up (brandAtoms B) repl none t := by
  rw [rewriteText_eq up _ (isBlank_normalized B hB hne), replaceBrand_eq,
    normalizeSpaces_of_normalized B hB]

/-- When no match of the text is directly followed by an apostrophe, the scan of the
rewritten text finds no suffix. -/
theorem scan_rewrite_clear (up : Char → Str) (hup : SpaceStable up) (cb : Str)
    (hcb : Normalized cb) (hne : cb ≠ []) (n : Nat) :
    ∀ (t : Str), t.length ≤ n → ∀ (prev prev2 : Option Char),
      atLineStart prev = atLineStart prev2 →
      (scanFrom up (brandAtoms cb) prev t).all (restClear up) = true →
      (scanFrom up (brandAtoms cb) prev2 (rewriteFrom up (brandAtoms cb) cb prev t)).all
        (fun m => m.suffix.isEmpty) = true := by
  have has := brandAtoms_ne_nil cb hne
  induction n with
  | zero =>
    intro t ht prev prev2 _ _
    have : t = [] := List.length_eq_zero.mp (by omega)
    subst this
    simp [rewriteFrom_nil up _ has, scanFrom_nil up _ has]
  | succ n ih =>
    intro t ht prev prev2 hf hall
    cases hm : execAt up (brandAtoms cb) prev t with
    | none =>
      cases t with
      | nil => simp [rewriteFrom_nil up _ has, scanFrom_nil up _ has]
      | cons c t1 =>
        have hk := exec_none_transfer up cb hcb hne prev prev2 hf c t1 hm
        rw [scanFrom_none up _ prev c t1 hm] at hall
        rw [rewriteFrom_none up _ cb prev c t1 hm, scanFrom_none up _ prev2 c _ hk]
        exact ih t1 (by simpa using ht) (some c) (some c) rfl hall
    | some m =>
      obtain ⟨h1, h2, h3, h4⟩ := execAt_some_full up _ prev t m hm
      obtain ⟨p, hp, hpl⟩ := last_consumed up hup cb hcb hne prev t m hm
      obtain ⟨_, _, hlen⟩ := execAt_consumed up _ has prev t m hm
      have hhead := rewriteFrom_head up _ has cb (some p) hpl m.rest
      have hX : lookaheadOk (rewriteFrom up (brandAtoms cb) cb (some p) m.rest) = true := by
        rw [lookaheadOk_congr _ _ hhead]
        exact h3
      obtain ⟨sf, X', hex, hsx⟩ := exec_hit_transfer up cb hcb hne prev prev2 hf t m hm _ hX
      rw [scanFrom_some up _ has prev t m hm, hp] at hall
      simp only [List.all_cons, Bool.and_eq_true] at hall
      obtain ⟨hclear, hall2⟩ := hall
      have hsf : sf = [] := by
        obtain ⟨-, g2, -, -⟩ := execAt_some_full up _ prev2 _ _ hex
        simp only at g2
        rw [← hsx] at hhead
        rcases suffixAlts_shape up _ _ g2 with e | ⟨x, e, hx⟩ | ⟨a, x, e, ha, hx⟩
        · exact e
        · exfalso
          simp only at e
          rw [e] at hhead
          have hx2 := charMatches_alnum up 's' x (by decide) hx
          cases hr : m.rest with
          | nil => rw [hr] at hhead; simp at hhead
          | cons y r =>
            rw [hr] at hhead h3
            simp only [List.cons_append, List.head?_cons, Option.some.injEq] at hhead
            subst hhead
            simp [lookaheadOk, hx2] at h3
        · exfalso
          simp only at e
          rw [e] at hhead
          cases hr : m.rest with
          | nil => rw [hr] at hhead; simp at hhead
          | cons y r =>
            rw [hr] at hhead
            simp only [List.cons_append, List.head?_cons, Option.some.injEq] at hhead
            subst hhead
            simp [restClear, hr, ha] at hclear
      subst hsf
      simp only [List.nil_append] at hsx
      subst hsx
      obtain ⟨q, hq, hql⟩ := last_of_canonical cb hcb hne m.left
      rw [rewriteFrom_some up _ has cb prev t m hm, hp, scanFrom_some up _ has prev2 _ _ hex]
      simp only [List.all_cons, Bool.and_eq_true, List.isEmpty_eq_true, true_and]
      rw [hq]
      exact ih m.rest (by omega) (some p) (some q) (by simp [atLineStart, hpl, hql]) hall2

/-- Rewriting a rewritten text changes nothing exactly when the scan of the rewritten text
finds no suffix; then every match of that scan is the canonical brand itself. -/
theorem rewriteText_stable (up : Char → Str) (hup : SpaceStable up) (B : Str)
    (hB : Normalized B) (hne : B ≠ []) (t : Str) :
    (rewriteText up (some B) B (rewriteText up (some B) B t) = rewriteText up (some B) B t ↔
        suffixFree up B (rewriteText up (some B) B t) = true) ∧
      (suffixFree up B (rewriteText up (some B) B t) = true →
        ∀ m ∈ scanMatches up B (rewriteText up (some B) B t), m.brand = B) := by
  simp only [rewriteText_normalized up B hB hne, suffixFree, scanMatches]
  refine ⟨⟨?_, ?_⟩, ?_⟩
  · intro h
    exact (rewrite_length up B hne _ _ (Nat.le_refl _) none).2 (by rw [h])
  · intro h
    exact (rewrite_stable_aux up hup B hB hne t.length t (Nat.le_refl _) none none rfl h).1
  · intro h
    exact (rewrite_stable_aux up hup B hB hne t.length t (Nat.le_refl _) none none rfl h).2

theorem rewriteText_clear (up : Char → Str) (hup : SpaceStable up) (B : Str)
    (hB : Normalized B) (hne : B ≠ []) (t : Str) (h : noStackedSuffix up B t = true) :
    suffixFree up B (rewriteText up (some B) B t) = true := by
  simp only [rewriteText_normalized up B hB hne, suffixFree, scanMatches]
  exact scan_rewrite_clear up hup B hB hne t.length t (Nat.le_refl _) none none rfl h

/-- Three rewrites give what one gives exactly when two do. -/
theorem rewriteText_thrice (up : Char → Str) (hup : SpaceStable up) (B : Str)
    (hB : Normalized B) (hne : B ≠ []) (t : Str) :
    rewriteText up (some B) B (rewriteText up (some B) B (rewriteText up (some B) B t)) =
        rewriteText up (some B) B t ↔
      suffixFree up B (rewriteText up (some B) B t) = true := by
  constructor
  · intro h
    simp only [rewriteText_normalized up B hB hne, suffixFree, scanMatches] at h ⊢
    have l1 := (rewrite_length up B hne _
      (rewriteFrom up (brandAtoms B) B none (rewriteFrom up (brandAtoms B) B none t))
      (Nat.le_refl _) none).1
    have l2 := (rewrite_length up B hne _ (rewriteFrom up (brandAtoms B) B none t)
      (Nat.le_refl _) none)
    have l3 := congrArg List.length h
    exact l2.2 (by omega)
  · intro h
    have e := ((rewriteText_stable up hup B hB hne t).1).mpr h
    rw [e, e]
/-! ## Documents: the sweep twice, and the three passes -/

theorem replaceBrand_nil (up : Char → Str) (rx : List Atom) (hrx : rx ≠ []) (cb : Str) :
    replaceBrand up rx cb [] = [] := by
  rw [replaceBrand_eq, rewriteFrom_nil up rx hrx]

mutual
theorem walk_fixed (up : Char → Str) (rx : List Atom) (hrx : rx ≠ []) (cb : Str) :
    ∀ d : Doc, walk up rx cb (walk up rx cb d) = walk up rx cb d →
      allStrings (fun s => replaceBrand up rx cb (replaceBrand up rx cb s) =
        replaceBrand up rx cb s) d
  | Doc.null => by simp [allStrings]
  | Doc.bool b => by simp [allStrings]
  | Doc.num n => by simp [allStrings]
  | Doc.str s => by
    intro h
    simp only [allStrings]
    by_cases hs : s = []
    · subst hs
      simp [replaceBrand_nil up rx hrx]
    · by_cases h2 : replaceBrand up rx cb s = []
      · rw [h2, replaceBrand_nil up rx hrx]
      · simpa [walk, hs, h2] using h
  | Doc.arr items => by
    intro h
    simp only [walk, Doc.arr.injEq] at h
    simp only [allStrings]
    exact walkItems_fixed up rx hrx cb items h
  | Doc.obj fields => by
    intro h
    simp only [walk, Doc.obj.injEq] at h
    simp only [allStrings]
    exact walkFields_fixed up rx hrx cb fields h

theorem walkItems_fixed (up : Char → Str) (rx : List Atom) (hrx : rx ≠ []) (cb : Str) :
    ∀ ds : List Doc, walkItems up rx cb (walkItems up rx cb ds) = walkItems up rx cb ds →
      allStringsItems (fun s => replaceBrand up rx cb (replaceBrand up rx cb s) =
        replaceBrand up rx cb s) ds
  | [] => by simp [allStringsItems]
  | d :: ds => by
    intro h
    simp only [walkItems, List.cons.injEq] at h
    simp only [allStringsItems]
    exact ⟨walk_fixed up rx hrx cb d h.1, walkItems_fixed up rx hrx cb ds h.2⟩

theorem walkFields_fixed (up : Char → Str) (rx : List Atom) (hrx : rx ≠ []) (cb : Str) :
    ∀ ds : List (Str × Doc),
      walkFields up rx cb (walkFields up rx cb ds) = walkFields up rx cb ds →
      allStringsFields (fun s => replaceBrand up rx cb (replaceBrand up rx cb s) =
        replaceBrand up rx cb s) ds
  | [] => by simp [allStringsFields]
  | kv :: ds => by
    intro h
    simp only [walkFields, List.cons.injEq, Prod.mk.injEq, true_and] at h
    simp only [allStringsFields]
    exact ⟨walk_fixed up rx hrx cb kv.2 h.1, walkFields_fixed up rx hrx cb ds h.2⟩
end

mutual
theorem allStrings_iff (P Q : Str → Prop) (hPQ : ∀ s, P s ↔ Q s) :
    ∀ d : Doc, allStrings P d ↔ allStrings Q d
  | Doc.null => by simp [allStrings]
  | Doc.bool b => by simp [allStrings]
  | Doc.num n => by simp [allStrings]
  | Doc.str s => by simp only [allStrings]; exact hPQ s
  | Doc.arr items => by simp only [allStrings]; exact allStringsItems_iff P Q hPQ items
  | Doc.obj fields => by simp only [allStrings]; exact allStringsFields_iff P Q hPQ fields

theorem allStringsItems_iff (P Q : Str → Prop) (hPQ : ∀ s, P s ↔ Q s) :
    ∀ ds : List Doc, allStringsItems P ds ↔ allStringsItems Q ds
  | [] => by simp [allStringsItems]
  | d :: ds => by
    simp only [allStringsItems]
    rw [allStrings_iff P Q hPQ d, allStringsItems_iff P Q hPQ ds]

theorem allStringsFields_iff (P Q : Str → Prop) (hPQ : ∀ s, P s ↔ Q s) :
    ∀ ds : List (Str × Doc), allStringsFields P ds ↔ allStringsFields Q ds
  | [] => by simp [allStringsFields]
  | kv :: ds => by
    simp only [allStringsFields]
    rw [allStrings_iff P Q hPQ kv.2, allStringsFields_iff P Q hPQ ds]
end

/-- The sweep of a swept document changes nothing exactly when no string of the swept
document holds a match with a suffix. -/
theorem force_twice (up : Char → Str) (hup : SpaceStable up) (B : Str) (hB : Normalized B)
    (hne : B ≠ []) (D : Doc) :
    ∃ out, forceBrandCanonicalEverywhere up D (some B) = .ok out ∧
      (forceBrandCanonicalEverywhere up out (some B) = .ok out ↔
        allStrings (fun t => suffixFree up B (rewriteText up (some B) B t) = true) D) := by
  have hb := isBlank_normalized B hB hne
  have hrx := brandAtoms_ne_nil _ (normalizeSpaces_ne_nil _ hb)
  refine ⟨_, force_eq up D B hb, ?_⟩
  rw [force_eq up _ B hb]
  have key : allStrings (fun t => suffixFree up B (rewriteText up (some B) B t) = true) D ↔
      allStrings (fun s =>
        replaceBrand up (brandAtoms (normalizeSpaces (some B))) B
            (replaceBrand up (brandAtoms (normalizeSpaces (some B))) B s) =
          replaceBrand up (brandAtoms (normalizeSpaces (some B))) B s) D := by
    apply allStrings_iff
    intro s
    have := (rewriteText_stable up hup B hB hne s).1
    simp only [rewriteText_eq up _ hb] at this ⊢
    exact this.symm
  rw [key]
  constructor
  · intro h
    simp only [Except.ok.injEq] at h
    exact walk_fixed up _ hrx B D h
  · intro h
    rw [walk_idem up _ B D h]

theorem allStrings_top (P : Str → Prop) (D : Doc) (h : allStrings P D) : topStrings P D := by
  cases D with
  | obj fields =>
    simp only [topStrings]
    simp only [allStrings] at h
    induction fields with
    | nil => intro kv hkv; simp at hkv
    | cons kv kvs ih =>
      simp only [allStringsFields] at h
      intro q hq s hs
      rcases List.mem_cons.mp hq with rfl | hq2
      · have := h.1
        rw [hs] at this
        simpa [allStrings] using this
      · exact ih h.2 q hq2 s hs
  | arr items =>
    simp only [topStrings]
    simp only [allStrings] at h
    induction items with
    | nil => intro d hd; simp at hd
    | cons d ds ih =>
      simp only [allStringsItems] at h
      intro q hq s hs
      rcases List.mem_cons.mp hq with rfl | hq2
      · have := h.1
        rw [hs] at this
        simpa [allStrings] using this
      · exact ih h.2 q hq2 s hs
  | _ => simp [topStrings]

theorem walk_str_rewrite (up : Char → Str) (cb : Str) (hb : isBlank (some cb) = false)
    (s : Str) :
    walk up (brandAtoms (normalizeSpaces (some cb))) cb (Doc.str s) =
      Doc.str (rewriteText up (some cb) cb s) := by
  rw [walk_string_value, replaceInValue_eq up (some cb) cb hb]

theorem walkFields_after_passes (up : Char → Str) (cb : Str) (hb : isBlank (some cb) = false)
    (g : Str → Str) (hg : ∀ s, g s = rewriteText up (some cb) cb s)
    (fields : List (Str × Doc)) :
    walkFields up (brandAtoms (normalizeSpaces (some cb))) cb
        ((fields.map (fun kv => (kv.1,
          match kv.2 with
          | Doc.str s => Doc.str (g s)
          | w => w))).map (fun kv => (kv.1,
          match kv.2 with
          | Doc.str s => Doc.str (rewriteText up (some cb) cb s)
          | w => w))) =
      walkFields up (brandAtoms (normalizeSpaces (some cb))) cb fields ↔
    ∀ kv ∈ fields, ∀ s, kv.2 = Doc.str s →
      rewriteText up (some cb) cb (rewriteText up (some cb) cb (rewriteText up (some cb) cb s)) =
        rewriteText up (some cb) cb s := by
  induction fields with
  | nil => simp
  | cons kv kvs ih =>
    rcases kv with ⟨k, v⟩
    simp only [List.map_cons, walkFields, List.cons.injEq, Prod.mk.injEq, true_and, ih,
      List.forall_mem_cons]
    apply and_congr_left'
    cases v with
    | str s => simp [walk_str_rewrite up cb hb, hg]
    | _ => simp

theorem walkItems_after_passes (up : Char → Str) (cb : Str) (hb : isBlank (some cb) = false)
    (g : Str → Str) (hg : ∀ s, g s = rewriteText up (some cb) cb s)
    (items : List Doc) :
    walkItems up (brandAtoms (normalizeSpaces (some cb))) cb
        ((items.map (fun v =>
          match v with
          | Doc.str s => Doc.str (g s)
          | w => w)).map (fun v =>
          match v with
          | Doc.str s => Doc.str (rewriteText up (some cb) cb s)
          | w => w)) =
      walkItems up (brandAtoms (normalizeSpaces (some cb))) cb items ↔
    ∀ d ∈ items, ∀ s, d = Doc.str s →
      rewriteText up (some cb) cb (rewriteText up (some cb) cb (rewriteText up (some cb) cb s)) =
        rewriteText up (some cb) cb s := by
  induction items with
  | nil => simp
  | cons v vs ih =>
    simp only [List.map_cons, walkItems, List.cons.injEq, ih, List.forall_mem_cons]
    apply and_congr_left'
    cases v with
    | str s => simp [walk_str_rewrite up cb hb, hg]
    | _ => simp

theorem replaceBrandEverywhere_arr_eq (up : Char → Str) (items : List Doc)
    (raw : Option Str) (cb : Str) :
    replaceBrandEverywhere up (Doc.arr items) raw cb =
      .ok (Doc.arr (items.map (fun v =>
        match v with
        | Doc.str s => Doc.str (rewriteText up raw cb s)
        | w => w))) := by
  by_cases h : isBlank raw = true
  · have e : items.map (fun v =>
        match v with
        | Doc.str s => Doc.str (rewriteText up raw cb s)
        | w => w) = items := by
      conv_rhs => rw [← List.map_id items]
      apply List.map_congr_left
      intro v _
      cases v <;> simp [rewriteText_blank up raw cb _ h]
    rw [e]
    simp [replaceBrandEverywhere, buildBrandRegex_eq, normalizeSpaces_blank _ h]
  · have h2 : isBlank raw = false := by simpa using h
    simp only [replaceBrandEverywhere, buildBrandRegex_eq, normalizeSpaces_ne_nil _ h2,
      if_false]
    congr 2
    apply List.map_congr_left
    intro v _
    exact replaceInValue_eq up raw cb h2 v

theorem replaceBrandEverywhere_scalar (up : Char → Str) (D : Doc) (raw : Option Str)
    (cb : Str) (h1 : ∀ fields, D ≠ Doc.obj fields) (h2 : ∀ items, D ≠ Doc.arr items)
    (h3 : ∀ s, D = Doc.str s → s = []) :
    replaceBrandEverywhere up D raw cb = .ok D := by
  cases D with
  | obj fields => exact absurd rfl (h1 fields)
  | arr items => exact absurd rfl (h2 items)
  | str s =>
    have := h3 s rfl
    subst this
    by_cases h : normalizeSpaces raw = [] <;> simp [replaceBrandEverywhere, buildBrandRegex_eq, h]
  | _ =>
    by_cases h : normalizeSpaces raw = [] <;> simp [replaceBrandEverywhere, buildBrandRegex_eq, h]

theorem regular_normalized (up : Char → Str) (raw : Option Str)
    (h : resolverRegular up (normalizeSpaces raw) = true) :
    Normalized (canonicalizeBrand up raw) :=
  normalized_flag up _ _ (regular_flagEqual up raw h) (normalizeSpaces_normalized raw)

/-- The three passes give what the sweep alone gives exactly when, for each string that
the targeted passes reach, three rewrites give what one gives. -/
theorem passes_equiv (up : Char → Str) (raw : Option Str) (D : Doc)
    (hne : canonicalizeBrand up raw ≠ [])
    (hreg : resolverRegular up (normalizeSpaces raw) = true)
    (hD : ∀ s, D = Doc.str s → s = []) :
    enforceCanonicalBrand up D raw =
        forceBrandCanonicalEverywhere up D (some (canonicalizeBrand up raw)) ↔
      topStrings (fun s =>
        rewriteText up (some (canonicalizeBrand up raw)) (canonicalizeBrand up raw)
          (rewriteText up (some (canonicalizeBrand up raw)) (canonicalizeBrand up raw)
            (rewriteText up (some (canonicalizeBrand up raw)) (canonicalizeBrand up raw) s)) =
        rewriteText up (some (canonicalizeBrand up raw)) (canonicalizeBrand up raw) s) D := by
  have hB := regular_normalized up raw hreg
  have hb := isBlank_normalized _ hB hne
  have hg : ∀ s, rewriteText up raw (canonicalizeBrand up raw) s =
      rewriteText up (some (canonicalizeBrand up raw)) (canonicalizeBrand up raw) s := by
    intro s
    exact (regular_rewriteText up raw hreg _ s).symm
  cases D with
  | obj fields =>
    simp only [enforceCanonicalBrand, hne, if_false, replaceBrandEverywhere_obj_eq,
      force_eq up _ _ hb, walk, Except.ok.injEq, Doc.obj.injEq, topStrings]
    exact walkFields_after_passes up _ hb _ hg fields
  | arr items =>
    simp only [enforceCanonicalBrand, hne, if_false, replaceBrandEverywhere_arr_eq,
      force_eq up _ _ hb, walk, Except.ok.injEq, Doc.arr.injEq, topStrings]
    exact walkItems_after_passes up _ hb _ hg items
  | str s =>
    have := hD s rfl
    subst this
    have e : ∀ r, replaceBrandEverywhere up (Doc.str []) r (canonicalizeBrand up raw) =
        .ok (Doc.str []) := fun r =>
      replaceBrandEverywhere_scalar up _ r _ (fun _ h => Doc.noConfusion h)
        (fun _ h => Doc.noConfusion h) (fun _ h => (Doc.str.inj h).symm)
    simp [enforceCanonicalBrand, hne, e, topStrings]
  | null =>
    have e : ∀ r, replaceBrandEverywhere up Doc.null r (canonicalizeBrand up raw) =
        .ok Doc.null := fun r =>
      replaceBrandEverywhere_scalar up _ r _ (fun _ h => Doc.noConfusion h)
        (fun _ h => Doc.noConfusion h) (fun _ h => Doc.noConfusion h)
    simp [enforceCanonicalBrand, hne, e, topStrings]
  | bool b =>
    have e : ∀ r, replaceBrandEverywhere up (Doc.bool b) r (canonicalizeBrand up raw) =
        .ok (Doc.bool b) := fun r =>
      replaceBrandEverywhere_scalar up _ r _ (fun _ h => Doc.noConfusion h)
        (fun _ h => Doc.noConfusion h) (fun _ h => Doc.noConfusion h)
    simp [enforceCanonicalBrand, hne, e, topStrings]
  | num n =>
    have e : ∀ r, replaceBrandEverywhere up (Doc.num n) r (canonicalizeBrand up raw) =
        .ok (Doc.num n) := fun r =>
      replaceBrandEverywhere_scalar up _ r _ (fun _ h => Doc.noConfusion h)
        (fun _ h => Doc.noConfusion h) (fun _ h => Doc.noConfusion h)
    simp [enforceCanonicalBrand, hne, e, topStrings]
/-! ## A suffix after an occurrence of a one-word brand -/

/-- The alternatives of the suffix group exclude one another: when one of them matches and
passes the look-ahead, it is the suffix that is reported. -/
theorem suffixAlts_first (up : Char → Str) (s0 suf post : Str)
    (h : (suf, post) ∈ suffixAlts up s0) (hne : suf ≠ []) (hl : lookaheadOk post = true) :
    (suffixAlts up s0).find? (fun r => lookaheadOk r.2) = some (suf, post) := by
  have e2 : charMatches up (Char.ofNat 39) 's' = false := by
    rw [charMatches_ascii up _ _ (by decide) (by decide)]; decide
  have e3 : charMatches up '’' 's' = false :=
    charMatches_nonascii_ascii up _ _ (by decide) (by decide)
  have p1 : "'s".toList = [Char.ofNat 39, 's'] := by decide
  have p2 : "’s".toList = ['’', 's'] := by decide
  have p3 : "s".toList = ['s'] := by decide
  have hs0 := suffixAlts_mem up s0 _ h
  simp only at hs0
  have excl1 : ∀ x, charMatches up 's' x = true → charMatches up (Char.ofNat 39) x = false := by
    intro x hx
    cases hc : charMatches up (Char.ofNat 39) x with
    | false => rfl
    | true =>
      have := charMatches_trans up _ x 's' hc (by rw [charMatches_symm]; exact hx)
      rw [e2] at this
      exact Bool.noConfusion this
  have excl2 : ∀ x, charMatches up 's' x = true → charMatches up '’' x = false := by
    intro x hx
    cases hc : charMatches up '’' x with
    | false => rfl
    | true =>
      have := charMatches_trans up _ x 's' hc (by rw [charMatches_symm]; exact hx)
      rw [e3] at this
      exact Bool.noConfusion this
  rcases suffixAlts_shape up s0 _ h with e | ⟨x, e, hx⟩ | ⟨a, x, e, ha, hx⟩
  · exact absurd e hne
  · simp only at e
    subst e
    subst hs0
    simp [suffixAlts, suffixPatterns, p1, p2, p3, matchLiteral, excl1 x hx, excl2 x hx, hx, hl]
  · simp only at e
    subst e
    subst hs0
    have n3 : charMatches up 's' a = false := by
      cases hc : charMatches up 's' a with
      | false => rfl
      | true =>
        simp [isApostrophe, excl1 a hc, excl2 a hc] at ha
    simp only [isApostrophe, Bool.or_eq_true] at ha
    by_cases c1 : charMatches up (Char.ofNat 39) a = true
    · simp [suffixAlts, suffixPatterns, p1, p2, p3, matchLiteral, c1, hx, hl]
    · have c2 : charMatches up '’' a = true := by
        rcases ha with h1 | h2
        · exact absurd h1 c1
        · exact h2
      simp [suffixAlts, suffixPatterns, p1, p2, p3, matchLiteral, c1, c2, hx, hl]

/-- An occurrence of the brand followed by a suffix and a boundary is matched with that
suffix. -/
theorem matchBody_suffix_alt (up : Char → Str) (cb : Str) (hs : spacesOk cb = true)
    (occ : Str) (hocc : sameIgnoringCase cb occ) (suf post : Str)
    (hsuf : (suf, post) ∈ suffixAlts up (suf ++ post)) (hne : suf ≠ [])
    (hl : lookaheadOk post = true) :
    matchBody up (brandAtoms cb) (occ ++ (suf ++ post)) = some (occ, suf, post) := by
  have h1 := matchAtoms_self up cb hs occ hocc (suf ++ post)
  have h2 := suffixAlts_first up _ suf post hsuf hne hl
  simp only [matchBody, h1, List.flatMap_cons, List.flatMap_nil, List.append_nil,
    List.find?_map]
  have e : ((fun r : Str × Str × Str => lookaheadOk r.2.2) ∘
      fun r : Str × Str => (occ, r.1, r.2)) = fun r : Str × Str => lookaheadOk r.2 := rfl
  rw [e, h2]
  rfl

theorem execAt_some_body (up : Char → Str) (as : List Atom) (prev : Option Char) (s : Str)
    (m : Match) (h : execAt up as prev s = some m) :
    (m.left = [] ∧ atLineStart prev = true ∧
        matchBody up as s = some (m.brand, m.suffix, m.rest)) ∨
      ∃ c t, s = c :: t ∧ m.left = [c] ∧ isAsciiAlnum c = false ∧
        matchBody up as t = some (m.brand, m.suffix, m.rest) := by
  unfold execAt at h
  split at h
  · next r hr =>
    by_cases hb : atLineStart prev = true
    · simp only [hb, if_true] at hr
      simp only [Option.some.injEq] at h
      subst h
      exact Or.inl ⟨rfl, hb, hr⟩
    · simp [hb] at hr
  · cases s with
    | nil => simp at h
    | cons c t =>
      by_cases hc : isAsciiAlnum c = true
      · simp [hc] at h
      · simp only [hc, Bool.false_eq_true, if_false, Option.map_eq_some'] at h
        obtain ⟨r, hr, rfl⟩ := h
        exact Or.inr ⟨c, t, rfl, rfl, by simpa using hc, hr⟩

theorem rewrite_le (up : Char → Str) (as : List Atom) (has : as ≠ []) (repl : Str)
    (hrepl : repl.length ≤ as.length) (n : Nat) :
    ∀ (s : Str), s.length ≤ n → ∀ (prev : Option Char),
      (rewriteFrom up as repl prev s).length ≤ s.length := by
  induction n with
  | zero =>
    intro s hs prev
    have : s = [] := List.length_eq_zero.mp (by omega)
    subst this
    simp [rewriteFrom_nil up _ has]
  | succ n ih =>
    intro s hs prev
    cases hm : execAt up as prev s with
    | none =>
      cases s with
      | nil => simp [rewriteFrom_nil up _ has]
      | cons c t =>
        rw [rewriteFrom_none up _ repl prev c t hm]
        have := ih t (by simpa using hs) (some c)
        simp only [List.length_cons]
        omega
    | some m =>
      obtain ⟨h1, _, h3, _⟩ := execAt_some up _ prev s m hm
      obtain ⟨_, _, hlen⟩ := execAt_consumed up _ has prev s m hm
      rw [rewriteFrom_some up _ has repl prev s m hm]
      have := ih m.rest (by omega) ((m.left ++ m.brand ++ m.suffix).getLast?)
      have hl := congrArg List.length h1
      simp only [List.length_append] at hl ⊢
      omega

theorem boundary_not_alnum_end (pre X Y : Str) (hX : ∀ x ∈ X, isAsciiAlnum x = true)
    (hXne : X ≠ []) (h : pre = Y ++ X)
    (hpre : ∀ x, pre.getLast? = some x → isAsciiAlnum x = false) : False := by
  have e : pre.getLast? = some (X.getLast hXne) := by
    rw [h, List.getLast?_append_of_ne_nil _ hXne]
    exact List.getLast?_eq_getLast _ hXne
  have := hpre _ e
  rw [hX _ (List.getLast_mem hXne)] at this
  exact Bool.noConfusion this

theorem boundary_not_inside (pre X Y : Str) (hX : ∀ x ∈ X, isAsciiAlnum x = true)
    (hne : pre ≠ []) (h : X = pre ++ Y)
    (hpre : ∀ x, pre.getLast? = some x → isAsciiAlnum x = false) : False := by
  have := hpre _ (List.getLast?_eq_getLast _ hne)
  rw [hX _ (by rw [h]; exact List.mem_append_left _ (List.getLast_mem hne))] at this
  exact Bool.noConfusion this

theorem same_s_of_single (up : Char → Str) (cb : Str) (x : Char)
    (hocc : sameIgnoringCase cb [x]) (hx : charMatches up 's' x = true) :
    sameIgnoringCase cb "s".toList := by
  have hxa := charMatches_alnum up 's' x (by decide) hx
  have hlt : x.toNat < 128 := by
    rw [alnum_iff] at hxa
    omega
  rw [charMatches_ascii up _ _ (by decide) hlt] at hx
  have e : asciiUpper x = asciiUpper 's' := by
    simpa using (beq_iff_eq.mp hx).symm
  unfold sameIgnoringCase at hocc ⊢
  rw [hocc]
  simp [e]
theorem matchAtoms_lits_unique (up : Char → Str) (cb : Str) :
    ∀ (b X : Str), Matches up (cb.map Atom.lit) b →
      matchAtoms up (cb.map Atom.lit) (b ++ X) = [(b, X)] := by
  induction cb with
  | nil =>
    intro b X h
    simp only [List.map_nil, Matches] at h
    subst h
    simp [matchAtoms]
  | cons c cs ih =>
    intro b X h
    simp only [List.map_cons, Matches] at h
    obtain ⟨x, b2, rfl, hx, h2⟩ := h
    simp [matchAtoms, hx, ih b2 X h2]

/-- For a one-word brand the core matches in one way at most, so the body is decided by the
suffix group alone. -/
theorem matchBody_lits (up : Char → Str) (cb : Str) (hcb : ∀ c ∈ cb, isAsciiAlnum c = true)
    (b Y : Str) (h : Matches up (brandAtoms cb) b) :
    matchBody up (brandAtoms cb) (b ++ Y) =
      ((suffixAlts up Y).find? (fun r => lookaheadOk r.2)).map (fun r => (b, r.1, r.2)) := by
  rw [brandAtoms_alnum cb hcb] at h ⊢
  simp only [matchBody, matchAtoms_lits_unique up cb b Y h, List.flatMap_cons,
    List.flatMap_nil, List.append_nil, List.find?_map]
  rfl

theorem matchBody_at_nil (up : Char → Str) (cb : Str) (hne : cb ≠ [])
    (hcb : ∀ c ∈ cb, isAsciiAlnum c = true) : matchBody up (brandAtoms cb) [] = none := by
  cases cb with
  | nil => exact absurd rfl hne
  | cons c cs =>
    rw [brandAtoms_alnum _ hcb]
    simp [matchBody, matchAtoms]

theorem suffix_end_alnum (up : Char → Str) (b sf : Str) (hb : ∀ x ∈ b, isAsciiAlnum x = true)
    (hbne : b ≠ []) (s0 r : Str) (hsf : (sf, r) ∈ suffixAlts up s0) :
    ∃ p, (b ++ sf).getLast? = some p ∧ isAsciiAlnum p = true := by
  rcases suffixAlts_shape up _ _ hsf with e | ⟨x, e, hx⟩ | ⟨a, x, e, _, hx⟩
  · simp only at e
    rw [e, List.append_nil]
    exact ⟨b.getLast hbne, List.getLast?_eq_getLast _ hbne, hb _ (List.getLast_mem hbne)⟩
  · simp only at e
    rw [e, List.getLast?_append_of_ne_nil _ (by simp)]
    exact ⟨x, rfl, charMatches_alnum up 's' x (by decide) hx⟩
  · simp only at e
    rw [e, List.getLast?_append_of_ne_nil _ (by simp)]
    exact ⟨x, rfl, charMatches_alnum up 's' x (by decide) hx⟩

/-- Where the body does not match in a text cut after a boundary character, it does not
match in the part before the cut. -/
theorem matchBody_cut_none (up : Char → Str) (cb : Str) (hne : cb ≠ [])
    (hcb : ∀ c ∈ cb, isAsciiAlnum c = true) (v w : Str)
    (hv : ∀ x, v.getLast? = some x → isAsciiAlnum x = false)
    (h : matchBody up (brandAtoms cb) (v ++ w) = none) :
    matchBody up (brandAtoms cb) v = none := by
  cases hb : matchBody up (brandAtoms cb) v with
  | none => rfl
  | some r =>
    exfalso
    obtain ⟨e1, e2, e3⟩ := matchBody_some_mem up _ v r hb
    obtain ⟨f1, f2⟩ := matchAtoms_mem up _ v _ e1
    simp only at f1
    have hbr := matchAtoms_brand_alnum up cb hcb v _ e1
    simp only at hbr
    have hbne : r.1 ≠ [] := by
      intro h0
      rw [h0, brandAtoms_length] at f2
      have := List.length_pos.mpr hne
      simp only [List.length_nil] at f2
      omega
    cases hr : r.2.2 with
    | nil =>
      rw [hr, List.append_nil] at f1
      obtain ⟨p, hp, hpa⟩ := suffix_end_alnum up r.1 r.2.1 hbr hbne _ _ e2
      have := hv p (by rw [← f1]; exact hp)
      rw [hpa] at this
      exact Bool.noConfusion this
    | cons y rest =>
      have g1 := matchAtoms_local up _ v _ e1 (r.2.1 ++ (r.2.2 ++ w))
      have g2 := suffixAlts_local up _ _ e2 (r.2.2 ++ w)
      simp only at g1 g2
      have g3 : lookaheadOk (r.2.2 ++ w) = true := by
        rw [hr] at e3 ⊢
        exact e3
      have e : r.1 ++ (r.2.1 ++ (r.2.2 ++ w)) = v ++ w := by
        rw [← f1]
        simp only [List.append_assoc]
      rw [e] at g1
      exact matchBody_of_mem up _ _ _ _ _ _ g1 g2 g3 h

theorem suffix_cut (up : Char → Str) (sf a' w : Str) (ha : a' ≠ [])
    (hv : ∀ x, a'.getLast? = some x → isAsciiAlnum x = false)
    (h : (suffixAlts up (sf ++ (a' ++ w))).find? (fun r => lookaheadOk r.2) =
      some (sf, a' ++ w)) :
    (suffixAlts up (sf ++ a')).find? (fun r => lookaheadOk r.2) = some (sf, a') := by
  have h1 := List.find?_some h
  have h2 := List.mem_of_find?_eq_some h
  simp only at h1
  have hla : lookaheadOk a' = true := by
    cases a' with
    | nil => exact absurd rfl ha
    | cons y u => exact h1
  have hm := suffixAlts_local up _ _ h2 a'
  simp only at hm
  by_cases hsf : sf = []
  · subst hsf
    simp only [List.nil_append] at h hm ⊢
    cases hf : (suffixAlts up a').find? (fun r => lookaheadOk r.2) with
    | none =>
      exfalso
      have := List.find?_eq_none.mp hf _ hm
      simp [hla] at this
    | some r0 =>
      have k1 := List.find?_some hf
      have k2 := List.mem_of_find?_eq_some hf
      have k3 := suffixAlts_mem up _ _ k2
      simp only at k1
      by_cases hr0 : r0.1 = []
      · rw [hr0, List.nil_append] at k3
        congr 1
        exact Prod.ext hr0 k3
      · exfalso
        have hr2 : r0.2 ≠ [] := by
          intro h0
          rw [h0, List.append_nil] at k3
          rcases suffixAlts_shape up _ _ k2 with e | ⟨x, e, hx⟩ | ⟨a, x, e, _, hx⟩
          · exact hr0 e
          · have := hv x (by rw [← k3, e]; rfl)
            rw [charMatches_alnum up 's' x (by decide) hx] at this
            exact Bool.noConfusion this
          · have := hv x (by rw [← k3, e]; rfl)
            rw [charMatches_alnum up 's' x (by decide) hx] at this
            exact Bool.noConfusion this
        have g := suffixAlts_local up _ _ k2 (r0.2 ++ w)
        have e : r0.1 ++ (r0.2 ++ w) = a' ++ w := by rw [← k3, List.append_assoc]
        rw [e] at g
        have gl : lookaheadOk (r0.2 ++ w) = true := by
          cases hq : r0.2 with
          | nil => exact absurd hq hr2
          | cons y u => rw [hq] at k1; exact k1
        have := suffixAlts_first up _ _ _ g hr0 gl
        rw [h] at this
        simp only [Option.some.injEq, Prod.mk.injEq] at this
        exact hr0 this.1.symm
  · exact suffixAlts_first up _ _ _ hm hsf hla

/-- A match of the body that ends before the last character of the part before a cut is the
match of the body in that part. -/
theorem matchBody_cut_some (up : Char → Str) (cb : Str)
    (hcb : ∀ c ∈ cb, isAsciiAlnum c = true) (v w b sf R a' : Str)
    (h : matchBody up (brandAtoms cb) (v ++ w) = some (b, sf, R))
    (hva : v = b ++ sf ++ a') (ha : a' ≠ [])
    (hv : ∀ x, a'.getLast? = some x → isAsciiAlnum x = false) :
    matchBody up (brandAtoms cb) v = some (b, sf, a') := by
  obtain ⟨e1, -, -⟩ := matchBody_some_mem up _ _ _ h
  have hM := ((matchAtoms_iff up _ _ _).mp e1).2
  simp only at hM
  have e : v ++ w = b ++ (sf ++ (a' ++ w)) := by rw [hva]; simp only [List.append_assoc]
  rw [e, matchBody_lits up cb hcb b _ hM] at h
  rw [hva, List.append_assoc, matchBody_lits up cb hcb b _ hM]
  simp only [Option.map_eq_some', Prod.mk.injEq, true_and] at h
  obtain ⟨r, hr, hr1, hr2⟩ := h
  have hR : R = a' ++ w := by
    have := suffixAlts_mem up _ _ (List.mem_of_find?_eq_some hr)
    rw [hr1, hr2] at this
    exact (List.append_cancel_left this)
  have hr' : (suffixAlts up (sf ++ (a' ++ w))).find? (fun r => lookaheadOk r.2) =
      some (sf, a' ++ w) := by
    rw [hr]
    congr 1
    exact Prod.ext hr1 (by rw [hr2, hR])
  rw [suffix_cut up sf a' w ha hv hr']
  rfl
/-- The loop on a text that holds, after `pre`, an occurrence of a one-word brand followed
by a suffix and a boundary: the loop replaces the occurrence and its suffix by the
replacement and resumes after the suffix.  The only other case is the brand `s`, whose
occurrence can be consumed as the suffix of an earlier match. -/
theorem suffixed_occurrence_aux (up : Char → Str) (cb : Str) (hne : cb ≠ [])
    (hcb : ∀ c ∈ cb, isAsciiAlnum c = true) (repl : Str) (n : Nat) :
    ∀ (s : Str), s.length ≤ n → ∀ (prev : Option Char),
      (∀ d, prev = some d → isAsciiAlnum d = false → isLineTerminator d = false →
        matchBody up (brandAtoms cb) s = none) →
      ∀ pre occ suf post : Str,
        s = pre ++ (occ ++ (suf ++ post)) →
        sameIgnoringCase cb occ → suf ≠ [] → (suf, post) ∈ suffixAlts up (suf ++ post) →
        lookaheadOk post = true →
        (∀ c, pre.getLast? = some c → isAsciiAlnum c = false) →
        (pre = [] → ∀ d, prev = some d → isAsciiAlnum d = false) →
        rewriteFrom up (brandAtoms cb) repl prev s =
            rewriteFrom up (brandAtoms cb) repl prev pre ++ repl ++
              rewriteFrom up (brandAtoms cb) repl suf.getLast? post ∨
        (sameIgnoringCase cb "s".toList ∧
          (repl.length ≤ cb.length →
            (rewriteFrom up (brandAtoms cb) repl prev s).length < s.length)) := by
  have has := brandAtoms_ne_nil cb hne
  have hsp := spacesOk_alnum cb hcb
  induction n with
  | zero =>
    intro s hs prev _ pre occ suf post hs2 hocc _ _ _ _ _
    exfalso
    have hl := congrArg List.length hs2
    simp only [List.length_append] at hl
    exact same_ne_nil cb occ hne hocc (List.length_eq_zero.mp (by omega))
  | succ n ih =>
    intro s hs prev hinv pre occ suf post hs2 hocc hsne hsuf hl hpre hpre0
    have hbody := matchBody_suffix_alt up cb hsp occ hocc suf post hsuf hsne hl
    have hocca := alnum_of_same cb occ hcb hocc
    cases pre with
    | nil =>
      simp only [List.nil_append] at hs2
      subst hs2
      by_cases hls : atLineStart prev = true
      · have hex := execAt_of_start up _ prev _ _ hls hbody
        left
        rw [rewriteFrom_some up _ has repl prev _ _ hex, rewriteFrom_nil up _ has]
        simp only [List.nil_append]
        rw [List.getLast?_append_of_ne_nil _ hsne]
      · exfalso
        cases prev with
        | none => exact hls rfl
        | some d =>
          have hd := hpre0 rfl d rfl
          have hlt : isLineTerminator d = false := by simpa [atLineStart] using hls
          have := hinv d rfl hd hlt
          rw [hbody] at this
          exact Option.noConfusion this
    | cons c pre' =>
      simp only [List.cons_append] at hs2
      subst hs2
      cases hm : execAt up (brandAtoms cb) prev (c :: (pre' ++ (occ ++ (suf ++ post)))) with
      | none =>
        rw [rewriteFrom_none up _ repl prev c _ hm]
        have hn := (execAt_eq_none_iff up _ prev c _).mp hm
        have hpre' : ∀ x, pre'.getLast? = some x → isAsciiAlnum x = false := by
          intro x hx
          cases pre' with
          | nil => simp at hx
          | cons y u => exact hpre x (by rw [List.getLast?_cons_cons]; exact hx)
        have := ih _ (by simpa using hs) (some c)
          (fun d hd hda _ => by
            simp only [Option.some.injEq] at hd
            subst hd
            exact hn.2 hda)
          pre' occ suf post rfl hocc hsne hsuf hl hpre'
          (fun h0 d hd => by
            simp only [Option.some.injEq] at hd
            subst hd
            subst h0
            exact hpre c rfl)
        have hnp : execAt up (brandAtoms cb) prev (c :: pre') = none := by
          rw [execAt_eq_none_iff]
          refine ⟨fun hb => ?_, fun hc => ?_⟩
          · exact matchBody_cut_none up cb hne hcb (c :: pre') _ hpre (hn.1 hb)
          · cases pre' with
            | nil => exact matchBody_at_nil up cb hne hcb
            | cons y u => exact matchBody_cut_none up cb hne hcb (y :: u) _ hpre' (hn.2 hc)
        rcases this with e1 | ⟨e1, e2⟩
        · left
          rw [e1, rewriteFrom_none up _ repl prev c _ hnp]
          simp only [List.cons_append, List.append_assoc]
        · right
          refine ⟨e1, fun h => ?_⟩
          have := e2 h
          simp only [List.length_cons]
          omega
      | some m =>
        obtain ⟨h1, h3l, h3, _⟩ := execAt_some up _ prev _ m hm
        obtain ⟨pl, hpl, hpla⟩ := match_last_alnum up cb hne hcb prev _ m hm
        obtain ⟨_, _, hlen⟩ := execAt_consumed up _ has prev _ m hm
        obtain ⟨_, hsfm, _, hfull⟩ := execAt_some_full up _ prev _ m hm
        have hbr : ∀ x ∈ m.brand, isAsciiAlnum x = true := by
          rcases execAt_some_body up _ prev _ m hm with ⟨_, _, hb⟩ | ⟨c0, t, _, _, _, hb⟩
          · exact matchAtoms_brand_alnum up cb hcb _ _ (matchBody_some_mem up _ _ _ hb).1
          · exact matchAtoms_brand_alnum up cb hcb _ _ (matchBody_some_mem up _ _ _ hb).1
        rw [brandAtoms_length] at h3
        have hbne : m.brand ≠ [] := by
          intro h0
          rw [h0] at h3
          have := List.length_pos.mpr hne
          simp only [List.length_nil] at h3
          omega
        have hl1 := congrArg List.length h1
        simp only [List.length_append, List.length_cons] at hl1
        rw [rewriteFrom_some up _ has repl prev _ m hm, hpl]
        have hsplit : (m.left ++ m.brand ++ m.suffix) ++ m.rest =
            (c :: pre') ++ (occ ++ (suf ++ post)) := by rw [h1]; rfl
        rcases List.append_eq_append_iff.mp hsplit with ⟨a', ha1, ha2⟩ | ⟨c', hc1, hc2⟩
        · by_cases ha0 : a' = []
          · exfalso
            subst ha0
            simp only [List.append_nil] at ha1
            have := hpre pl (by rw [ha1]; exact hpl)
            rw [hpla] at this
            exact Bool.noConfusion this
          · have hprea : ∀ x, a'.getLast? = some x → isAsciiAlnum x = false := by
              intro x hx
              exact hpre x (by rw [ha1, List.getLast?_append_of_ne_nil _ ha0]; exact hx)
            have := ih m.rest (by simp only [List.length_cons] at hs hlen; omega) (some pl)
              (fun d hd hda _ => by
                simp only [Option.some.injEq] at hd
                subst hd
                rw [hpla] at hda
                exact Bool.noConfusion hda)
              a' occ suf post ha2 hocc hsne hsuf hl hprea (fun h0 => absurd h0 ha0)
            have hl2 := congrArg List.length ha1
            simp only [List.length_append, List.length_cons] at hl2
            have hexp : execAt up (brandAtoms cb) prev (c :: pre') =
                some ⟨m.left, m.brand, m.suffix, a'⟩ := by
              rcases execAt_some_body up _ prev _ m hm with
                ⟨hl0, hls, hb⟩ | ⟨c0, t, hst, hl0, hc0a, hb⟩
              · rw [hl0, List.nil_append] at ha1
                have hb' : matchBody up (brandAtoms cb)
                    ((c :: pre') ++ (occ ++ (suf ++ post))) =
                    some (m.brand, m.suffix, m.rest) := hb
                have := matchBody_cut_some up cb hcb _ _ _ _ _ a' hb' ha1 ha0 hprea
                rw [hl0]
                exact execAt_of_start up _ prev _ _ hls this
              · simp only [List.cons.injEq] at hst
                obtain ⟨hcc, hst⟩ := hst
                subst hcc
                rw [hl0] at ha1
                simp only [List.singleton_append, List.cons_append, List.cons.injEq,
                  true_and] at ha1
                rw [← hst] at hb
                have := matchBody_cut_some up cb hcb _ _ _ _ _ a' hb ha1 ha0 hprea
                rw [hl0]
                apply execAt_of_char up _ prev c pre' _ ?_ hc0a this
                intro hls
                rcases hfull with ⟨hl00, _, _⟩ | ⟨c1, _, _, _, hno⟩
                · rw [hl0] at hl00
                  exact absurd hl00 (by simp)
                · exact matchBody_cut_none up cb hne hcb (c :: pre') _ hpre (hno hls)
            rcases this with e1 | ⟨e1, e2⟩
            · left
              rw [e1, rewriteFrom_some up _ has repl prev _ _ hexp]
              dsimp only
              rw [hpl]
              simp only [List.append_assoc]
            · right
              refine ⟨e1, fun h => ?_⟩
              have := e2 h
              simp only [List.length_append, List.length_cons]
              omega
        · by_cases hc0 : c' = []
          · exfalso
            subst hc0
            simp only [List.append_nil] at hc1
            have := hpre pl (by rw [← hc1]; exact hpl)
            rw [hpla] at this
            exact Bool.noConfusion this
          · rcases List.append_eq_append_iff.mp hc1 with ⟨a2, hb1, hb2⟩ | ⟨c2, hb1, hb2⟩
            · by_cases ha2 : a2 = []
              · exfalso
                subst ha2
                simp only [List.append_nil] at hb1
                exact boundary_not_alnum_end (c :: pre') m.brand m.left hbr hbne hb1 hpre
              · right
                have hc'len : 0 < c'.length := List.length_pos.mpr hc0
                have ha2len : 0 < a2.length := List.length_pos.mpr ha2
                have hsl := congrArg List.length hb2
                simp only [List.length_append] at hsl
                rcases suffixAlts_shape up _ _ hsfm with e | ⟨x, e, hx⟩ | ⟨a, x, e, ha, hx⟩
                · simp only at e
                  rw [e] at hsl
                  simp only [List.length_nil] at hsl
                  omega
                · simp only at e
                  rw [e] at hsl
                  simp only [List.length_singleton] at hsl
                  omega
                · simp only at e
                  have hc'x : c' = [x] := by
                    rw [e] at hb2
                    cases a2 with
                    | nil => exact absurd rfl ha2
                    | cons y u =>
                      cases u with
                      | nil =>
                        simp only [List.cons_append, List.nil_append, List.cons.injEq] at hb2
                        exact hb2.2.symm
                      | cons z v =>
                        exfalso
                        have := congrArg List.length hb2
                        simp only [List.length_cons, List.length_append, List.length_nil] at this
                        omega
                  subst hc'x
                  cases occ with
                  | nil => exact absurd rfl (same_ne_nil cb _ hne hocc)
                  | cons o occ' =>
                    simp only [List.cons_append, List.nil_append, List.cons.injEq] at hc2
                    obtain ⟨hox, hrest⟩ := hc2
                    subst hox
                    cases occ' with
                    | cons o2 u =>
                      exfalso
                      rw [← hrest] at h3l
                      have := hocca o2 (by simp)
                      simp [lookaheadOk, this] at h3l
                    | nil =>
                      refine ⟨same_s_of_single up cb o hocc hx, fun h => ?_⟩
                      have hr := rewrite_le up _ has repl (by rw [brandAtoms_length]; exact h)
                        m.rest.length m.rest (Nat.le_refl _) (some pl)
                      rw [e] at hl1
                      simp only [List.length_append, List.length_cons, List.length_nil] at hl1 ⊢
                      omega
            · by_cases hc20 : c2 = []
              · exfalso
                subst hc20
                simp only [List.append_nil] at hb1
                exact boundary_not_alnum_end (c :: pre') m.brand m.left hbr hbne hb1.symm hpre
              · rcases execAt_some_body up _ prev _ m hm with
                  ⟨hl0, _, _⟩ | ⟨c0, t, hst, hl0, _, hb⟩
                · exfalso
                  rw [hl0] at hb1
                  simp only [List.nil_append] at hb1
                  exact boundary_not_inside (c :: pre') m.brand c2 hbr (by simp) hb1 hpre
                · rw [hl0] at hb1
                  simp only [List.singleton_append, List.cons_append, List.cons.injEq] at hb1
                  obtain ⟨hcc, hb1⟩ := hb1
                  subst hcc
                  cases pre' with
                  | cons y u =>
                    exfalso
                    exact boundary_not_inside (y :: u) m.brand c2 hbr (by simp) hb1
                      (fun x hx => hpre x (by rw [List.getLast?_cons_cons]; exact hx))
                  | nil =>
                    simp only [List.nil_append, List.cons.injEq, true_and] at hst
                    rw [← hst, hbody] at hb
                    simp only [Option.some.injEq, Prod.mk.injEq] at hb
                    obtain ⟨_, hsf, hrs⟩ := hb
                    left
                    have hnp : execAt up (brandAtoms cb) prev [c0] = none := by
                      rw [execAt_eq_none_iff]
                      refine ⟨fun hls => ?_, fun _ => matchBody_at_nil up cb hne hcb⟩
                      rcases hfull with ⟨hl00, _, _⟩ | ⟨c1, _, _, _, hno⟩
                      · rw [hl0] at hl00
                        exact absurd hl00 (by simp)
                      · exact matchBody_cut_none up cb hne hcb [c0] _ hpre (hno hls)
                    rw [rewriteFrom_none up _ repl prev c0 [] hnp, rewriteFrom_nil up _ has]
                    rw [hl0, ← hrs]
                    rw [← hsf, List.getLast?_append_of_ne_nil _ hsne] at hpl
                    rw [hpl]
/-! ## Consequences for texts and documents -/

theorem topStrings_mono (P Q : Str → Prop) (hPQ : ∀ s, P s → Q s) (D : Doc)
    (h : topStrings P D) : topStrings Q D := by
  cases D with
  | obj fields => exact fun kv hkv s hs => hPQ s (h kv hkv s hs)
  | arr items => exact fun d hd s hs => hPQ s (h d hd s hs)
  | _ => trivial

theorem normalized_alnum (cb : Str) (hcb : ∀ c ∈ cb, isAsciiAlnum c = true) :
    Normalized cb := by
  refine ⟨spacesOk_alnum cb hcb, ?_⟩
  intro c hc
  cases cb with
  | nil => simp at hc
  | cons y u =>
    simp only [List.head?_cons, Option.some.injEq] at hc
    subst hc
    exact not_ws_of_alnum _ (hcb _ (by simp))

theorem same_length (s t : Str) (h : sameIgnoringCase s t) : s.length = t.length := by
  have := congrArg List.length h
  simpa using this

/-- In a text, an occurrence of a one-word brand other than `s`, delimited on the left and
followed by a suffix and a boundary, is replaced with its suffix by the replacement; what
precedes it and what follows the suffix are rewritten on their own. -/
theorem suffix_dropped (up : Char → Str) (cb : Str) (hne : cb ≠ [])
    (hcb : ∀ c ∈ cb, isAsciiAlnum c = true) (hS : ¬ sameIgnoringCase cb "s".toList)
    (repl pre occ suf post : Str) (hocc : sameIgnoringCase cb occ)
    (hpre : ∀ c, pre.getLast? = some c → isAsciiAlnum c = false) (hsne : suf ≠ [])
    (hsuf : (suf, post) ∈ suffixAlts up (suf ++ post)) (hl : lookaheadOk post = true) :
    rewriteFrom up (brandAtoms cb) repl none (pre ++ (occ ++ (suf ++ post))) =
        rewriteFrom up (brandAtoms cb) repl none pre ++ repl ++
          rewriteFrom up (brandAtoms cb) repl suf.getLast? post ∧
      (rewriteFrom up (brandAtoms cb) repl suf.getLast? post).head? = post.head? := by
  constructor
  · rcases suffixed_occurrence_aux up cb hne hcb repl _ _ (Nat.le_refl _) none
      (fun d hd => Option.noConfusion hd) pre occ suf post rfl hocc hsne hsuf hl hpre
      (fun _ d hd => Option.noConfusion hd) with h | ⟨h, _⟩
    · exact h
    · exact absurd h hS
  · apply rewriteFrom_head up _ (brandAtoms_ne_nil cb hne)
    rcases suffixAlts_shape up _ _ hsuf with e | ⟨x, e, hx⟩ | ⟨a, x, e, _, hx⟩
    · exact absurd e hsne
    · simp only at e
      rw [e]
      exact not_lineTerminator_of_alnum x (charMatches_alnum up 's' x (by decide) hx)
    · simp only at e
      rw [e]
      exact not_lineTerminator_of_alnum x (charMatches_alnum up 's' x (by decide) hx)

/-- A text that the rewrite leaves unchanged holds no occurrence of the one-word brand that
is delimited on the left and followed by a suffix and a boundary. -/
theorem no_suffixed_occurrence (up : Char → Str) (cb : Str) (hne : cb ≠ [])
    (hcb : ∀ c ∈ cb, isAsciiAlnum c = true) (t : Str)
    (hfix : rewriteText up (some cb) cb t = t) (pre occ suf post : Str)
    (ht : t = pre ++ occ ++ suf ++ post) (hocc : sameIgnoringCase cb occ)
    (hpre : ∀ c, pre.getLast? = some c → isAsciiAlnum c = false) (hsne : suf ≠ [])
    (hsuf : (suf, post) ∈ suffixAlts up (suf ++ post)) (hl : lookaheadOk post = true) :
    False := by
  have has := brandAtoms_ne_nil cb hne
  rw [rewriteText_normalized up cb (normalized_alnum cb hcb) hne] at hfix
  have ht2 : t = pre ++ (occ ++ (suf ++ post)) := by rw [ht]; simp only [List.append_assoc]
  have hlen := congrArg List.length hfix
  have hsl : 0 < suf.length := List.length_pos.mpr hsne
  have hle : ∀ (p : Option Char) (x : Str),
      (rewriteFrom up (brandAtoms cb) cb p x).length ≤ x.length := fun p x =>
    rewrite_le up _ has cb (by rw [brandAtoms_length]) _ x (Nat.le_refl _) p
  rcases suffixed_occurrence_aux up cb hne hcb cb _ t (Nat.le_refl _) none
      (fun d hd => Option.noConfusion hd) pre occ suf post ht2 hocc hsne hsuf hl hpre
      (fun _ d hd => Option.noConfusion hd) with h | ⟨_, h⟩
  · rw [h] at hlen
    have h1 := hle none pre
    have h2 := hle suf.getLast? post
    have h3 := same_length cb occ hocc
    rw [ht2] at hlen
    simp only [List.length_append] at hlen
    omega
  · have := h (Nat.le_refl _)
    omega

mutual
theorem allStrings_walk_of (up : Char → Str) (rx : List Atom) (hrx : rx ≠ []) (cb : Str)
    (P Q : Str → Prop) (hPQ : ∀ s, P s → Q (replaceBrand up rx cb s)) :
    ∀ d : Doc, allStrings P d → allStrings Q (walk up rx cb d)
  | Doc.null => by simp [walk, allStrings]
  | Doc.bool b => by simp [walk, allStrings]
  | Doc.num n => by simp [walk, allStrings]
  | Doc.str s => by
    intro h
    simp only [allStrings] at h
    by_cases hs : s = []
    · subst hs
      have := hPQ [] h
      rw [replaceBrand_nil up rx hrx] at this
      simpa [walk, allStrings] using this
    · simpa [walk, allStrings, hs] using hPQ s h
  | Doc.arr items => by
    intro h
    simp only [allStrings] at h
    simp only [walk, allStrings]
    exact allStringsItems_walk_of up rx hrx cb P Q hPQ items h
  | Doc.obj fields => by
    intro h
    simp only [allStrings] at h
    simp only [walk, allStrings]
    exact allStringsFields_walk_of up rx hrx cb P Q hPQ fields h

theorem allStringsItems_walk_of (up : Char → Str) (rx : List Atom) (hrx : rx ≠ []) (cb : Str)
    (P Q : Str → Prop) (hPQ : ∀ s, P s → Q (replaceBrand up rx cb s)) :
    ∀ ds : List Doc, allStringsItems P ds → allStringsItems Q (walkItems up rx cb ds)
  | [] => by simp [walkItems, allStringsItems]
  | d :: ds => by
    intro h
    simp only [allStringsItems] at h
    simp only [walkItems, allStringsItems]
    exact ⟨allStrings_walk_of up rx hrx cb P Q hPQ d h.1,
      allStringsItems_walk_of up rx hrx cb P Q hPQ ds h.2⟩

theorem allStringsFields_walk_of (up : Char → Str) (rx : List Atom) (hrx : rx ≠ []) (cb : Str)
    (P Q : Str → Prop) (hPQ : ∀ s, P s → Q (replaceBrand up rx cb s)) :
    ∀ ds : List (Str × Doc), allStringsFields P ds →
      allStringsFields Q (walkFields up rx cb ds)
  | [] => by simp [walkFields, allStringsFields]
  | kv :: ds => by
    intro h
    simp only [allStringsFields] at h
    simp only [walkFields, allStringsFields]
    exact ⟨allStrings_walk_of up rx hrx cb P Q hPQ kv.2 h.1,
      allStringsFields_walk_of up rx hrx cb P Q hPQ ds h.2⟩
end

theorem enforce_string_error (up : Char → Str) (raw : Option Str) (s : Str) (hs : s ≠ [])
    (hne : canonicalizeBrand up raw ≠ []) :
    enforceCanonicalBrand up (Doc.str s) raw = .error .typeError := by
  have hn : normalizeSpaces raw ≠ [] := by
    intro h0
    rw [canonicalizeBrand_eq, if_pos h0] at hne
    exact hne rfl
  simp [enforceCanonicalBrand, hne, replaceBrandEverywhere, buildBrandRegex_eq, hn, hs]

/-- When no match in a string of the document is directly followed by an apostrophe, the
three passes return the swept document, and each of its strings is left unchanged by a
further rewrite and holds the canonical brand, without suffix, wherever the matcher finds
the brand. -/
theorem enforce_clear (up : Char → Str) (hup : SpaceStable up) (raw : Option Str)
    (doc out : Doc) (hne : canonicalizeBrand up raw ≠ [])
    (hreg : resolverRegular up (normalizeSpaces raw) = true)
    (hdoc : allStrings (fun t => noStackedSuffix up (canonicalizeBrand up raw) t = true) doc)
    (h : enforceCanonicalBrand up doc raw = .ok out) :
    allStrings (fun t =>
      rewriteText up (some (canonicalizeBrand up raw)) (canonicalizeBrand up raw) t = t ∧
        ∀ m ∈ scanMatches up (canonicalizeBrand up raw) t,
          m.brand = canonicalizeBrand up raw ∧ m.suffix = []) out := by
  have hB := regular_normalized up raw hreg
  have hb := isBlank_normalized _ hB hne
  have hrx := brandAtoms_ne_nil _ (normalizeSpaces_ne_nil _ hb)
  by_cases hD : ∀ s, doc = Doc.str s → s = []
  · have h1 := (passes_equiv up raw doc hne hreg hD).mpr
      (topStrings_mono _ _ (fun s hs =>
        (rewriteText_thrice up hup _ hB hne s).mpr (rewriteText_clear up hup _ hB hne s hs))
        doc (allStrings_top _ doc hdoc))
    rw [h1, force_eq up _ _ hb] at h
    simp only [Except.ok.injEq] at h
    rw [← h]
    apply allStrings_walk_of up _ hrx _ _ _ ?_ doc hdoc
    intro s hs
    rw [← rewriteText_eq up _ hb]
    have hsf := rewriteText_clear up hup _ hB hne s hs
    have hst := rewriteText_stable up hup _ hB hne s
    refine ⟨hst.1.mpr hsf, fun m hm => ⟨hst.2 hsf m hm, ?_⟩⟩
    simp only [suffixFree, List.all_eq_true, List.isEmpty_eq_true] at hsf
    exact hsf m hm
  · exfalso
    simp only [not_forall] at hD
    obtain ⟨s, hs1, hs2⟩ := hD
    rw [hs1, enforce_string_error up raw s hs2 hne] at h
    exact Except.noConfusion h
mutual
theorem allStrings_and (P Q : Str → Prop) :
    ∀ d : Doc, allStrings P d → allStrings Q d → allStrings (fun s => P s ∧ Q s) d
  | Doc.null => by simp [allStrings]
  | Doc.bool b => by simp [allStrings]
  | Doc.num n => by simp [allStrings]
  | Doc.str s => by simp only [allStrings]; exact fun h1 h2 => ⟨h1, h2⟩
  | Doc.arr items => by simp only [allStrings]; exact allStringsItems_and P Q items
  | Doc.obj fields => by simp only [allStrings]; exact allStringsFields_and P Q fields

theorem allStringsItems_and (P Q : Str → Prop) :
    ∀ ds : List Doc, allStringsItems P ds → allStringsItems Q ds →
      allStringsItems (fun s => P s ∧ Q s) ds
  | [] => by simp [allStringsItems]
  | d :: ds => by
    simp only [allStringsItems]
    exact fun h1 h2 => ⟨allStrings_and P Q d h1.1 h2.1, allStringsItems_and P Q ds h1.2 h2.2⟩

theorem allStringsFields_and (P Q : Str → Prop) :
    ∀ ds : List (Str × Doc), allStringsFields P ds → allStringsFields Q ds →
      allStringsFields (fun s => P s ∧ Q s) ds
  | [] => by simp [allStringsFields]
  | kv :: ds => by
    simp only [allStringsFields]
    exact fun h1 h2 =>
      ⟨allStrings_and P Q kv.2 h1.1 h2.1, allStringsFields_and P Q ds h1.2 h2.2⟩
end
/-- What follows a match found in a text is an end of that text. -/
theorem scan_rest_suffix (up : Char → Str) (as : List Atom) (has : as ≠ []) (n : Nat) :
    ∀ (s : Str), s.length ≤ n → ∀ (prev : Option Char),
      ∀ m ∈ scanFrom up as prev s, ∃ u, s = u ++ m.rest := by
  induction n with
  | zero =>
    intro s hs prev m hm
    have : s = [] := List.length_eq_zero.mp (by omega)
    subst this
    rw [scanFrom_nil up _ has] at hm
    simp at hm
  | succ n ih =>
    intro s hs prev m hm
    cases hx : execAt up as prev s with
    | none =>
      cases s with
      | nil =>
        rw [scanFrom_nil up _ has] at hm
        simp at hm
      | cons c t =>
        rw [scanFrom_none up _ prev c t hx] at hm
        obtain ⟨u, hu⟩ := ih t (by simpa using hs) (some c) m hm
        exact ⟨c :: u, by rw [hu]; rfl⟩
    | some m0 =>
      obtain ⟨h1, _, _, _⟩ := execAt_some up _ prev s m0 hx
      obtain ⟨_, _, hlen⟩ := execAt_consumed up _ has prev s m0 hx
      rw [scanFrom_some up _ has prev s m0 hx] at hm
      rcases List.mem_cons.mp hm with rfl | hm2
      · exact ⟨_, h1.symm⟩
      · obtain ⟨u, hu⟩ := ih m0.rest (by omega) _ m hm2
        refine ⟨m0.left ++ m0.brand ++ m0.suffix ++ u, ?_⟩
        rw [List.append_assoc, ← hu, h1]

/-- In a text without apostrophe no match is followed by an apostrophe. -/
theorem clear_of_noApostrophe (up : Char → Str) (B : Str) (hne : B ≠ []) (t : Str)
    (h : noApostrophe up t) : noStackedSuffix up B t = true := by
  simp only [noStackedSuffix, List.all_eq_true]
  intro m hm
  obtain ⟨u, hu⟩ := scan_rest_suffix up _ (brandAtoms_ne_nil B hne) _ t (Nat.le_refl _) none m hm
  cases hr : m.rest with
  | nil => simp [restClear, hr]
  | cons a r =>
    have : isApostrophe up a = false := h a (by rw [hu, hr]; simp)
    simp [restClear, hr, this]

/-- Each plural or possessive ending is matched by an alternative of the suffix group. -/
theorem suffixTexts_alt (up : Char → Str) (suf post : Str) (h : suf ∈ suffixTexts) :
    suf ≠ [] ∧ (suf, post) ∈ suffixAlts up (suf ++ post) := by
  have c1 : charMatches up 's' 'S' = true := by
    rw [charMatches_ascii up _ _ (by decide) (by decide)]; decide
  have c2 : charMatches up 's' 's' = true := charMatches_self up _
  have c3 : charMatches up (Char.ofNat 39) (Char.ofNat 39) = true := charMatches_self up _
  have c4 : charMatches up '’' '’' = true := charMatches_self up _
  have p1 : "'s".toList = [Char.ofNat 39, 's'] := by decide
  have p2 : "’s".toList = ['’', 's'] := by decide
  have p3 : "s".toList = ['s'] := by decide
  have p4 : "'S".toList = [Char.ofNat 39, 'S'] := by decide
  have p5 : "’S".toList = ['’', 'S'] := by decide
  have p6 : "S".toList = ['S'] := by decide
  simp only [suffixTexts, List.mem_cons, List.mem_singleton, List.not_mem_nil, or_false] at h
  rcases h with rfl | rfl | rfl | rfl | rfl | rfl
  · exact ⟨by decide, by simp [suffixAlts, suffixPatterns, p1, p2, p3, matchLiteral, c2, c3]⟩
  · exact ⟨by decide, by simp [suffixAlts, suffixPatterns, p1, p2, p3, matchLiteral, c2, c4]⟩
  · exact ⟨by decide, by simp [suffixAlts, suffixPatterns, p1, p2, p3, matchLiteral, c2]⟩
  · exact ⟨by decide,
      by simp [suffixAlts, suffixPatterns, p1, p2, p3, p4, matchLiteral, c1, c3]⟩
  · exact ⟨by decide,
      by simp [suffixAlts, suffixPatterns, p1, p2, p3, p5, matchLiteral, c1, c4]⟩
  · exact ⟨by decide, by simp [suffixAlts, suffixPatterns, p1, p2, p3, p6, matchLiteral, c1]⟩

theorem suffixTexts_last (suf : Str) (h : suf ∈ suffixTexts) :
    atLineStart suf.getLast? = false := by
  simp only [suffixTexts, List.mem_cons, List.mem_singleton, List.not_mem_nil, or_false] at h
  rcases h with rfl | rfl | rfl | rfl | rfl | rfl <;> decide

/-! ## C1 and C14 -/

/-- C1, amended.  Let `B` be a canonical brand, white-space normalized.  The sweep always
returns.  Rewriting a text twice with the matcher built from `B` gives the same string as
rewriting it once exactly when the text rewritten once holds no match that carries a suffix
`'s`, `’s` or `s`; this is the case as soon as no match of the original text is directly
followed by an apostrophe, and so for every text without apostrophe.  Sweeping the swept
document gives the swept document exactly when every string of the document meets that
condition; in particular when no match in a string of the document is directly followed by
an apostrophe, and so for every document whose strings hold no apostrophe. -/
theorem sweep_idempotent (up : Char → Str) (hup : SpaceStable up) (B : Str)
    (hB : Normalized B) :
    (B ≠ [] → ∀ t : Str,
      (rewriteText up (some B) B (rewriteText up (some B) B t) = rewriteText up (some B) B t ↔
        suffixFree up B (rewriteText up (some B) B t) = true)) ∧
    (∀ t : Str, noStackedSuffix up B t = true ∨ noApostrophe up t →
      rewriteText up (some B) B (rewriteText up (some B) B t) = rewriteText up (some B) B t) ∧
    (∀ D : Doc, ∃ out, forceBrandCanonicalEverywhere up D (some B) = .ok out ∧
      (B ≠ [] → (forceBrandCanonicalEverywhere up out (some B) = .ok out ↔
        allStrings (fun t => suffixFree up B (rewriteText up (some B) B t) = true) D))) ∧
    (∀ D : Doc, allStrings (fun t => noStackedSuffix up B t = true ∨ noApostrophe up t) D →
      ∃ out, forceBrandCanonicalEverywhere up D (some B) = .ok out ∧
        forceBrandCanonicalEverywhere up out (some B) = .ok out) := by
  have hclear : B ≠ [] → ∀ t : Str, noStackedSuffix up B t = true ∨ noApostrophe up t →
      suffixFree up B (rewriteText up (some B) B t) = true := by
    intro hne t ht
    rcases ht with h | h
    · exact rewriteText_clear up hup B hB hne t h
    · exact rewriteText_clear up hup B hB hne t (clear_of_noApostrophe up B hne t h)
  refine ⟨fun hne t => (rewriteText_stable up hup B hB hne t).1, ?_, ?_, ?_⟩
  · intro t ht
    by_cases hne : B = []
    · subst hne
      simp only [rewriteText_blank up (some []) [] _ (by decide)]
    · exact (rewriteText_stable up hup B hB hne t).1.mpr (hclear hne t ht)
  · intro D
    by_cases hne : B = []
    · subst hne
      exact ⟨D, blank_inert_aux up _ (by decide) D, fun h => absurd rfl h⟩
    · obtain ⟨out, h1, h2⟩ := force_twice up hup B hB hne D
      exact ⟨out, h1, fun _ => h2⟩
  · intro D hD
    by_cases hne : B = []
    · subst hne
      exact ⟨D, blank_inert_aux up _ (by decide) D, blank_inert_aux up _ (by decide) D⟩
    · obtain ⟨out, h1, h2⟩ := force_twice up hup B hB hne D
      refine ⟨out, h1, h2.mpr ?_⟩
      exact allStrings_mono _ _ (fun s hs => hclear hne s hs) D hD

set_option maxRecDepth 100000 in
/-- Witness of the amended C1 for the brand `H&M` on a document with nested strings, one of
them with a possessive and an apostrophe that follows no match. -/
theorem sweep_idempotent_witness :
    ∃ out,
      forceBrandCanonicalEverywhere sampleUpper
          (Doc.obj [("title".toList, Doc.str "h&m's bag, don't miss".toList),
            ("tags".toList, Doc.arr [Doc.str "H&Ms and h&m".toList, Doc.num 3])])
          (some "H&M".toList) = .ok out ∧
        forceBrandCanonicalEverywhere sampleUpper out (some "H&M".toList) = .ok out :=
  (sweep_idempotent sampleUpper sampleUpper_spaceStable "H&M".toList
    ⟨by decide, fun c hc => by
      simp only [String.toList, List.head?_cons, Option.some.injEq] at hc
      subst hc
      decide⟩).2.2.2
    (Doc.obj [("title".toList, Doc.str "h&m's bag, don't miss".toList),
      ("tags".toList, Doc.arr [Doc.str "H&Ms and h&m".toList, Doc.num 3])])
    (by
      simp only [allStrings, allStringsFields, allStringsItems, and_true]
      exact ⟨Or.inl (by decide), Or.inl (by decide)⟩)

set_option maxRecDepth 100000 in
/-- C14, as stated, fails in three ways.  With the raw brand `nike` and the value
`nike's's`, the three passes give `Nike` while the sweep alone gives `Nike's`: each pass
removes one suffix.  With the raw brand `ßeta`, whose canonical form is `SSeta`, the first
pass rewrites the text `ßeta boots` while the sweep alone, whose matcher is built from
`SSeta`, leaves it as it is.  On a document that is a non-empty string the targeted pass
throws, while the sweep alone rewrites the string. -/
theorem targeted_passes_redundant_counterexample :
    enforceCanonicalBrand sampleUpper (Doc.obj [("title".toList, Doc.str "nike's's".toList)])
        (some "nike".toList) = .ok (Doc.obj [("title".toList, Doc.str "Nike".toList)]) ∧
      forceBrandCanonicalEverywhere sampleUpper
        (Doc.obj [("title".toList, Doc.str "nike's's".toList)])
        (some (canonicalizeBrand sampleUpper (some "nike".toList))) =
          .ok (Doc.obj [("title".toList, Doc.str "Nike's".toList)]) ∧
      enforceCanonicalBrand sampleUpper (Doc.obj [("title".toList, Doc.str "ßeta boots".toList)])
        (some "ßeta".toList) = .ok (Doc.obj [("title".toList, Doc.str "SSeta boots".toList)]) ∧
      forceBrandCanonicalEverywhere sampleUpper
        (Doc.obj [("title".toList, Doc.str "ßeta boots".toList)])
        (some (canonicalizeBrand sampleUpper (some "ßeta".toList))) =
          .ok (Doc.obj [("title".toList, Doc.str "ßeta boots".toList)]) ∧
      enforceCanonicalBrand sampleUpper (Doc.str "nike shoes".toList) (some "nike".toList) =
        .error .typeError ∧
      forceBrandCanonicalEverywhere sampleUpper (Doc.str "nike shoes".toList)
        (some (canonicalizeBrand sampleUpper (some "nike".toList))) =
          .ok (Doc.str "Nike shoes".toList) :=
  ⟨rfl, rfl, rfl, rfl, rfl, rfl⟩

/-- C14, amended.  Let the raw brand have a non-empty canonical brand `B` that the `i` flag
identifies with the normalized raw brand (`resolverRegular`: the raw brand holds an ASCII
capital, or no ASCII lower-case letter, or each word initial has a one-character upper-case
that the flag identifies with it), and let the document be anything but a non-empty string.
Then the three passes give the document that the sweep alone gives exactly when, for every
string that is a value of the object or an element of the array, the string rewritten once
holds no match that carries a suffix; this is the case as soon as no match in such a string
is directly followed by an apostrophe, and so when these strings hold no apostrophe. -/
theorem targeted_passes_redundant (up : Char → Str) (hup : SpaceStable up)
    (raw : Option Str) (D : Doc) (hne : canonicalizeBrand up raw ≠ [])
    (hreg : resolverRegular up (normalizeSpaces raw) = true)
    (hD : ∀ s, D = Doc.str s → s = []) :
    (enforceCanonicalBrand up D raw =
        forceBrandCanonicalEverywhere up D (some (canonicalizeBrand up raw)) ↔
      topStrings (fun s => suffixFree up (canonicalizeBrand up raw)
        (rewriteText up (some (canonicalizeBrand up raw)) (canonicalizeBrand up raw) s) =
          true) D) ∧
    (topStrings (fun s => noStackedSuffix up (canonicalizeBrand up raw) s = true ∨
        noApostrophe up s) D →
      enforceCanonicalBrand up D raw =
        forceBrandCanonicalEverywhere up D (some (canonicalizeBrand up raw))) := by
  have hB := regular_normalized up raw hreg
  have h1 := passes_equiv up raw D hne hreg hD
  constructor
  · rw [h1]
    constructor
    · exact topStrings_mono _ _ (fun s hs => (rewriteText_thrice up hup _ hB hne s).mp hs) D
    · exact topStrings_mono _ _ (fun s hs => (rewriteText_thrice up hup _ hB hne s).mpr hs) D
  · intro h
    rw [h1]
    refine topStrings_mono _ _ (fun s hs => ?_) D h
    apply (rewriteText_thrice up hup _ hB hne s).mpr
    rcases hs with hs | hs
    · exact rewriteText_clear up hup _ hB hne s hs
    · exact rewriteText_clear up hup _ hB hne s (clear_of_noApostrophe up _ hne s hs)

set_option maxRecDepth 100000 in
/-- Witness of the amended C14 for the raw brand ` émile  zola ` on an object with a
possessive, a plural and a nested array. -/
theorem targeted_passes_redundant_witness :
    enforceCanonicalBrand sampleUpper
        (Doc.obj [("title".toList, Doc.str "émile zola's books, ÉMILE  ZOLAs".toList),
          ("tags".toList, Doc.arr [Doc.str "émile zola's's".toList, Doc.num 3])])
        (some " émile  zola ".toList) =
      forceBrandCanonicalEverywhere sampleUpper
        (Doc.obj [("title".toList, Doc.str "émile zola's books, ÉMILE  ZOLAs".toList),
          ("tags".toList, Doc.arr [Doc.str "émile zola's's".toList, Doc.num 3])])
        (some (canonicalizeBrand sampleUpper (some " émile  zola ".toList))) :=
  (targeted_passes_redundant sampleUpper sampleUpper_spaceStable (some " émile  zola ".toList)
    (Doc.obj [("title".toList, Doc.str "émile zola's books, ÉMILE  ZOLAs".toList),
      ("tags".toList, Doc.arr [Doc.str "émile zola's's".toList, Doc.num 3])])
    (by decide) (by decide) (fun s h => Doc.noConfusion h)).2
    (by
      intro kv hkv s hs
      simp only [List.mem_cons, List.mem_singleton, List.not_mem_nil, or_false] at hkv
      rcases hkv with rfl | rfl
      · cases hs
        exact Or.inl (by decide)
      · cases hs)

/-! ## C2 and C3 -/

set_option maxRecDepth 100000 in
/-- C2, amended.  The suffix is matched together with the brand and the whole match is
replaced by the replacement alone.  For every brand and every text, the rewriting cuts the
text into the matches of the expression and the characters between them, and puts the
captured left boundary followed by the replacement in place of each match, wherever it
stands: the suffix of the match is dropped.  For every brand: in a text that starts with the
normalized brand (up to the case of its ASCII letters) followed by `'s`, `’s` or `s`, in
either letter case, and then by the end of the text or a character that is not alphanumeric, the rewritten text is
the replacement followed directly by the rewriting of what came after the suffix, which
starts with the same character.  For every brand that is one word of ASCII letters and
digits other than the letter `s`, the same holds wherever the occurrence stands: if `pre` is
empty or ends with a character that is not alphanumeric, the text `pre ++ occ ++ suf ++ post`
is rewritten to the rewriting of `pre`, the replacement, and the rewriting of `post`.  So `Nike's shoes` becomes `Nike shoes` and `Buy Nike's shoes`
becomes `Buy Nike shoes`.  The two restrictions are needed: with the brand `a-a` the text
`a-a-a's` becomes `A-a-a's`, because the second occurrence overlaps the first match; with
the brand `s` the text `s's's's` becomes `S'S`, because an occurrence is consumed as the
suffix of the match before it. -/
theorem possessive_suffix_is_removed :
    (∀ (up : Char → Str) (raw : Option Str) (repl text : Str), isBlank raw = false →
      ∃ ps, Segmented up (brandAtoms (normalizeSpaces raw)) none text ps ∧
        text = ps.flatMap pieceSource ∧
        rewriteText up raw repl text = ps.flatMap (pieceTarget repl)) ∧
    (∀ (up : Char → Str) (raw : Option Str) (occ suf post repl : Str),
      isBlank raw = false → sameIgnoringCase (normalizeSpaces raw) occ →
      suf ∈ suffixTexts → lookaheadOk post = true →
      rewriteText up raw repl (occ ++ suf ++ post) =
          repl ++ rewriteFrom up (brandAtoms (normalizeSpaces raw)) repl suf.getLast? post ∧
        (rewriteFrom up (brandAtoms (normalizeSpaces raw)) repl suf.getLast? post).head? =
          post.head?) ∧
    (∀ (up : Char → Str) (raw : Option Str) (pre occ suf post repl : Str),
      normalizeSpaces raw ≠ [] → (∀ c ∈ normalizeSpaces raw, isAsciiAlnum c = true) →
      ¬ sameIgnoringCase (normalizeSpaces raw) "s".toList →
      sameIgnoringCase (normalizeSpaces raw) occ →
      (∀ c, pre.getLast? = some c → isAsciiAlnum c = false) →
      suf ∈ suffixTexts → lookaheadOk post = true →
      rewriteText up raw repl (pre ++ occ ++ suf ++ post) =
          rewriteText up raw repl pre ++ repl ++
            rewriteFrom up (brandAtoms (normalizeSpaces raw)) repl suf.getLast? post ∧
        (rewriteFrom up (brandAtoms (normalizeSpaces raw)) repl suf.getLast? post).head? =
          post.head?) ∧
    (∀ up : Char → Str,
      rewriteText up (some "Nike".toList) "Nike".toList "Nike's shoes".toList =
          "Nike shoes".toList ∧
        rewriteText up (some "Nike".toList) "Nike".toList "Buy Nike's shoes".toList =
          "Buy Nike shoes".toList) ∧
    (rewriteText sampleUpper (some "a-a".toList) "A-a".toList "a-a-a's".toList =
        "A-a-a's".toList ∧
      rewriteText sampleUpper (some "s".toList) "S".toList "s's's's".toList = "S'S".toList) := by
  refine ⟨?_, ?_, ?_, ?_, by decide, by decide⟩
  · intro up raw repl text h
    obtain ⟨ps, h1, h2, h3⟩ := rewriteFrom_segmented up _
      (brandAtoms_ne_nil _ (normalizeSpaces_ne_nil raw h)) repl text.length text (Nat.le_refl _)
      none
    exact ⟨ps, h1, h2, by rw [rewriteText_eq up raw h, replaceBrand_eq, h3]⟩
  · intro up raw occ suf post repl h hocc hsuf hpost
    have hne := normalizeSpaces_ne_nil raw h
    have has := brandAtoms_ne_nil _ hne
    obtain ⟨hsne, hsufa⟩ := suffixTexts_alt up suf post hsuf
    have hb := matchBody_suffix_alt up _ (normalizeSpaces_normalized raw).1 occ hocc suf post
      hsufa hsne hpost
    have hm : execAt up (brandAtoms (normalizeSpaces raw)) none (occ ++ (suf ++ post)) =
        some ⟨[], occ, suf, post⟩ := by
      simp [execAt, atLineStart, hb]
    refine ⟨?_, rewriteFrom_head up _ has repl suf.getLast? (suffixTexts_last suf hsuf) post⟩
    rw [rewriteText_eq up raw h, replaceBrand_eq, List.append_assoc,
      rewriteFrom_some up _ has repl none _ _ hm]
    simp only [List.nil_append]
    rw [List.getLast?_append_of_ne_nil _ hsne]
  · intro up raw pre occ suf post repl hne hcb hS hocc hpre hsuf0 hl
    obtain ⟨hsne, hsuf⟩ := suffixTexts_alt up suf post hsuf0
    have hb : isBlank raw = false := by
      cases h : isBlank raw with
      | false => rfl
      | true => exact absurd (normalizeSpaces_blank raw h) hne
    have := suffix_dropped up _ hne hcb hS repl pre occ suf post hocc hpre hsne hsuf hl
    simp only [rewriteText_eq up raw hb, replaceBrand_eq, List.append_assoc] at this ⊢
    exact this
  · intro up
    have hb : isBlank (some "Nike".toList) = false := by decide
    have hn : normalizeSpaces (some "Nike".toList) = "Nike".toList := by decide
    simp only [rewriteText_eq up _ hb, hn]
    exact ⟨replaceBrand_ascii_eval up _ _ _ _ (by decide) (by decide),
      replaceBrand_ascii_eval up _ _ _ _ (by decide) (by decide)⟩

set_option maxRecDepth 100000 in
/-- Witness of the amended C2 on the text `Buy NIKE’S, now` with the raw brand ` nike `. -/
theorem possessive_suffix_is_removed_witness :
    rewriteText sampleUpper (some " nike ".toList) "Nike".toList
        ("Buy ".toList ++ "NIKE".toList ++ "’S".toList ++ ", now".toList) =
      rewriteText sampleUpper (some " nike ".toList) "Nike".toList "Buy ".toList ++
        "Nike".toList ++
        rewriteFrom sampleUpper (brandAtoms (normalizeSpaces (some " nike ".toList)))
          "Nike".toList "’S".toList.getLast? ", now".toList :=
  (possessive_suffix_is_removed.2.2.1 sampleUpper (some " nike ".toList) "Buy ".toList
    "NIKE".toList "’S".toList ", now".toList "Nike".toList (by decide) (by decide)
    (by decide) (by decide)
    (fun c hc => by
      have : "Buy ".toList.getLast? = some ' ' := by decide
      rw [this] at hc
      simp only [Option.some.injEq] at hc
      subst hc
      decide)
    (by decide) (by decide)).1

/-- C3, amended.  The three passes return a document for every object.  When the canonical
brand is one word of ASCII letters and digits, every boundary-delimited occurrence of the
brand in every string of the returned document is spelled exactly as the canonical brand;
and in a string that a further rewrite would leave unchanged, no occurrence delimited on
the left is followed by a suffix (`'s`, `’s` or `s` in either letter case) and a boundary.
When the raw brand is regular and no match in a string of the input is directly followed
by an apostrophe (no stacked suffix; so when the strings hold no apostrophe), every string of the returned document is left
unchanged by a further rewrite, and every match that the matcher finds in it is the
canonical brand itself, without suffix; for a one-word brand every occurrence is then
spelled as the canonical brand and none is followed by a suffix. -/
theorem full_canonicalization :
    (∀ (up : Char → Str) (raw : Option Str) (fields : List (Str × Doc)),
      ∃ out, enforceCanonicalBrand up (Doc.obj fields) raw = .ok out) ∧
    (∀ (up : Char → Str) (raw : Option Str) (doc out : Doc),
      canonicalizeBrand up raw ≠ [] →
      (∀ c ∈ canonicalizeBrand up raw, isAsciiAlnum c = true) →
      enforceCanonicalBrand up doc raw = .ok out →
      allStrings (fun t =>
        (∀ pre occ post : Str, t = pre ++ occ ++ post →
          DelimitedOccurrence (canonicalizeBrand up raw) pre occ post →
          occ = canonicalizeBrand up raw) ∧
        (rewriteText up (some (canonicalizeBrand up raw)) (canonicalizeBrand up raw) t = t →
          ∀ pre occ suf post : Str, t = pre ++ occ ++ suf ++ post →
            sameIgnoringCase (canonicalizeBrand up raw) occ →
            (∀ c, pre.getLast? = some c → isAsciiAlnum c = false) →
            suf ∈ suffixTexts → lookaheadOk post = true → False)) out) ∧
    (∀ (up : Char → Str) (raw : Option Str) (doc out : Doc),
      SpaceStable up → canonicalizeBrand up raw ≠ [] →
      resolverRegular up (normalizeSpaces raw) = true →
      allStrings (fun t => noStackedSuffix up (canonicalizeBrand up raw) t = true ∨
        noApostrophe up t) doc →
      enforceCanonicalBrand up doc raw = .ok out →
      allStrings (fun t =>
        rewriteText up (some (canonicalizeBrand up raw)) (canonicalizeBrand up raw) t = t ∧
          ∀ m ∈ scanMatches up (canonicalizeBrand up raw) t,
            m.brand = canonicalizeBrand up raw ∧ m.suffix = []) out) ∧
    (∀ (up : Char → Str) (raw : Option Str) (doc out : Doc),
      SpaceStable up → canonicalizeBrand up raw ≠ [] →
      (∀ c ∈ canonicalizeBrand up raw, isAsciiAlnum c = true) →
      resolverRegular up (normalizeSpaces raw) = true →
      allStrings (fun t => noStackedSuffix up (canonicalizeBrand up raw) t = true ∨
        noApostrophe up t) doc →
      enforceCanonicalBrand up doc raw = .ok out →
      allStrings (fun t =>
        (∀ pre occ post : Str, t = pre ++ occ ++ post →
          DelimitedOccurrence (canonicalizeBrand up raw) pre occ post →
          occ = canonicalizeBrand up raw) ∧
        (∀ pre occ suf post : Str, t = pre ++ occ ++ suf ++ post →
          sameIgnoringCase (canonicalizeBrand up raw) occ →
          (∀ c, pre.getLast? = some c → isAsciiAlnum c = false) →
          suf ∈ suffixTexts → lookaheadOk post = true → False)) out) := by
  have part2 : ∀ (up : Char → Str) (raw : Option Str) (doc out : Doc),
      canonicalizeBrand up raw ≠ [] →
      (∀ c ∈ canonicalizeBrand up raw, isAsciiAlnum c = true) →
      enforceCanonicalBrand up doc raw = .ok out →
      allStrings (fun t =>
        (∀ pre occ post : Str, t = pre ++ occ ++ post →
          DelimitedOccurrence (canonicalizeBrand up raw) pre occ post →
          occ = canonicalizeBrand up raw) ∧
        (rewriteText up (some (canonicalizeBrand up raw)) (canonicalizeBrand up raw) t = t →
          ∀ pre occ suf post : Str, t = pre ++ occ ++ suf ++ post →
            sameIgnoringCase (canonicalizeBrand up raw) occ →
            (∀ c, pre.getLast? = some c → isAsciiAlnum c = false) →
            suf ∈ suffixTexts → lookaheadOk post = true → False)) out := by
    intro up raw doc out hne hcb h
    obtain ⟨g, hg⟩ := enforce_is_walk up doc out raw hne hcb h
    rw [hg]
    apply allStrings_walk
    · refine ⟨?_, ?_⟩
      · intro pre occ post h0 hocc
        exfalso
        have hl := congrArg List.length h0
        simp only [List.length_nil, List.length_append] at hl
        exact same_ne_nil _ occ hne hocc.1 (List.length_eq_zero.mp (by omega))
      · intro _ pre occ suf post h0 hocc _ _ _
        exfalso
        have hl := congrArg List.length h0
        simp only [List.length_nil, List.length_append] at hl
        exact same_ne_nil _ occ hne hocc (List.length_eq_zero.mp (by omega))
    · intro s
      refine ⟨?_, ?_⟩
      · intro pre occ post hs hocc
        exact occurrences_canonical up _ hne hcb s pre occ post hs hocc
      · intro hfix pre occ suf post ht hocc hpre hsuf0 hl
        obtain ⟨hsne, hsuf⟩ := suffixTexts_alt up suf post hsuf0
        exact no_suffixed_occurrence up _ hne hcb _ hfix pre occ suf post ht hocc hpre hsne
          hsuf hl
  have hclear : ∀ (up : Char → Str) (raw : Option Str) (doc : Doc),
      canonicalizeBrand up raw ≠ [] →
      allStrings (fun t => noStackedSuffix up (canonicalizeBrand up raw) t = true ∨
        noApostrophe up t) doc →
      allStrings (fun t => noStackedSuffix up (canonicalizeBrand up raw) t = true) doc := by
    intro up raw doc hne hdoc
    refine allStrings_mono _ _ (fun t ht => ?_) doc hdoc
    rcases ht with ht | ht
    · exact ht
    · exact clear_of_noApostrophe up _ hne t ht
  refine ⟨fun up raw fields => enforce_obj_ok up fields raw, part2, ?_, ?_⟩
  · intro up raw doc out hup hne hreg hdoc h
    exact enforce_clear up hup raw doc out hne hreg (hclear up raw doc hne hdoc) h
  · intro up raw doc out hup hne hcb hreg hdoc h
    have h2 := part2 up raw doc out hne hcb h
    have h3 := enforce_clear up hup raw doc out hne hreg (hclear up raw doc hne hdoc) h
    have := allStrings_and _ _ out h2 h3
    refine allStrings_mono _ _ ?_ out this
    intro t ht
    exact ⟨ht.1.1, ht.1.2 ht.2.1⟩

set_option maxRecDepth 100000 in
/-- Witness of the amended C3 on the field `NIKE shoes, nikes and nike's bag`. -/
theorem full_canonicalization_witness :
    allStrings (fun t =>
        (∀ pre occ post : Str, t = pre ++ occ ++ post →
          DelimitedOccurrence (canonicalizeBrand sampleUpper (some "nike".toList)) pre occ post →
          occ = canonicalizeBrand sampleUpper (some "nike".toList)) ∧
        (∀ pre occ suf post : Str, t = pre ++ occ ++ suf ++ post →
          sameIgnoringCase (canonicalizeBrand sampleUpper (some "nike".toList)) occ →
          (∀ c, pre.getLast? = some c → isAsciiAlnum c = false) →
          suf ∈ suffixTexts → lookaheadOk post = true → False))
      (Doc.obj [("title".toList, Doc.str "Nike shoes, Nike and Nike bag".toList)]) :=
  full_canonicalization.2.2.2 sampleUpper (some "nike".toList)
    (Doc.obj [("title".toList, Doc.str "NIKE shoes, nikes and nike's bag".toList)])
    (Doc.obj [("title".toList, Doc.str "Nike shoes, Nike and Nike bag".toList)])
    sampleUpper_spaceStable (by decide) (by decide) (by decide)
    (by
      simp only [allStrings, allStringsFields, and_true]
      exact Or.inl (by decide))
    rfl


end Generate
